/-
Verification of the translatepr content-translation pipeline.

This file is a shallow embedding, in Lean 4, of the core of the
translatepr repository: the five content parsers
(src/services/contentParsers/jsonParser.ts, editorJsParser.ts,
markdownParser.ts (unnamed/part_002), htmlParser.ts (unnamed/part_003),
grapeJsParser.ts (unnamed/part_004)), the parser registry
(src/services/contentParsers/index.ts), the batched translation
orchestrator (src/services/enhancedTranslationService.ts) and the DeepL
backend adapter with its translation-memory cache
(src/services/deeplService.ts).

Modelling conventions:
- JavaScript strings are Lean `String`s; string algorithms are written
  over `List Char` so that every definition evaluates by kernel
  reduction.  `charCodeAt` is modelled by `Char.toNat` (identical on the
  Basic Multilingual Plane, which covers every input considered here).
- JSON documents (the result of `JSON.parse`) are the mutual inductive
  `J` / `JList` / `JObj`; `JSON.parse` itself is the executable `jsParse`
  and `JSON.stringify(x, null, 2)` is `jsStringify`.  JSON numbers keep
  their source lexeme (no floating point is ever computed on them).
- JavaScript `Map` built from an entry list is modelled by the entry
  list itself with a last-entry-wins lookup (`jsMapGet`), exactly the
  semantics of `new Map(entries)`.
- Asynchronous code: the pipeline is single-threaded cooperative
  concurrency (one logical thread), so `await` chains are modelled by
  explicit state passing and `Promise.all` over a batch by a positional
  map, which is exactly how the results are re-associated.
- Fallible backend calls are `Except`-valued functions supplied as
  parameters.
-/
import Mathlib

set_option maxHeartbeats 1000000
set_option maxRecDepth 4000

/-! # JavaScript string primitives -/

/-- Whitespace class of JavaScript (the `\s` regex class and
`String.prototype.trim`), restricted to the code points that occur in the
repository's data: space, tab, line feed, carriage return, vertical tab,
form feed. -/
def jsWs (c : Char) : Bool :=
  c == ' ' || c == '\t' || c == '\n' || c == '\r' || c == '\x0B' || c == '\x0C'

/-- List-level trim used to model `String.prototype.trim`. -/
def trimChars (cs : List Char) : List Char :=
  ((cs.dropWhile jsWs).reverse.dropWhile jsWs).reverse

/-- Model of `s.trim()`. -/
def jsTrim (s : String) : String := (trimChars s.toList).asString

/-- Model of `s.toLowerCase()` (ASCII letters, which is all the
repository's key sets contain). -/
def jsToLower (s : String) : String := (s.toList.map Char.toLower).asString

/-- Check that `pat` occurs at the head of `cs`. -/
def headMatches (pat cs : List Char) : Bool :=
  match pat, cs with
  | [], _ => true
  | _ :: _, [] => false
  | p :: ps, c :: rest => p == c && headMatches ps rest

/-- Check that `pat` occurs somewhere in `cs` (substring search). -/
def containsSub (pat cs : List Char) : Bool :=
  match cs with
  | [] => headMatches pat []
  | _ :: rest => headMatches pat cs || containsSub pat rest

/-- Drop everything up to and including the first occurrence of `pat`;
`none` when `pat` does not occur. -/
def dropAfterSub (pat cs : List Char) : Option (List Char) :=
  match cs with
  | [] => if headMatches pat [] then some [] else none
  | _ :: rest =>
    if headMatches pat cs then some (cs.drop pat.length)
    else dropAfterSub pat rest

/-- Model of `s.startsWith(p)`. -/
def jsStartsWith (s p : String) : Bool := headMatches p.toList s.toList

/-- Model of `s.split(sep)` for a single-character separator. -/
def splitOnChar (sep : Char) (cs : List Char) : List (List Char) :=
  match cs with
  | [] => [[]]
  | c :: rest =>
    let r := splitOnChar sep rest
    if c = sep then [] :: r
    else
      match r with
      | [] => [[c]]
      | h :: t => (c :: h) :: t

/-! # JSON documents

The result type of `JSON.parse`.  Objects are association lists in
document order (JavaScript objects preserve insertion order for string
keys, and `Object.keys` enumerates them in that order).  Numbers keep
their lexeme: no parser in the repository ever computes on a JSON
number, so the lexeme is a faithful canonical form. -/

mutual
inductive J where
  | null : J
  | boolean : Bool → J
  | num : String → J
  | str : String → J
  | arr : JList → J
  | obj : JObj → J
deriving DecidableEq, Repr
inductive JList where
  | nil : JList
  | cons : J → JList → JList
deriving DecidableEq, Repr
inductive JObj where
  | nil : JObj
  | cons : String → J → JObj → JObj
deriving DecidableEq, Repr
end

def JList.ofList : List J → JList
  | [] => .nil
  | x :: xs => .cons x (JList.ofList xs)

def JList.toList : JList → List J
  | .nil => []
  | .cons x xs => x :: JList.toList xs

def JObj.ofList : List (String × J) → JObj
  | [] => .nil
  | (k, v) :: xs => .cons k v (JObj.ofList xs)

def JObj.toList : JObj → List (String × J)
  | .nil => []
  | .cons k v xs => (k, v) :: JObj.toList xs

/-- Convenience constructor for array literals. -/
def jA (l : List J) : J := .arr (JList.ofList l)

/-- Convenience constructor for object literals. -/
def jO (l : List (String × J)) : J := .obj (JObj.ofList l)

/-- Property access `o[k]` on a JSON value: `some` only when the value is
an object that has the key (first occurrence; `JSON.parse` never produces
duplicate keys).  On every other value the JavaScript result would be
`undefined` (or a `TypeError` on `null`, which the callers modelled here
all catch), modelled as `none`. -/
def getF : J → String → Option J
  | .obj fs, k => getFObj fs k
  | _, _ => none
where
  getFObj : JObj → String → Option J
  | .nil, _ => none
  | .cons k0 v rest, k => if k0 = k then some v else getFObj rest k

/-- Property update `o[k] = .str v` on an object: replaces the value in
place when the key exists (keeping key order, as JavaScript does) and
appends the key otherwise (JavaScript adds new keys at the end). -/
def setF : JObj → String → J → JObj
  | .nil, k, v => .cons k v .nil
  | .cons k0 v0 rest, k, v =>
    if k0 = k then .cons k0 v rest else .cons k0 v0 (setF rest k v)

/-- JavaScript truthiness of a parsed JSON value.  A number is falsy
exactly when it denotes zero, i.e. its mantissa has no nonzero digit. -/
def jTruthy : J → Bool
  | .null => false
  | .boolean b => b
  | .num s =>
    let mantissa := (s.toList.takeWhile (fun c => c ≠ 'e' && c ≠ 'E'))
    mantissa.any (fun c => '1' ≤ c && c ≤ '9')
  | .str s => s ≠ ""
  | .arr _ => true
  | .obj _ => true

/-! # jsParse: executable model of JSON.parse -/

def hexDigitVal (c : Char) : Option Nat :=
  if '0' ≤ c && c ≤ '9' then some (c.toNat - 48)
  else if 'a' ≤ c && c ≤ 'f' then some (c.toNat - 87)
  else if 'A' ≤ c && c ≤ 'F' then some (c.toNat - 55)
  else none

/-- String-literal body parser: input starts right after the opening
quote; returns the decoded contents and the rest after the closing
quote. -/
def parseStrBody : List Char → Option (List Char × List Char)
  | [] => none
  | '"' :: rest => some ([], rest)
  | '\\' :: 'u' :: h1 :: h2 :: h3 :: h4 :: rest => do
    let a ← hexDigitVal h1
    let b ← hexDigitVal h2
    let c ← hexDigitVal h3
    let d ← hexDigitVal h4
    let (tail, rem) ← parseStrBody rest
    pure (Char.ofNat (((a * 16 + b) * 16 + c) * 16 + d) :: tail, rem)
  | '\\' :: e :: rest =>
    let dec : Option Char :=
      if e = '"' then some '"'
      else if e = '\\' then some '\\'
      else if e = '/' then some '/'
      else if e = 'b' then some '\x08'
      else if e = 'f' then some '\x0C'
      else if e = 'n' then some '\n'
      else if e = 'r' then some '\r'
      else if e = 't' then some '\t'
      else none
    match dec with
    | none => none
    | some c => do
      let (tail, rem) ← parseStrBody rest
      pure (c :: tail, rem)
  | c :: rest =>
    if c.toNat < 32 then none
    else do
      let (tail, rem) ← parseStrBody rest
      pure (c :: tail, rem)

/-- Number lexeme parser (strict JSON grammar). -/
def parseNumLexeme (cs : List Char) : Option (List Char × List Char) :=
  let (sign, cs1) :=
    match cs with
    | '-' :: rest => (['-'], rest)
    | _ => (([] : List Char), cs)
  let intRes : Option (List Char × List Char) :=
    match cs1 with
    | '0' :: rest => some (['0'], rest)
    | c :: rest =>
      if '1' ≤ c && c ≤ '9' then
        some (c :: rest.takeWhile Char.isDigit, rest.dropWhile Char.isDigit)
      else none
    | [] => none
  match intRes with
  | none => none
  | some (ip, cs2) =>
    let (fp, cs3) :=
      match cs2 with
      | '.' :: rest =>
        let ds := rest.takeWhile Char.isDigit
        if ds = [] then ([], cs2)
        else ('.' :: ds, rest.dropWhile Char.isDigit)
      | _ => ([], cs2)
    if fp = [] && (match cs2 with | '.' :: _ => true | _ => false) then none
    else
      match cs3 with
      | e :: rest =>
        if e = 'e' || e = 'E' then
          let (es, rest2) :=
            match rest with
            | '+' :: r => (['+'], r)
            | '-' :: r => (['-'], r)
            | _ => (([] : List Char), rest)
          let ds := rest2.takeWhile Char.isDigit
          if ds = [] then none
          else some (sign ++ ip ++ fp ++ e :: es ++ ds, rest2.dropWhile Char.isDigit)
        else some (sign ++ ip ++ fp, cs3)
      | [] => some (sign ++ ip ++ fp, cs3)

mutual
/-- Fuel-indexed JSON value parser (recursive descent). -/
def parseVal : Nat → List Char → Option (J × List Char)
  | 0, _ => none
  | fuel + 1, cs =>
    let cs := cs.dropWhile jsWs
    match cs with
    | '{' :: rest => parseObjBody fuel rest .nil
    | '[' :: rest => parseArrBody fuel rest .nil
    | '"' :: rest => do
      let (body, rem) ← parseStrBody rest
      pure (J.str body.asString, rem)
    | 't' :: 'r' :: 'u' :: 'e' :: rest => some (J.boolean true, rest)
    | 'f' :: 'a' :: 'l' :: 's' :: 'e' :: rest => some (J.boolean false, rest)
    | 'n' :: 'u' :: 'l' :: 'l' :: rest => some (J.null, rest)
    | _ => do
      let (lex, rem) ← parseNumLexeme cs
      pure (J.num lex.asString, rem)

/-- Array-member loop: `acc` holds the members parsed so far, reversed. -/
def parseArrBody : Nat → List Char → JList → Option (J × List Char)
  | 0, _, _ => none
  | fuel + 1, cs, acc =>
    let cs := cs.dropWhile jsWs
    match cs with
    | ']' :: rest =>
      match acc with
      | .nil => some (J.arr .nil, rest)
      | _ => none
    | _ => do
      let (v, rem) ← parseVal fuel cs
      let rem := rem.dropWhile jsWs
      match rem with
      | ',' :: rem2 => parseArrBody fuel rem2 (.cons v acc)
      | ']' :: rem2 => pure (J.arr (revAppendJ (.cons v acc) .nil), rem2)
      | _ => none

/-- Object-member loop. -/
def parseObjBody : Nat → List Char → JObj → Option (J × List Char)
  | 0, _, _ => none
  | fuel + 1, cs, acc =>
    let cs := cs.dropWhile jsWs
    match cs with
    | '}' :: rest =>
      match acc with
      | .nil => some (J.obj .nil, rest)
      | _ => none
    | '"' :: rest => do
      let (key, rem) ← parseStrBody rest
      let rem := rem.dropWhile jsWs
      match rem with
      | ':' :: rem2 => do
        let (v, rem3) ← parseVal fuel rem2
        let rem3 := rem3.dropWhile jsWs
        match rem3 with
        | ',' :: rem4 => parseObjBody fuel rem4 (.cons key.asString v acc)
        | '}' :: rem4 => pure (J.obj (revAppendO (.cons key.asString v acc) .nil), rem4)
        | _ => none
      | _ => none
    | _ => none

def revAppendJ : JList → JList → JList
  | .nil, acc => acc
  | .cons x xs, acc => revAppendJ xs (.cons x acc)

def revAppendO : JObj → JObj → JObj
  | .nil, acc => acc
  | .cons k v xs, acc => revAppendO xs (.cons k v acc)
end

/-- Model of `JSON.parse(s)`: `none` exactly when `JSON.parse` throws. -/
def jsParse (s : String) : Option J :=
  match parseVal (s.length + 2) s.toList with
  | some (v, rest) => if rest.dropWhile jsWs = [] then some v else none
  | none => none

/-! # jsStringify: model of JSON.stringify(x, null, 2) -/

/-- JSON string-literal escaping as performed by `JSON.stringify`. -/
def escapeChars : List Char → List Char
  | [] => []
  | c :: rest =>
    let e :=
      if c = '"' then ['\\', '"']
      else if c = '\\' then ['\\', '\\']
      else if c = '\n' then ['\\', 'n']
      else if c = '\r' then ['\\', 'r']
      else if c = '\t' then ['\\', 't']
      else if c = '\x08' then ['\\', 'b']
      else if c = '\x0C' then ['\\', 'f']
      else if c.toNat < 32 then
        let hexDig (n : Nat) : Char := if n < 10 then Char.ofNat (48 + n) else Char.ofNat (87 + n - 10)
        ['\\', 'u', '0', '0', hexDig (c.toNat / 16), hexDig (c.toNat % 16)]
      else [c]
    e ++ escapeChars rest

def quoteStr (s : String) : String := "\"" ++ (escapeChars s.toList).asString ++ "\""

mutual
/-- Model of `JSON.stringify(j, null, 2)`; `ind` is the indentation of
the enclosing level. -/
def jsStringify (j : J) (ind : String) : String :=
  match j with
  | .null => "null"
  | .boolean b => if b then "true" else "false"
  | .num s => s
  | .str s => quoteStr s
  | .arr .nil => "[]"
  | .arr xs =>
    "[\n" ++ stringifyItems xs (ind ++ "  ") ++ "\n" ++ ind ++ "]"
  | .obj .nil => "\x7b\x7d"
  | .obj fs =>
    "\x7b\n" ++ stringifyFields fs (ind ++ "  ") ++ "\n" ++ ind ++ "\x7d"

def stringifyItems (xs : JList) (ind : String) : String :=
  match xs with
  | .nil => ""
  | .cons x .nil => ind ++ jsStringify x ind
  | .cons x rest => ind ++ jsStringify x ind ++ ",\n" ++ stringifyItems rest ind

def stringifyFields (fs : JObj) (ind : String) : String :=
  match fs with
  | .nil => ""
  | .cons k v .nil => ind ++ quoteStr k ++ ": " ++ jsStringify v ind
  | .cons k v rest => ind ++ quoteStr k ++ ": " ++ jsStringify v ind ++ ",\n" ++ stringifyFields rest ind
end

/-! # The fragment model (`ExtractedText`, src/types/index.ts) -/

inductive FragType where
  | text | alt | title | placeholder | meta
deriving DecidableEq, Repr

structure ExtractedText where
  id : String
  originalText : String
  translatedText : Option String := none
  path : String
  context : String
  type : FragType
deriving DecidableEq, Repr

/-- Model of the JavaScript idiom `t.translatedText || t.originalText`:
an absent or empty translation falls back to the original. -/
def jsOrElse (o : Option String) (d : String) : String :=
  match o with
  | some s => if s = "" then d else s
  | none => d

/-- Lookup in a JavaScript `Map` built via `new Map(entries)`: the last
entry for a key wins. -/
def jsMapGet (m : List (String × String)) (k : String) : Option String :=
  match m with
  | [] => none
  | (k0, v0) :: rest =>
    match jsMapGet rest k with
    | some v => some v
    | none => if k0 = k then some v0 else none

/-- Model of `new Map(translations.map(t => [t.path, t.translatedText || t.originalText]))`,
kept as the underlying entry list (`jsMapGet` applies the Map semantics). -/
def translationEntries (ts : List ExtractedText) : List (String × String) :=
  ts.map (fun t => (t.path, jsOrElse t.translatedText t.originalText))

/-- Set `translatedText := originalText` on every fragment: the identity
translation used by the round-trip property. -/
def withIdentity (ts : List ExtractedText) : List ExtractedText :=
  ts.map (fun t => { t with translatedText := some t.originalText })

/-! # The generic JSON parser (src/services/contentParsers/jsonParser.ts) -/

namespace JsonParser

/-- Regex `^https?:\/\//i`. -/
def urlTest (value : String) : Bool :=
  jsStartsWith (jsToLower value) "http://" || jsStartsWith (jsToLower value) "https://"

/-- Regex `^[^\s@]+@[^\s@]+\.[^\s@]+$`: exactly one `@`; a nonempty
whitespace-free local part; a whitespace-free domain containing a dot
that is neither its first nor its last character (the class `[^\s@]`
admits further dots, so an inner dot characterises a match). -/
def emailTest (value : String) : Bool :=
  match splitOnChar '@' value.toList with
  | [a, b] =>
    !a.isEmpty && a.all (fun c => !jsWs c) && b.all (fun c => !jsWs c) &&
      ((b.drop 1).dropLast.contains '.')
  | _ => false

/-- Regex `^[a-f0-9-]{8,}$/i`. -/
def idTest (value : String) : Bool :=
  value.length ≥ 8 &&
    value.toList.all (fun c =>
      let l := c.toLower
      ('0' ≤ l && l ≤ '9') || ('a' ≤ l && l ≤ 'f') || l = '-')

/-- JsonParser.isTextualContent. -/
def isTextualContent (value : String) : Bool :=
  decide ((jsTrim value).length > 2) && !urlTest value && !emailTest value && !idTest value

/-- JsonParser.getContextForKey.  Both branches of the source return
`parentContext + " " + key`, so the textual-key test is dead code. -/
def getContextForKey (key parentContext : String) : String :=
  parentContext ++ " " ++ key

/-- Child path derivation: `path ? path + "." + key : key` (the empty
string is falsy). -/
def fieldPath (path key : String) : String :=
  if path = "" then key else path ++ "." ++ key

/-- Array child path derivation: `path + "[" + index + "]"`. -/
def itemPath (path : String) (i : Nat) : String :=
  path ++ "[" ++ toString i ++ "]"

mutual
/-- JsonParser.extractFromObject (returning the pushed fragments in push
order instead of mutating an accumulator). -/
def extractFromObject : J → String → String → List ExtractedText
  | .str s, path, ctx =>
    if isTextualContent s then
      [{ id := path, originalText := s, translatedText := none,
         path := path, context := ctx, type := .text }]
    else []
  | .arr xs, path, ctx => extractFromArr xs path ctx 0
  | .obj fs, path, ctx => extractFromFields fs path ctx
  | .null, _, _ => []
  | .boolean _, _, _ => []
  | .num _, _, _ => []

def extractFromArr : JList → String → String → Nat → List ExtractedText
  | .nil, _, _, _ => []
  | .cons x xs, path, ctx, i =>
    extractFromObject x (itemPath path i) (ctx ++ " array item") ++
      extractFromArr xs path ctx (i + 1)

def extractFromFields : JObj → String → String → List ExtractedText
  | .nil, _, _ => []
  | .cons k v fs, path, ctx =>
    extractFromObject v (fieldPath path k) (getContextForKey k ctx) ++
      extractFromFields fs path ctx
end

/-- JsonParser.parse. -/
def parse (content : String) : List ExtractedText :=
  match jsParse content with
  | some j => extractFromObject j "" "JSON"
  | none => []

/-- JsonParser.validate. -/
def validate (content : String) : Bool := (jsParse content).isSome

mutual
/-- JsonParser.reconstructObject (pure tree transformer; the JavaScript
version mutates `obj` in place, replacing any child whose derived path
is in the translation map and recursing otherwise). -/
def reconstructObject : J → String → List (String × String) → J
  | .null, _, _ => .null
  | .boolean b, _, _ => .boolean b
  | .num s, _, _ => .num s
  | .str s, _, _ => .str s
  | .arr xs, path, m => .arr (reconstructArr xs path m 0)
  | .obj fs, path, m => .obj (reconstructFields fs path m)

def reconstructArr : JList → String → List (String × String) → Nat → JList
  | .nil, _, _, _ => .nil
  | .cons x xs, path, m, i =>
    let q := itemPath path i
    let x2 :=
      match jsMapGet m q with
      | some v => J.str v
      | none => reconstructObject x q m
    .cons x2 (reconstructArr xs path m (i + 1))

def reconstructFields : JObj → String → List (String × String) → JObj
  | .nil, _, _ => .nil
  | .cons k v fs, path, m =>
    let q := fieldPath path k
    let v2 :=
      match jsMapGet m q with
      | some w => J.str w
      | none => reconstructObject v q m
    .cons k v2 (reconstructFields fs path m)
end

/-- JsonParser.reconstruct. -/
def reconstruct (originalContent : String) (translations : List ExtractedText) : String :=
  match jsParse originalContent with
  | none => originalContent
  | some j => jsStringify (reconstructObject j "" (translationEntries translations)) ""

/-! Path inventories used to state unambiguous-addressing hypotheses. -/

mutual
/-- Paths of every node of the tree (root included), in walk order.  The
walk visits each node once, so a duplicate entry in this list is exactly
a path collision between two distinct nodes. -/
def nodePaths : J → String → List String
  | .arr xs, p => p :: nodePathsArr xs p 0
  | .obj fs, p => p :: nodePathsObj fs p
  | _, p => [p]

def nodePathsArr : JList → String → Nat → List String
  | .nil, _, _ => []
  | .cons x xs, p, i => nodePaths x (itemPath p i) ++ nodePathsArr xs p (i + 1)

def nodePathsObj : JObj → String → List String
  | .nil, _ => []
  | .cons k v fs, p => nodePaths v (fieldPath p k) ++ nodePathsObj fs p
end

mutual
/-- Paths of the string-valued nodes of the tree (root included). -/
def strPaths : J → String → List String
  | .str _, p => [p]
  | .arr xs, p => strPathsArr xs p 0
  | .obj fs, p => strPathsObj fs p
  | _, _ => []

def strPathsArr : JList → String → Nat → List String
  | .nil, _, _ => []
  | .cons x xs, p, i => strPaths x (itemPath p i) ++ strPathsArr xs p (i + 1)

def strPathsObj : JObj → String → List String
  | .nil, _ => []
  | .cons k v fs, p => strPaths v (fieldPath p k) ++ strPathsObj fs p
end

mutual
/-- Path/value pairs of the extracted fragments (the projection of
`extractFromObject` that is independent of the context argument). -/
def extractPV : J → String → List (String × String)
  | .str s, p => if isTextualContent s then [(p, s)] else []
  | .arr xs, p => extractPVArr xs p 0
  | .obj fs, p => extractPVObj fs p
  | _, _ => []

def extractPVArr : JList → String → Nat → List (String × String)
  | .nil, _, _ => []
  | .cons x xs, p, i => extractPV x (itemPath p i) ++ extractPVArr xs p (i + 1)

def extractPVObj : JObj → String → List (String × String)
  | .nil, _ => []
  | .cons k v fs, p => extractPV v (fieldPath p k) ++ extractPVObj fs p
end

end JsonParser

/-! # Lookup and path-inventory lemmas -/

theorem jsMapGet_mem {m : List (String × String)} {k v : String}
    (h : jsMapGet m k = some v) : (k, v) ∈ m := by
  induction m with
  | nil => simp [jsMapGet] at h
  | cons e rest ih =>
    obtain ⟨k0, v0⟩ := e
    simp only [jsMapGet] at h
    cases hr : jsMapGet rest k with
    | some w =>
      rw [hr] at h
      exact List.mem_cons_of_mem _ (ih (hr.trans h))
    | none =>
      rw [hr] at h
      by_cases hk : k0 = k
      · simp [hk] at h
        subst hk h
        exact List.mem_cons_self _ _
      · simp [hk] at h

theorem jsOrElse_self (d : String) : jsOrElse (some d) d = d := by
  by_cases h : d = "" <;> simp [jsOrElse, h]

theorem translationEntries_withIdentity (ts : List ExtractedText) :
    translationEntries (withIdentity ts) = ts.map (fun t => (t.path, t.originalText)) := by
  induction ts with
  | nil => rfl
  | cons t rest ih =>
    simp [translationEntries, withIdentity, jsOrElse_self] at ih ⊢
    try exact ih

namespace JsonParser

mutual
theorem extractFromObject_pv (x : J) (p c : String) :
    (extractFromObject x p c).map (fun t => (t.path, t.originalText)) = extractPV x p := by
  cases x with
  | str s =>
    by_cases h : isTextualContent s <;> simp [extractFromObject, extractPV, h]
  | arr xs => simpa [extractFromObject, extractPV] using extractFromArr_pv xs p c 0
  | obj fs => simpa [extractFromObject, extractPV] using extractFromFields_pv fs p c
  | null => rfl
  | boolean b => rfl
  | num s => rfl

theorem extractFromArr_pv (xs : JList) (p c : String) (i : Nat) :
    (extractFromArr xs p c i).map (fun t => (t.path, t.originalText)) = extractPVArr xs p i := by
  cases xs with
  | nil => rfl
  | cons x rest =>
    simp only [extractFromArr, extractPVArr, List.map_append]
    rw [extractFromObject_pv, extractFromArr_pv]

theorem extractFromFields_pv (fs : JObj) (p c : String) :
    (extractFromFields fs p c).map (fun t => (t.path, t.originalText)) = extractPVObj fs p := by
  cases fs with
  | nil => rfl
  | cons k v rest =>
    simp only [extractFromFields, extractPVObj, List.map_append]
    rw [extractFromObject_pv, extractFromFields_pv]
end

mutual
theorem strPaths_sub {q : String} (x : J) (p : String) (h : q ∈ strPaths x p) :
    q ∈ nodePaths x p := by
  cases x with
  | str s => simpa [strPaths, nodePaths] using h
  | arr xs =>
    simp only [strPaths] at h
    exact List.mem_cons_of_mem _ (strPathsArr_sub xs p 0 h)
  | obj fs =>
    simp only [strPaths] at h
    exact List.mem_cons_of_mem _ (strPathsObj_sub fs p h)
  | null => simp [strPaths] at h
  | boolean b => simp [strPaths] at h
  | num s => simp [strPaths] at h

theorem strPathsArr_sub {q : String} (xs : JList) (p : String) (i : Nat)
    (h : q ∈ strPathsArr xs p i) : q ∈ nodePathsArr xs p i := by
  cases xs with
  | nil => simpa [strPathsArr] using h
  | cons x rest =>
    simp only [strPathsArr, nodePathsArr, List.mem_append] at h ⊢
    rcases h with h | h
    · exact Or.inl (strPaths_sub x _ h)
    · exact Or.inr (strPathsArr_sub rest p (i + 1) h)

theorem strPathsObj_sub {q : String} (fs : JObj) (p : String)
    (h : q ∈ strPathsObj fs p) : q ∈ nodePathsObj fs p := by
  cases fs with
  | nil => simpa [strPathsObj] using h
  | cons k v rest =>
    simp only [strPathsObj, nodePathsObj, List.mem_append] at h ⊢
    rcases h with h | h
    · exact Or.inl (strPaths_sub v _ h)
    · exact Or.inr (strPathsObj_sub rest p h)
end

mutual
theorem extractPV_fst_sub {q : String} (x : J) (p : String)
    (h : q ∈ (extractPV x p).map Prod.fst) : q ∈ strPaths x p := by
  cases x with
  | str s =>
    by_cases ht : isTextualContent s
    · simpa [extractPV, strPaths, ht] using h
    · simp [extractPV, ht] at h
  | arr xs =>
    simp only [extractPV, strPaths] at h ⊢
    exact extractPVArr_fst_sub xs p 0 h
  | obj fs =>
    simp only [extractPV, strPaths] at h ⊢
    exact extractPVObj_fst_sub fs p h
  | null => simp [extractPV] at h
  | boolean b => simp [extractPV] at h
  | num s => simp [extractPV] at h

theorem extractPVArr_fst_sub {q : String} (xs : JList) (p : String) (i : Nat)
    (h : q ∈ (extractPVArr xs p i).map Prod.fst) : q ∈ strPathsArr xs p i := by
  cases xs with
  | nil => simpa [extractPVArr] using h
  | cons x rest =>
    simp only [extractPVArr, strPathsArr, List.map_append, List.mem_append] at h ⊢
    rcases h with h | h
    · exact Or.inl (extractPV_fst_sub x _ h)
    · exact Or.inr (extractPVArr_fst_sub rest p (i + 1) h)

theorem extractPVObj_fst_sub {q : String} (fs : JObj) (p : String)
    (h : q ∈ (extractPVObj fs p).map Prod.fst) : q ∈ strPathsObj fs p := by
  cases fs with
  | nil => simpa [extractPVObj] using h
  | cons k v rest =>
    simp only [extractPVObj, strPathsObj, List.map_append, List.mem_append] at h ⊢
    rcases h with h | h
    · exact Or.inl (extractPV_fst_sub v _ h)
    · exact Or.inr (extractPVObj_fst_sub rest p h)
end

end JsonParser

namespace JsonParser

mutual
/-- Identity reconstruction engine: when every translation-map hit inside
the subtree is an extracted (path, originalText) pair of that subtree and
node paths are collision-free, reconstruction is the identity. -/
theorem reconIdent (x : J) (q : String) (m : List (String × String))
    (hN : (nodePaths x q).Nodup)
    (hM : ∀ p v, jsMapGet m p = some v → p ∈ nodePaths x q → (p, v) ∈ extractPV x q) :
    reconstructObject x q m = x := by
  cases x with
  | null => rfl
  | boolean b => rfl
  | num s => rfl
  | str s => rfl
  | arr xs =>
    have hN' : (nodePathsArr xs q 0).Nodup := by
      simp only [nodePaths, List.nodup_cons] at hN
      exact hN.2
    have hM' : ∀ p v, jsMapGet m p = some v → p ∈ nodePathsArr xs q 0 →
        (p, v) ∈ extractPVArr xs q 0 := by
      intro p v hg hp
      have h0 := hM p v hg (by simp only [nodePaths]; exact List.mem_cons_of_mem _ hp)
      simpa [extractPV] using h0
    simp only [reconstructObject]
    rw [reconIdentArr xs q 0 m hN' hM']
  | obj fs =>
    have hN' : (nodePathsObj fs q).Nodup := by
      simp only [nodePaths, List.nodup_cons] at hN
      exact hN.2
    have hM' : ∀ p v, jsMapGet m p = some v → p ∈ nodePathsObj fs q →
        (p, v) ∈ extractPVObj fs q := by
      intro p v hg hp
      have h0 := hM p v hg (by simp only [nodePaths]; exact List.mem_cons_of_mem _ hp)
      simpa [extractPV] using h0
    simp only [reconstructObject]
    rw [reconIdentObj fs q m hN' hM']

theorem reconIdentArr (xs : JList) (q : String) (i : Nat) (m : List (String × String))
    (hN : (nodePathsArr xs q i).Nodup)
    (hM : ∀ p v, jsMapGet m p = some v → p ∈ nodePathsArr xs q i →
      (p, v) ∈ extractPVArr xs q i) :
    reconstructArr xs q m i = xs := by
  cases xs with
  | nil => rfl
  | cons x rest =>
    have hNx : (nodePaths x (itemPath q i)).Nodup := by
      simp only [nodePathsArr] at hN
      exact hN.of_append_left
    have hNr : (nodePathsArr rest q (i + 1)).Nodup := by
      simp only [nodePathsArr] at hN
      exact hN.of_append_right
    have hDis : List.Disjoint (nodePaths x (itemPath q i)) (nodePathsArr rest q (i + 1)) := by
      simp only [nodePathsArr] at hN
      exact List.disjoint_of_nodup_append hN
    have hRoot : itemPath q i ∈ nodePaths x (itemPath q i) := by
      cases x <;> simp [nodePaths]
    have hTail : reconstructArr rest q m (i + 1) = rest := by
      apply reconIdentArr rest q (i + 1) m hNr
      intro p v hg hp
      have h0 := hM p v hg (by simp only [nodePathsArr, List.mem_append]; exact Or.inr hp)
      simp only [extractPVArr, List.mem_append] at h0
      rcases h0 with h0 | h0
      · exfalso
        have h1 := List.mem_map_of_mem Prod.fst h0
        have h2 := strPaths_sub x (itemPath q i) (extractPV_fst_sub x (itemPath q i) h1)
        exact hDis h2 hp
      · exact h0
    simp only [reconstructArr]
    rw [hTail]
    cases hg : jsMapGet m (itemPath q i) with
    | some v =>
      have hmem : (itemPath q i, v) ∈ extractPV x (itemPath q i) ∨
          (itemPath q i, v) ∈ extractPVArr rest q (i + 1) := by
        have h0 := hM (itemPath q i) v hg
          (by simp only [nodePathsArr, List.mem_append]; exact Or.inl hRoot)
        simpa [extractPVArr, List.mem_append] using h0
      rcases hmem with hmem | hmem
      · cases x with
        | str s =>
          simp only [extractPV] at hmem
          by_cases ht : isTextualContent s
          · simp only [ht, if_true, List.mem_singleton, Prod.mk.injEq] at hmem
            simp [hmem.2]
          · simp [ht] at hmem
        | null => simp [extractPV] at hmem
        | boolean b => simp [extractPV] at hmem
        | num s => simp [extractPV] at hmem
        | arr ys =>
          exfalso
          have h1 := List.mem_map_of_mem Prod.fst hmem
          have h2 := extractPV_fst_sub _ _ h1
          simp only [strPaths] at h2
          have h3 := strPathsArr_sub ys _ 0 h2
          simp only [nodePaths, List.nodup_cons] at hNx
          exact hNx.1 h3
        | obj gs =>
          exfalso
          have h1 := List.mem_map_of_mem Prod.fst hmem
          have h2 := extractPV_fst_sub _ _ h1
          simp only [strPaths] at h2
          have h3 := strPathsObj_sub gs _ h2
          simp only [nodePaths, List.nodup_cons] at hNx
          exact hNx.1 h3
      · exfalso
        have h1 := List.mem_map_of_mem Prod.fst hmem
        have h2 := strPathsArr_sub rest q (i + 1) (extractPVArr_fst_sub rest q (i + 1) h1)
        exact hDis hRoot h2
    | none =>
      rw [reconIdent x (itemPath q i) m hNx]
      intro p v hg2 hp
      have h0 := hM p v hg2 (by simp only [nodePathsArr, List.mem_append]; exact Or.inl hp)
      simp only [extractPVArr, List.mem_append] at h0
      rcases h0 with h0 | h0
      · exact h0
      · exfalso
        have h1 := List.mem_map_of_mem Prod.fst h0
        have h2 := strPathsArr_sub rest q (i + 1) (extractPVArr_fst_sub rest q (i + 1) h1)
        exact hDis hp h2

theorem reconIdentObj (fs : JObj) (q : String) (m : List (String × String))
    (hN : (nodePathsObj fs q).Nodup)
    (hM : ∀ p v, jsMapGet m p = some v → p ∈ nodePathsObj fs q →
      (p, v) ∈ extractPVObj fs q) :
    reconstructFields fs q m = fs := by
  cases fs with
  | nil => rfl
  | cons k x rest =>
    have hNx : (nodePaths x (fieldPath q k)).Nodup := by
      simp only [nodePathsObj] at hN
      exact hN.of_append_left
    have hNr : (nodePathsObj rest q).Nodup := by
      simp only [nodePathsObj] at hN
      exact hN.of_append_right
    have hDis : List.Disjoint (nodePaths x (fieldPath q k)) (nodePathsObj rest q) := by
      simp only [nodePathsObj] at hN
      exact List.disjoint_of_nodup_append hN
    have hRoot : fieldPath q k ∈ nodePaths x (fieldPath q k) := by
      cases x <;> simp [nodePaths]
    have hTail : reconstructFields rest q m = rest := by
      apply reconIdentObj rest q m hNr
      intro p v hg hp
      have h0 := hM p v hg (by simp only [nodePathsObj, List.mem_append]; exact Or.inr hp)
      simp only [extractPVObj, List.mem_append] at h0
      rcases h0 with h0 | h0
      · exfalso
        have h1 := List.mem_map_of_mem Prod.fst h0
        have h2 := strPaths_sub x (fieldPath q k) (extractPV_fst_sub x (fieldPath q k) h1)
        exact hDis h2 hp
      · exact h0
    simp only [reconstructFields]
    rw [hTail]
    cases hg : jsMapGet m (fieldPath q k) with
    | some v =>
      have hmem : (fieldPath q k, v) ∈ extractPV x (fieldPath q k) ∨
          (fieldPath q k, v) ∈ extractPVObj rest q := by
        have h0 := hM (fieldPath q k) v hg
          (by simp only [nodePathsObj, List.mem_append]; exact Or.inl hRoot)
        simpa [extractPVObj, List.mem_append] using h0
      rcases hmem with hmem | hmem
      · cases x with
        | str s =>
          simp only [extractPV] at hmem
          by_cases ht : isTextualContent s
          · simp only [ht, if_true, List.mem_singleton, Prod.mk.injEq] at hmem
            simp [hmem.2]
          · simp [ht] at hmem
        | null => simp [extractPV] at hmem
        | boolean b => simp [extractPV] at hmem
        | num s => simp [extractPV] at hmem
        | arr ys =>
          exfalso
          have h1 := List.mem_map_of_mem Prod.fst hmem
          have h2 := extractPV_fst_sub _ _ h1
          simp only [strPaths] at h2
          have h3 := strPathsArr_sub ys _ 0 h2
          simp only [nodePaths, List.nodup_cons] at hNx
          exact hNx.1 h3
        | obj gs =>
          exfalso
          have h1 := List.mem_map_of_mem Prod.fst hmem
          have h2 := extractPV_fst_sub _ _ h1
          simp only [strPaths] at h2
          have h3 := strPathsObj_sub gs _ h2
          simp only [nodePaths, List.nodup_cons] at hNx
          exact hNx.1 h3
      · exfalso
        have h1 := List.mem_map_of_mem Prod.fst hmem
        have h2 := strPathsObj_sub rest q (extractPVObj_fst_sub rest q h1)
        exact hDis hRoot h2
    | none =>
      rw [reconIdent x (fieldPath q k) m hNx]
      intro p v hg2 hp
      have h0 := hM p v hg2 (by simp only [nodePathsObj, List.mem_append]; exact Or.inl hp)
      simp only [extractPVObj, List.mem_append] at h0
      rcases h0 with h0 | h0
      · exact h0
      · exfalso
        have h1 := List.mem_map_of_mem Prod.fst h0
        have h2 := strPathsObj_sub rest q (extractPVObj_fst_sub rest q h1)
        exact hDis hp h2
end

end JsonParser

namespace JsonParser

mutual
/-- Specification-side substitution (from the spec, §4.2 / C3 amended):
reproduce the document tree exactly, replacing only the non-root string
leaves whose derived path has a translation-map entry by that entry's
value; every other node — including the root itself, which the
implementation never substitutes — is kept. -/
def specSubst : J → String → List (String × String) → J
  | .arr xs, p, m => .arr (specSubstArr xs p m 0)
  | .obj fs, p, m => .obj (specSubstObj fs p m)
  | x, _, _ => x

def specSubstArr : JList → String → List (String × String) → Nat → JList
  | .nil, _, _, _ => .nil
  | .cons x xs, p, m, i =>
    let q := itemPath p i
    let x2 :=
      match x with
      | .str s =>
        J.str (match jsMapGet m q with | some v => v | none => s)
      | _ => specSubst x q m
    .cons x2 (specSubstArr xs p m (i + 1))

def specSubstObj : JObj → String → List (String × String) → JObj
  | .nil, _, _ => .nil
  | .cons k x fs, p, m =>
    let q := fieldPath p k
    let x2 :=
      match x with
      | .str s =>
        J.str (match jsMapGet m q with | some v => v | none => s)
      | _ => specSubst x q m
    .cons k x2 (specSubstObj fs p m)
end

mutual
/-- Refinement engine: when every translation-map key that addresses a
node of the subtree addresses a string node, and node paths are
collision-free, the implementation's reconstruction coincides with the
specification-side leaf substitution. -/
theorem reconRefines (x : J) (q : String) (m : List (String × String))
    (hN : (nodePaths x q).Nodup)
    (hM : ∀ p, p ∈ m.map Prod.fst → p ∈ nodePaths x q → p ∈ strPaths x q) :
    reconstructObject x q m = specSubst x q m := by
  cases x with
  | null => rfl
  | boolean b => rfl
  | num s => rfl
  | str s => rfl
  | arr xs =>
    have hN' : (nodePathsArr xs q 0).Nodup := by
      simp only [nodePaths, List.nodup_cons] at hN
      exact hN.2
    have hM' : ∀ p, p ∈ m.map Prod.fst → p ∈ nodePathsArr xs q 0 → p ∈ strPathsArr xs q 0 := by
      intro p hd hp
      have h0 := hM p hd (by simp only [nodePaths]; exact List.mem_cons_of_mem _ hp)
      simpa [strPaths] using h0
    simp only [reconstructObject, specSubst]
    rw [reconRefinesArr xs q 0 m hN' hM']
  | obj fs =>
    have hN' : (nodePathsObj fs q).Nodup := by
      simp only [nodePaths, List.nodup_cons] at hN
      exact hN.2
    have hM' : ∀ p, p ∈ m.map Prod.fst → p ∈ nodePathsObj fs q → p ∈ strPathsObj fs q := by
      intro p hd hp
      have h0 := hM p hd (by simp only [nodePaths]; exact List.mem_cons_of_mem _ hp)
      simpa [strPaths] using h0
    simp only [reconstructObject, specSubst]
    rw [reconRefinesObj fs q m hN' hM']

theorem reconRefinesArr (xs : JList) (q : String) (i : Nat) (m : List (String × String))
    (hN : (nodePathsArr xs q i).Nodup)
    (hM : ∀ p, p ∈ m.map Prod.fst → p ∈ nodePathsArr xs q i → p ∈ strPathsArr xs q i) :
    reconstructArr xs q m i = specSubstArr xs q m i := by
  cases xs with
  | nil => rfl
  | cons x rest =>
    have hNx : (nodePaths x (itemPath q i)).Nodup := by
      simp only [nodePathsArr] at hN
      exact hN.of_append_left
    have hNr : (nodePathsArr rest q (i + 1)).Nodup := by
      simp only [nodePathsArr] at hN
      exact hN.of_append_right
    have hDis : List.Disjoint (nodePaths x (itemPath q i)) (nodePathsArr rest q (i + 1)) := by
      simp only [nodePathsArr] at hN
      exact List.disjoint_of_nodup_append hN
    have hRoot : itemPath q i ∈ nodePaths x (itemPath q i) := by
      cases x <;> simp [nodePaths]
    have hMx : ∀ p, p ∈ m.map Prod.fst → p ∈ nodePaths x (itemPath q i) →
        p ∈ strPaths x (itemPath q i) := by
      intro p hd hp
      have h0 := hM p hd (by simp only [nodePathsArr, List.mem_append]; exact Or.inl hp)
      simp only [strPathsArr, List.mem_append] at h0
      rcases h0 with h0 | h0
      · exact h0
      · exfalso
        exact hDis hp (strPathsArr_sub rest q (i + 1) h0)
    have hTail : reconstructArr rest q m (i + 1) = specSubstArr rest q m (i + 1) := by
      apply reconRefinesArr rest q (i + 1) m hNr
      intro p hd hp
      have h0 := hM p hd (by simp only [nodePathsArr, List.mem_append]; exact Or.inr hp)
      simp only [strPathsArr, List.mem_append] at h0
      rcases h0 with h0 | h0
      · exfalso
        exact hDis (strPaths_sub x (itemPath q i) h0) hp
      · exact h0
    simp only [reconstructArr, specSubstArr]
    rw [hTail]
    cases hg : jsMapGet m (itemPath q i) with
    | some v =>
      have hdom : itemPath q i ∈ m.map Prod.fst :=
        List.mem_map_of_mem Prod.fst (jsMapGet_mem hg)
      have hstr := hMx (itemPath q i) hdom hRoot
      cases x with
      | str s => simp [hg]
      | null => simp [strPaths] at hstr
      | boolean b => simp [strPaths] at hstr
      | num s => simp [strPaths] at hstr
      | arr ys =>
        exfalso
        simp only [strPaths] at hstr
        have h3 := strPathsArr_sub ys _ 0 hstr
        simp only [nodePaths, List.nodup_cons] at hNx
        exact hNx.1 h3
      | obj gs =>
        exfalso
        simp only [strPaths] at hstr
        have h3 := strPathsObj_sub gs _ hstr
        simp only [nodePaths, List.nodup_cons] at hNx
        exact hNx.1 h3
    | none =>
      cases x with
      | str s => simp [hg, reconstructObject]
      | null => rfl
      | boolean b => rfl
      | num s => rfl
      | arr ys => simpa using reconRefines (J.arr ys) (itemPath q i) m hNx hMx
      | obj gs => simpa using reconRefines (J.obj gs) (itemPath q i) m hNx hMx

theorem reconRefinesObj (fs : JObj) (q : String) (m : List (String × String))
    (hN : (nodePathsObj fs q).Nodup)
    (hM : ∀ p, p ∈ m.map Prod.fst → p ∈ nodePathsObj fs q → p ∈ strPathsObj fs q) :
    reconstructFields fs q m = specSubstObj fs q m := by
  cases fs with
  | nil => rfl
  | cons k x rest =>
    have hNx : (nodePaths x (fieldPath q k)).Nodup := by
      simp only [nodePathsObj] at hN
      exact hN.of_append_left
    have hNr : (nodePathsObj rest q).Nodup := by
      simp only [nodePathsObj] at hN
      exact hN.of_append_right
    have hDis : List.Disjoint (nodePaths x (fieldPath q k)) (nodePathsObj rest q) := by
      simp only [nodePathsObj] at hN
      exact List.disjoint_of_nodup_append hN
    have hRoot : fieldPath q k ∈ nodePaths x (fieldPath q k) := by
      cases x <;> simp [nodePaths]
    have hMx : ∀ p, p ∈ m.map Prod.fst → p ∈ nodePaths x (fieldPath q k) →
        p ∈ strPaths x (fieldPath q k) := by
      intro p hd hp
      have h0 := hM p hd (by simp only [nodePathsObj, List.mem_append]; exact Or.inl hp)
      simp only [strPathsObj, List.mem_append] at h0
      rcases h0 with h0 | h0
      · exact h0
      · exfalso
        exact hDis hp (strPathsObj_sub rest q h0)
    have hTail : reconstructFields rest q m = specSubstObj rest q m := by
      apply reconRefinesObj rest q m hNr
      intro p hd hp
      have h0 := hM p hd (by simp only [nodePathsObj, List.mem_append]; exact Or.inr hp)
      simp only [strPathsObj, List.mem_append] at h0
      rcases h0 with h0 | h0
      · exfalso
        exact hDis (strPaths_sub x (fieldPath q k) h0) hp
      · exact h0
    simp only [reconstructFields, specSubstObj]
    rw [hTail]
    cases hg : jsMapGet m (fieldPath q k) with
    | some v =>
      have hdom : fieldPath q k ∈ m.map Prod.fst :=
        List.mem_map_of_mem Prod.fst (jsMapGet_mem hg)
      have hstr := hMx (fieldPath q k) hdom hRoot
      cases x with
      | str s => simp [hg]
      | null => simp [strPaths] at hstr
      | boolean b => simp [strPaths] at hstr
      | num s => simp [strPaths] at hstr
      | arr ys =>
        exfalso
        simp only [strPaths] at hstr
        have h3 := strPathsArr_sub ys _ 0 hstr
        simp only [nodePaths, List.nodup_cons] at hNx
        exact hNx.1 h3
      | obj gs =>
        exfalso
        simp only [strPaths] at hstr
        have h3 := strPathsObj_sub gs _ hstr
        simp only [nodePaths, List.nodup_cons] at hNx
        exact hNx.1 h3
    | none =>
      cases x with
      | str s => simp [hg, reconstructObject]
      | null => rfl
      | boolean b => rfl
      | num s => rfl
      | arr ys => simpa using reconRefines (J.arr ys) (fieldPath q k) m hNx hMx
      | obj gs => simpa using reconRefines (J.obj gs) (fieldPath q k) m hNx hMx
end

end JsonParser

/-! # The Editor.js parser (src/services/contentParsers/editorJsParser.ts)

The parser operates on the parsed JSON document.  JavaScript dynamic
field accesses are modelled with `getF`; cases in which the JavaScript
code would throw a `TypeError` mid-walk (aborting with partial results
through the enclosing try/catch) are modelled as skips and excluded by
the well-formedness predicate `blockWF` wherever a theorem relies on the
model. -/

namespace EditorJSParser

/-- EditorJSParser.stripHtml tag-removal scan, fuel-indexed (the regex
`/<[^>]*>/g` removes every maximal `<...>` span up to the next `>`; a `<`
with no later `>` matches nothing, and then no later occurrence can
match either). -/
def stripTagsF : Nat → List Char → List Char
  | 0, cs => cs
  | _ + 1, [] => []
  | fuel + 1, c :: rest =>
    if c = '<' then
      match rest.dropWhile (fun x => x ≠ '>') with
      | '>' :: after => stripTagsF fuel after
      | _ => c :: rest
    else c :: stripTagsF fuel rest

/-- EditorJSParser.stripHtml: `text.replace(/<[^>]*>/g, '').trim()`. -/
def stripHtml (text : String) : String :=
  jsTrim (stripTagsF (text.length + 1) text.toList).asString

def nonTextualKeys : List String := ["url", "id", "file", "src", "href", "link", "embed"]

/-- EditorJSParser.isTextualContent (the URL regex is the same
`^https?:\/\//i` as the JSON parser's). -/
def isTextualContent (key value : String) : Bool :=
  !(nonTextualKeys.contains (jsToLower key)) && !JsonParser.urlTest value &&
    decide (value.length > 2)

/-- Path prefix of the block at `blocks[i]`. -/
def blockPath (i : Nat) : String := "blocks[" ++ toString i ++ "]"

/-- String-valued field access. -/
def dStr (d : J) (k : String) : Option String :=
  match getF d k with
  | some (.str s) => some s
  | _ => none

/-- Model of the truthiness test `if (block.data.field)` for a field that
the code then uses as a string: `some` exactly for a nonempty string
value.  (A truthy non-string value would make the JavaScript code throw
inside `stripHtml` or silently stringify; `blockWF` excludes it.) -/
def truthyStrField (d : J) (k : String) : Option String :=
  match dStr d k with
  | some s => if s = "" then none else some s
  | none => none

def mkFrag (p ot ctx : String) (ty : FragType) : ExtractedText :=
  { id := p, originalText := ot, translatedText := none, path := p, context := ctx, type := ty }

/-- List-block items: one fragment per item (no truthiness filter in the
source), `originalText` HTML-stripped. -/
def listItemFrags (xs : JList) (bp style : String) (i : Nat) : List ExtractedText :=
  match xs with
  | .nil => []
  | .cons item rest =>
    (match item with
     | .str s => [mkFrag (bp ++ ".data.items[" ++ toString i ++ "]") (stripHtml s)
         (style ++ " list item") .text]
     | _ => []) ++ listItemFrags rest bp style (i + 1)

def tableCellFrags (cells : JList) (bp : String) (r c : Nat) : List ExtractedText :=
  match cells with
  | .nil => []
  | .cons cell rest =>
    (match cell with
     | .str s =>
       if jsTrim s ≠ "" then
         [mkFrag (bp ++ ".data.content[" ++ toString r ++ "][" ++ toString c ++ "]")
           (stripHtml s)
           ("table cell (" ++ toString (r + 1) ++ ", " ++ toString (c + 1) ++ ")") .text]
       else []
     | _ => []) ++ tableCellFrags rest bp r (c + 1)

def tableRowFrags (rows : JList) (bp : String) (r : Nat) : List ExtractedText :=
  match rows with
  | .nil => []
  | .cons row rest =>
    (match row with
     | .arr cells => tableCellFrags cells bp r 0
     | _ => []) ++ tableRowFrags rest bp (r + 1)

def checklistFrags (xs : JList) (bp : String) (i : Nat) : List ExtractedText :=
  match xs with
  | .nil => []
  | .cons item rest =>
    (match truthyStrField item "text" with
     | some s => [mkFrag (bp ++ ".data.items[" ++ toString i ++ "].text") (stripHtml s)
         "checklist item" .text]
     | none => []) ++ checklistFrags rest bp (i + 1)

def genericArrFrags (xs : JList) (currentPath blockType k : String) (i : Nat) :
    List ExtractedText :=
  match xs with
  | .nil => []
  | .cons item rest =>
    (match item with
     | .str s =>
       if jsTrim s ≠ "" then
         [mkFrag (currentPath ++ "[" ++ toString i ++ "]") (stripHtml s)
           (blockType ++ " " ++ k ++ " item") .text]
       else []
     | _ => []) ++ genericArrFrags rest currentPath blockType k (i + 1)

def genericFieldFrags (fs : JObj) (basePath blockType : String) : List ExtractedText :=
  match fs with
  | .nil => []
  | .cons k v rest =>
    let currentPath := basePath ++ ".data." ++ k
    (match v with
     | .str s =>
       if jsTrim s ≠ "" && isTextualContent k s then
         [mkFrag currentPath (stripHtml s) (blockType ++ " " ++ k) .text]
       else []
     | .arr xs => genericArrFrags xs currentPath blockType k 0
     | _ => []) ++ genericFieldFrags rest basePath blockType

/-- EditorJSParser.extractGenericTextFields. -/
def extractGenericTextFields (d : J) (basePath blockType : String) : List ExtractedText :=
  match d with
  | .obj fs => genericFieldFrags fs basePath blockType
  | _ => []

/-- Dispatch classes of the `switch (block.type)` statement, shared by
extraction, reconstruction, the consulted-path inventory and the
well-formedness predicate (a transparent recoding of the case labels;
`media` covers image/embed and `warn` covers warning/alert). -/
inductive BKind where
  | para | list | quote | media | table | checklist | warn | generic
deriving DecidableEq, Repr

def kindOf (t : String) : BKind :=
  if t = "paragraph" || t = "header" then .para
  else if t = "list" then .list
  else if t = "quote" then .quote
  else if t = "image" || t = "embed" then .media
  else if t = "table" then .table
  else if t = "checklist" then .checklist
  else if t = "warning" || t = "alert" then .warn
  else .generic

/-- Model of `block.data.style || 'unordered'` for the list-item context. -/
def listStyle (d : J) : String :=
  match dStr d "style" with
  | some s => if s = "" then "unordered" else s
  | none => "unordered"

/-- EditorJSParser.extractFromBlock dispatch on `block.type` (a missing
or non-string `type` falls to the generic-scan default exactly as
`switch (undefined)` does; JavaScript would print it as "undefined" in
the context string). -/
def extractByType (t : String) (d : J) (bp : String) : List ExtractedText :=
  match kindOf t with
  | .para =>
    (match truthyStrField d "text" with
     | some s => [mkFrag (bp ++ ".data.text") (stripHtml s) (t ++ " block") .text]
     | none => [])
  | .list =>
    (match getF d "items" with
     | some (.arr xs) => listItemFrags xs bp (listStyle d) 0
     | _ => [])
  | .quote =>
    (match truthyStrField d "text" with
     | some s => [mkFrag (bp ++ ".data.text") (stripHtml s) "quote text" .text]
     | none => []) ++
    (match truthyStrField d "caption" with
     | some s => [mkFrag (bp ++ ".data.caption") (stripHtml s) "quote caption" .text]
     | none => [])
  | .media =>
    (match truthyStrField d "caption" with
     | some s => [mkFrag (bp ++ ".data.caption") s (t ++ " caption") .text]
     | none => [])
  | .table =>
    (match getF d "content" with
     | some (.arr rows) => tableRowFrags rows bp 0
     | _ => [])
  | .checklist =>
    (match getF d "items" with
     | some (.arr xs) => checklistFrags xs bp 0
     | _ => [])
  | .warn =>
    (match truthyStrField d "title" with
     | some s => [mkFrag (bp ++ ".data.title") s (t ++ " title") .text]
     | none => []) ++
    (match truthyStrField d "message" with
     | some s => [mkFrag (bp ++ ".data.message") s (t ++ " message") .text]
     | none => [])
  | .generic => extractGenericTextFields d bp t

/-- Block type as the switch scrutinee sees it (`undefined` stringifies
to "undefined" in the default-branch context strings). -/
def blockType (block : J) : String :=
  match getF block "type" with
  | some (.str t) => t
  | _ => "undefined"

def extractFromBlockJ (block : J) (i : Nat) : List ExtractedText :=
  extractByType (blockType block) ((getF block "data").getD J.null) (blockPath i)

def blocksExtract (bs : JList) (i : Nat) : List ExtractedText :=
  match bs with
  | .nil => []
  | .cons b rest => extractFromBlockJ b i ++ blocksExtract rest (i + 1)

/-- Fragment extraction from the parsed document (`editorData.blocks.forEach`;
a document with no `blocks` array yields no fragments through the
try/catch). -/
def parseTree (j : J) : List ExtractedText :=
  match getF j "blocks" with
  | some (.arr bs) => blocksExtract bs 0
  | _ => []

/-- EditorJSParser.parse. -/
def parse (content : String) : List ExtractedText :=
  match jsParse content with
  | some j => parseTree j
  | none => []

/-- EditorJSParser.validate: `parsed && Array.isArray(parsed.blocks)`. -/
def validate (content : String) : Bool :=
  match jsParse content with
  | some j =>
    jTruthy j &&
      (match getF j "blocks" with
       | some (.arr _) => true
       | _ => false)
  | none => false

/-- Object field update on a JSON value (no-op on non-objects, where the
strict-mode JavaScript assignment would throw; excluded by `blockWF`
whenever a theorem depends on it). -/
def setJF (j : J) (k : String) (v : J) : J :=
  match j with
  | .obj fs => .obj (setF fs k v)
  | _ => j

/-- EditorJSParser.updateTextPath. -/
def updTP (d : J) (key p : String) (m : List (String × String)) : J :=
  match jsMapGet m p with
  | some v => setJF d key (.str v)
  | none => d

/-- List-item substitution `translationMap.get(path) || item`: an absent
or empty map value keeps the item. -/
def listItemsRecon (xs : JList) (bp : String) (m : List (String × String)) (i : Nat) : JList :=
  match xs with
  | .nil => .nil
  | .cons item rest =>
    let q := bp ++ ".data.items[" ++ toString i ++ "]"
    let item2 :=
      match jsMapGet m q with
      | some v => if v = "" then item else J.str v
      | none => item
    .cons item2 (listItemsRecon rest bp m (i + 1))

def tableCellsRecon (cells : JList) (bp : String) (m : List (String × String)) (r c : Nat) :
    JList :=
  match cells with
  | .nil => .nil
  | .cons cell rest =>
    let q := bp ++ ".data.content[" ++ toString r ++ "][" ++ toString c ++ "]"
    let cell2 :=
      match jsMapGet m q with
      | some v => if v = "" then cell else J.str v
      | none => cell
    .cons cell2 (tableCellsRecon rest bp m r (c + 1))

def tableRowsRecon (rows : JList) (bp : String) (m : List (String × String)) (r : Nat) : JList :=
  match rows with
  | .nil => .nil
  | .cons row rest =>
    let row2 :=
      match row with
      | .arr cells => J.arr (tableCellsRecon cells bp m r 0)
      | _ => row
    .cons row2 (tableRowsRecon rest bp m (r + 1))

def checklistRecon (xs : JList) (bp : String) (m : List (String × String)) (i : Nat) : JList :=
  match xs with
  | .nil => .nil
  | .cons item rest =>
    let q := bp ++ ".data.items[" ++ toString i ++ "].text"
    let item2 :=
      match jsMapGet m q with
      | some v => setJF item "text" (.str v)
      | none => item
    .cons item2 (checklistRecon rest bp m (i + 1))

def genericArrRecon (xs : JList) (currentPath : String) (m : List (String × String)) (i : Nat) :
    JList :=
  match xs with
  | .nil => .nil
  | .cons item rest =>
    let q := currentPath ++ "[" ++ toString i ++ "]"
    let item2 :=
      match jsMapGet m q with
      | some v => J.str v
      | none => item
    .cons item2 (genericArrRecon rest currentPath m (i + 1))

def genericFieldsRecon (fs : JObj) (basePath : String) (m : List (String × String)) : JObj :=
  match fs with
  | .nil => .nil
  | .cons k v rest =>
    let currentPath := basePath ++ ".data." ++ k
    let v2 :=
      match v with
      | .str s =>
        (match jsMapGet m currentPath with
         | some w => J.str w
         | none => J.str s)
      | .arr xs => J.arr (genericArrRecon xs currentPath m 0)
      | other => other
    .cons k v2 (genericFieldsRecon rest basePath m)

/-- EditorJSParser.reconstructGenericTextFields. -/
def reconstructGeneric (d : J) (basePath : String) (m : List (String × String)) : J :=
  match d with
  | .obj fs => .obj (genericFieldsRecon fs basePath m)
  | _ => d

/-- EditorJSParser.reconstructBlock dispatch. -/
def reconstructByType (t : String) (d : J) (bp : String) (m : List (String × String)) : J :=
  match kindOf t with
  | .para => updTP d "text" (bp ++ ".data.text") m
  | .list =>
    (match getF d "items" with
     | some (.arr xs) => setJF d "items" (.arr (listItemsRecon xs bp m 0))
     | _ => d)
  | .quote =>
    updTP (updTP d "text" (bp ++ ".data.text") m) "caption" (bp ++ ".data.caption") m
  | .media => updTP d "caption" (bp ++ ".data.caption") m
  | .table =>
    (match getF d "content" with
     | some (.arr rows) => setJF d "content" (.arr (tableRowsRecon rows bp m 0))
     | _ => d)
  | .checklist =>
    (match getF d "items" with
     | some (.arr xs) => setJF d "items" (.arr (checklistRecon xs bp m 0))
     | _ => d)
  | .warn =>
    updTP (updTP d "title" (bp ++ ".data.title") m) "message" (bp ++ ".data.message") m
  | .generic => reconstructGeneric d bp m

def reconstructBlockJ (block : J) (i : Nat) (m : List (String × String)) : J :=
  match getF block "data" with
  | some d => setJF block "data" (reconstructByType (blockType block) d (blockPath i) m)
  | none => block

def blocksRecon (bs : JList) (m : List (String × String)) (i : Nat) : JList :=
  match bs with
  | .nil => .nil
  | .cons b rest => .cons (reconstructBlockJ b i m) (blocksRecon rest m (i + 1))

/-- Tree-level reconstruction: `none` when the document has no `blocks`
array, in which case the JavaScript `forEach` throws and the catch
returns the original content. -/
def reconstructTree (j : J) (m : List (String × String)) : Option J :=
  match getF j "blocks" with
  | some (.arr bs) => some (setJF j "blocks" (.arr (blocksRecon bs m 0)))
  | _ => none

/-- EditorJSParser.reconstruct. -/
def reconstruct (originalContent : String) (translations : List ExtractedText) : String :=
  match jsParse originalContent with
  | none => originalContent
  | some j =>
    match reconstructTree j (translationEntries translations) with
    | some j2 => jsStringify j2 ""
    | none => originalContent

/-! Consulted-path inventory: the paths at which a block's reconstruction
queries the translation map.  Every extracted fragment path of a block is
among its consulted paths, and a duplicate across the inventory is
exactly a path collision. -/

def listItemPaths (xs : JList) (bp : String) (i : Nat) : List String :=
  match xs with
  | .nil => []
  | .cons _ rest => (bp ++ ".data.items[" ++ toString i ++ "]") :: listItemPaths rest bp (i + 1)

def tableCellPaths (cells : JList) (bp : String) (r c : Nat) : List String :=
  match cells with
  | .nil => []
  | .cons _ rest =>
    (bp ++ ".data.content[" ++ toString r ++ "][" ++ toString c ++ "]") ::
      tableCellPaths rest bp r (c + 1)

def tableRowPaths (rows : JList) (bp : String) (r : Nat) : List String :=
  match rows with
  | .nil => []
  | .cons row rest =>
    (match row with
     | .arr cells => tableCellPaths cells bp r 0
     | _ => []) ++ tableRowPaths rest bp (r + 1)

def checklistPaths (xs : JList) (bp : String) (i : Nat) : List String :=
  match xs with
  | .nil => []
  | .cons _ rest =>
    (bp ++ ".data.items[" ++ toString i ++ "].text") :: checklistPaths rest bp (i + 1)

def genericArrPaths (xs : JList) (currentPath : String) (i : Nat) : List String :=
  match xs with
  | .nil => []
  | .cons _ rest => (currentPath ++ "[" ++ toString i ++ "]") :: genericArrPaths rest currentPath (i + 1)

def genericFieldPaths (fs : JObj) (basePath : String) : List String :=
  match fs with
  | .nil => []
  | .cons k v rest =>
    let currentPath := basePath ++ ".data." ++ k
    (match v with
     | .str _ => [currentPath]
     | .arr xs => genericArrPaths xs currentPath 0
     | _ => []) ++ genericFieldPaths rest basePath

def genericPaths (d : J) (basePath : String) : List String :=
  match d with
  | .obj fs => genericFieldPaths fs basePath
  | _ => []

def typeConsultedPaths (t : String) (d : J) (bp : String) : List String :=
  match kindOf t with
  | .para => [bp ++ ".data.text"]
  | .list =>
    (match getF d "items" with
     | some (.arr xs) => listItemPaths xs bp 0
     | _ => [])
  | .quote => [bp ++ ".data.text", bp ++ ".data.caption"]
  | .media => [bp ++ ".data.caption"]
  | .table =>
    (match getF d "content" with
     | some (.arr rows) => tableRowPaths rows bp 0
     | _ => [])
  | .checklist =>
    (match getF d "items" with
     | some (.arr xs) => checklistPaths xs bp 0
     | _ => [])
  | .warn => [bp ++ ".data.title", bp ++ ".data.message"]
  | .generic => genericPaths d bp

def blockConsultedPaths (block : J) (i : Nat) : List String :=
  match getF block "data" with
  | some d => typeConsultedPaths (blockType block) d (blockPath i)
  | none => []

def blocksConsulted (bs : JList) (i : Nat) : List String :=
  match bs with
  | .nil => []
  | .cons b rest => blockConsultedPaths b i ++ blocksConsulted rest (i + 1)

/-- All consulted paths of an Editor.js document. -/
def docPaths (j : J) : List String :=
  match getF j "blocks" with
  | some (.arr bs) => blocksConsulted bs 0
  | _ => []

/-! Well-formedness: the decidable class of Editor.js documents on which
(a) the JavaScript walk completes without a TypeError (so this model
agrees with it) and (b) every extracted value is invariant under
`stripHtml`, i.e. carries no HTML markup and no surrounding whitespace. -/

/-- Field that the code reads behind a truthiness test and then strips:
must be absent, falsy, or a string unchanged by stripping. -/
def fieldOkStripped (d : J) (k : String) : Bool :=
  match getF d k with
  | none => true
  | some (.str s) => s = "" || stripHtml s = s
  | some v => !jTruthy v

/-- Field that the code reads behind a truthiness test and copies
verbatim: must be absent, falsy, or a string. -/
def fieldOkPlain (d : J) (k : String) : Bool :=
  match getF d k with
  | none => true
  | some (.str _) => true
  | some v => !jTruthy v

def listItemsOk (xs : JList) : Bool :=
  match xs with
  | .nil => true
  | .cons (.str s) rest => stripHtml s = s && listItemsOk rest
  | .cons _ _ => false

def listOk (d : J) : Bool :=
  match getF d "items" with
  | none => true
  | some (.arr xs) => listItemsOk xs
  | some v => !jTruthy v

def tableCellsOk (cells : JList) : Bool :=
  match cells with
  | .nil => true
  | .cons (.str s) rest => (jsTrim s = "" || stripHtml s = s) && tableCellsOk rest
  | .cons _ _ => false

def tableRowsOk (rows : JList) : Bool :=
  match rows with
  | .nil => true
  | .cons (.arr cells) rest => tableCellsOk cells && tableRowsOk rest
  | .cons _ _ => false

def tableOk (d : J) : Bool :=
  match getF d "content" with
  | none => true
  | some (.arr rows) => tableRowsOk rows
  | some v => !jTruthy v

def checklistItemsOk (xs : JList) : Bool :=
  match xs with
  | .nil => true
  | .cons .null _ => false
  | .cons item rest => fieldOkStripped item "text" && checklistItemsOk rest

def checklistOk (d : J) : Bool :=
  match getF d "items" with
  | none => true
  | some (.arr xs) => checklistItemsOk xs
  | some v => !jTruthy v

def genericArrItemsOk (xs : JList) : Bool :=
  match xs with
  | .nil => true
  | .cons (.str s) rest => (jsTrim s = "" || stripHtml s = s) && genericArrItemsOk rest
  | .cons _ rest => genericArrItemsOk rest

def genericFieldsOk (fs : JObj) : Bool :=
  match fs with
  | .nil => true
  | .cons k v rest =>
    (match v with
     | .str s => (!(jsTrim s ≠ "" && isTextualContent k s) || stripHtml s = s)
     | .arr xs => genericArrItemsOk xs
     | _ => true) && genericFieldsOk rest

def genericOk (d : J) : Bool :=
  match d with
  | .obj fs => genericFieldsOk fs
  | .arr _ => false
  | _ => true

def isTypedBlock (t : String) : Bool :=
  match kindOf t with
  | .generic => false
  | _ => true

/-- Per-kind data constraints of a well-formed block. -/
def dataWF (t : String) (d : J) : Bool :=
  match kindOf t with
  | .para => fieldOkStripped d "text"
  | .list => listOk d
  | .quote => fieldOkStripped d "text" && fieldOkStripped d "caption"
  | .media => fieldOkPlain d "caption"
  | .table => tableOk d
  | .checklist => checklistOk d
  | .warn => fieldOkPlain d "title" && fieldOkPlain d "message"
  | .generic => genericOk d

def blockWF (block : J) : Bool :=
  match block with
  | .null => false
  | .obj _ =>
    let t := blockType block
    (match getF block "data" with
     | none => !isTypedBlock t
     | some d =>
       (match kindOf t with
        | .generic => true
        | _ => d ≠ J.null) && dataWF t d)
  | _ => true

def blocksWF (bs : JList) : Bool :=
  match bs with
  | .nil => true
  | .cons b rest => blockWF b && blocksWF rest

/-- Well-formed Editor.js document: a truthy JSON value with a `blocks`
array of well-formed blocks. -/
def docWF (j : J) : Bool :=
  jTruthy j &&
    (match getF j "blocks" with
     | some (.arr bs) => blocksWF bs
     | _ => false)

end EditorJSParser



theorem setF_self {k : String} {v : J} : ∀ {fs : JObj},
    getF.getFObj fs k = some v → setF fs k v = fs
  | .nil, h => by simp [getF.getFObj] at h
  | .cons k0 v0 rest, h => by
    by_cases hk : k0 = k
    · simp [getF.getFObj, hk] at h
      simp [setF, hk, h]
    · simp [getF.getFObj, hk] at h
      simp [setF, hk, setF_self h]

theorem getF_obj {b : J} {k : String} {v : J} (h : getF b k = some v) :
    ∃ fs, b = .obj fs ∧ getF.getFObj fs k = some v := by
  cases b <;> simp [getF] at h ⊢
  assumption

namespace EditorJSParser

theorem setJF_self {b : J} {k : String} {v : J} (h : getF b k = some v) :
    setJF b k v = b := by
  obtain ⟨fs, rfl, hf⟩ := getF_obj h
  simp [setJF, setF_self hf]

theorem listItemFrags_paths {q bp style : String} : ∀ (xs : JList) (i : Nat),
    q ∈ (listItemFrags xs bp style i).map ExtractedText.path → q ∈ listItemPaths xs bp i
  | .nil, i, h => by simp [listItemFrags] at h
  | .cons item rest, i, h => by
    simp only [listItemFrags, List.map_append, List.mem_append] at h
    rcases h with h | h
    · cases item <;> simp [mkFrag, listItemPaths] at h ⊢
      exact Or.inl h
    · exact List.mem_cons_of_mem _ (listItemFrags_paths rest (i + 1) h)

theorem tableCellFrags_paths {q bp : String} {r : Nat} : ∀ (cells : JList) (c : Nat),
    q ∈ (tableCellFrags cells bp r c).map ExtractedText.path → q ∈ tableCellPaths cells bp r c
  | .nil, c, h => by simp [tableCellFrags] at h
  | .cons cell rest, c, h => by
    simp only [tableCellFrags, List.map_append, List.mem_append] at h
    rcases h with h | h
    · cases cell with
      | str s =>
        by_cases ht : jsTrim s ≠ ""
        · simp [ht, mkFrag] at h
          simp [tableCellPaths, h]
        · simp [ht] at h
      | null => simp at h
      | boolean b => simp at h
      | num n => simp at h
      | arr a => simp at h
      | obj o => simp at h
    · exact List.mem_cons_of_mem _ (tableCellFrags_paths rest (c + 1) h)

end EditorJSParser

namespace EditorJSParser

theorem tableRowFrags_paths {q bp : String} : ∀ (rows : JList) (r : Nat),
    q ∈ (tableRowFrags rows bp r).map ExtractedText.path → q ∈ tableRowPaths rows bp r
  | .nil, r, h => by simp [tableRowFrags] at h
  | .cons row rest, r, h => by
    simp only [tableRowFrags, tableRowPaths, List.map_append, List.mem_append] at h ⊢
    rcases h with h | h
    · left
      cases row with
      | arr cells => exact tableCellFrags_paths cells 0 h
      | null => simp at h
      | boolean b => simp at h
      | num n => simp at h
      | str s => simp at h
      | obj o => simp at h
    · exact Or.inr (tableRowFrags_paths rest (r + 1) h)

theorem checklistFrags_paths {q bp : String} : ∀ (xs : JList) (i : Nat),
    q ∈ (checklistFrags xs bp i).map ExtractedText.path → q ∈ checklistPaths xs bp i
  | .nil, i, h => by simp [checklistFrags] at h
  | .cons item rest, i, h => by
    simp only [checklistFrags, List.map_append, List.mem_append] at h
    rcases h with h | h
    · cases htf : truthyStrField item "text" with
      | some s =>
        rw [htf] at h
        simp [mkFrag] at h
        simp [checklistPaths, h]
      | none => rw [htf] at h; simp at h
    · exact List.mem_cons_of_mem _ (checklistFrags_paths rest (i + 1) h)

theorem genericArrFrags_paths {q cp bt k : String} : ∀ (xs : JList) (i : Nat),
    q ∈ (genericArrFrags xs cp bt k i).map ExtractedText.path → q ∈ genericArrPaths xs cp i
  | .nil, i, h => by simp [genericArrFrags] at h
  | .cons item rest, i, h => by
    simp only [genericArrFrags, List.map_append, List.mem_append] at h
    rcases h with h | h
    · cases item with
      | str s =>
        by_cases ht : jsTrim s ≠ ""
        · simp [ht, mkFrag] at h
          simp [genericArrPaths, h]
        · simp [ht] at h
      | null => simp at h
      | boolean b => simp at h
      | num n => simp at h
      | arr a => simp at h
      | obj o => simp at h
    · exact List.mem_cons_of_mem _ (genericArrFrags_paths rest (i + 1) h)

theorem genericFieldFrags_paths {q bp bt : String} : ∀ (fs : JObj),
    q ∈ (genericFieldFrags fs bp bt).map ExtractedText.path → q ∈ genericFieldPaths fs bp
  | .nil, h => by simp [genericFieldFrags] at h
  | .cons k v rest, h => by
    simp only [genericFieldFrags, genericFieldPaths, List.map_append, List.mem_append] at h ⊢
    rcases h with h | h
    · left
      cases v with
      | str s =>
        simp [mkFrag] at h
        obtain ⟨a, ⟨⟨h1, h2⟩, rfl⟩, hq⟩ := h
        simp [← hq]
      | arr xs => exact genericArrFrags_paths xs 0 h
      | null => simp at h
      | boolean b => simp at h
      | num n => simp at h
      | obj o => simp at h
    · exact Or.inr (genericFieldFrags_paths rest h)

end EditorJSParser

namespace EditorJSParser

theorem extractByType_paths {q : String} (t : String) (d : J) (bp : String)
    (h : q ∈ (extractByType t d bp).map ExtractedText.path) :
    q ∈ typeConsultedPaths t d bp := by
  cases hk : kindOf t <;>
    simp only [extractByType, hk] at h <;> simp only [typeConsultedPaths, hk]
  · cases htf : truthyStrField d "text" with
    | some s => rw [htf] at h; simp [mkFrag] at h; simp [h]
    | none => rw [htf] at h; simp at h
  · cases hit : getF d "items" with
    | some v =>
      rw [hit] at h
      cases v with
      | arr xs => exact listItemFrags_paths _ _ h
      | null => simp at h
      | boolean b => simp at h
      | num n => simp at h
      | str s => simp at h
      | obj o => simp at h
    | none => rw [hit] at h; simp at h
  · simp only [List.map_append, List.mem_append] at h
    rcases h with h | h
    · cases htf : truthyStrField d "text" with
      | some s => rw [htf] at h; simp [mkFrag] at h; simp [h]
      | none => rw [htf] at h; simp at h
    · cases htf : truthyStrField d "caption" with
      | some s => rw [htf] at h; simp [mkFrag] at h; simp [h]
      | none => rw [htf] at h; simp at h
  · cases htf : truthyStrField d "caption" with
    | some s => rw [htf] at h; simp [mkFrag] at h; simp [h]
    | none => rw [htf] at h; simp at h
  · cases hit : getF d "content" with
    | some v =>
      rw [hit] at h
      cases v with
      | arr rows => exact tableRowFrags_paths _ _ h
      | null => simp at h
      | boolean b => simp at h
      | num n => simp at h
      | str s => simp at h
      | obj o => simp at h
    | none => rw [hit] at h; simp at h
  · cases hit : getF d "items" with
    | some v =>
      rw [hit] at h
      cases v with
      | arr xs => exact checklistFrags_paths _ _ h
      | null => simp at h
      | boolean b => simp at h
      | num n => simp at h
      | str s => simp at h
      | obj o => simp at h
    | none => rw [hit] at h; simp at h
  · simp only [List.map_append, List.mem_append] at h
    rcases h with h | h
    · cases htf : truthyStrField d "title" with
      | some s => rw [htf] at h; simp [mkFrag] at h; simp [h]
      | none => rw [htf] at h; simp at h
    · cases htf : truthyStrField d "message" with
      | some s => rw [htf] at h; simp [mkFrag] at h; simp [h]
      | none => rw [htf] at h; simp at h
  · cases d with
    | obj fs => exact genericFieldFrags_paths fs h
    | null => simp [extractGenericTextFields] at h
    | boolean b => simp [extractGenericTextFields] at h
    | num n => simp [extractGenericTextFields] at h
    | str s => simp [extractGenericTextFields] at h
    | arr a => simp [extractGenericTextFields] at h

theorem extractByType_null (t bp : String) : extractByType t J.null bp = [] := by
  cases hk : kindOf t <;>
    simp [extractByType, hk, truthyStrField, dStr, getF, extractGenericTextFields]

theorem extractFromBlockJ_paths {q : String} (b : J) (i : Nat)
    (h : q ∈ (extractFromBlockJ b i).map ExtractedText.path) :
    q ∈ blockConsultedPaths b i := by
  unfold extractFromBlockJ at h
  unfold blockConsultedPaths
  cases hd : getF b "data" with
  | some d => rw [hd] at h; exact extractByType_paths _ _ _ h
  | none =>
    rw [hd] at h
    simp [extractByType_null] at h

theorem blocksExtract_paths {q : String} : ∀ (bs : JList) (i : Nat),
    q ∈ (blocksExtract bs i).map ExtractedText.path → q ∈ blocksConsulted bs i
  | .nil, i, h => by simp [blocksExtract] at h
  | .cons b rest, i, h => by
    simp only [blocksExtract, blocksConsulted, List.map_append, List.mem_append] at h ⊢
    rcases h with h | h
    · exact Or.inl (extractFromBlockJ_paths _ _ h)
    · exact Or.inr (blocksExtract_paths rest (i + 1) h)

end EditorJSParser

theorem pv_mem_path {L : List ExtractedText} {p v : String}
    (h : (p, v) ∈ L.map (fun t => (t.path, t.originalText))) :
    p ∈ L.map ExtractedText.path := by
  simp only [List.mem_map] at h ⊢
  obtain ⟨a, ha, he⟩ := h
  exact ⟨a, ha, congrArg Prod.fst he⟩

namespace EditorJSParser

theorem listItemsRecon_ident {bp style : String} {m : List (String × String)} :
    ∀ (xs : JList) (i : Nat), listItemsOk xs = true →
    (listItemPaths xs bp i).Nodup →
    (∀ p v, jsMapGet m p = some v → p ∈ listItemPaths xs bp i →
      (p, v) ∈ (listItemFrags xs bp style i).map (fun t => (t.path, t.originalText))) →
    listItemsRecon xs bp m i = xs
  | .nil, i, _, _, _ => rfl
  | .cons item rest, i, hOK, hN, hM => by
    obtain ⟨s, rfl, hs, hOK'⟩ : ∃ s, item = J.str s ∧ stripHtml s = s ∧ listItemsOk rest = true := by
      cases item <;> simp [listItemsOk] at hOK
      exact ⟨_, rfl, hOK.1, hOK.2⟩
    simp only [listItemPaths, List.nodup_cons] at hN
    obtain ⟨hq0, hN'⟩ := hN
    have hTail : listItemsRecon rest bp m (i + 1) = rest := by
      apply listItemsRecon_ident rest (i + 1) hOK' hN'
      intro p v hg hp
      have h0 := hM p v hg (List.mem_cons_of_mem _ hp)
      simp only [listItemFrags, List.map_append, List.mem_append] at h0
      rcases h0 with h0 | h0
      · exfalso
        simp [mkFrag] at h0
        exact hq0 (h0.1 ▸ hp)
      · exact h0
    simp only [listItemsRecon, hTail]
    cases hg : jsMapGet m (bp ++ ".data.items[" ++ toString i ++ "]") with
    | some v =>
      have h0 := hM _ v hg (List.mem_cons_self _ _)
      simp only [listItemFrags, List.map_append, List.mem_append] at h0
      rcases h0 with h0 | h0
      · simp [mkFrag] at h0
        rw [h0, hs]
        by_cases hse : s = "" <;> simp [hse]
      · exfalso
        exact hq0 (listItemFrags_paths rest (i + 1) (pv_mem_path h0))
    | none => rfl

theorem tableCellsRecon_ident {bp : String} {r : Nat} {m : List (String × String)} :
    ∀ (cells : JList) (c : Nat), tableCellsOk cells = true →
    (tableCellPaths cells bp r c).Nodup →
    (∀ p v, jsMapGet m p = some v → p ∈ tableCellPaths cells bp r c →
      (p, v) ∈ (tableCellFrags cells bp r c).map (fun t => (t.path, t.originalText))) →
    tableCellsRecon cells bp m r c = cells
  | .nil, c, _, _, _ => rfl
  | .cons cell rest, c, hOK, hN, hM => by
    obtain ⟨s, rfl, hs, hOK'⟩ :
        ∃ s, cell = J.str s ∧ (jsTrim s = "" ∨ stripHtml s = s) ∧ tableCellsOk rest = true := by
      cases cell <;> simp [tableCellsOk] at hOK
      exact ⟨_, rfl, hOK.1, hOK.2⟩
    simp only [tableCellPaths, List.nodup_cons] at hN
    obtain ⟨hq0, hN'⟩ := hN
    have hTail : tableCellsRecon rest bp m r (c + 1) = rest := by
      apply tableCellsRecon_ident rest (c + 1) hOK' hN'
      intro p v hg hp
      have h0 := hM p v hg (List.mem_cons_of_mem _ hp)
      simp only [tableCellFrags, List.map_append, List.mem_append] at h0
      rcases h0 with h0 | h0
      · exfalso
        by_cases ht : jsTrim s ≠ ""
        · simp [ht, mkFrag] at h0
          exact hq0 (h0.1 ▸ hp)
        · simp [ht] at h0
      · exact h0
    simp only [tableCellsRecon, hTail]
    cases hg : jsMapGet m (bp ++ ".data.content[" ++ toString r ++ "][" ++ toString c ++ "]") with
    | some v =>
      have h0 := hM _ v hg (List.mem_cons_self _ _)
      simp only [tableCellFrags, List.map_append, List.mem_append] at h0
      rcases h0 with h0 | h0
      · by_cases ht : jsTrim s ≠ ""
        · simp [ht, mkFrag] at h0
          have hinv : stripHtml s = s := by
            rcases hs with hs | hs
            · exact absurd hs ht
            · exact hs
          rw [h0, hinv]
          have hse : s ≠ "" := by
            intro he
            subst he
            exact ht rfl
          simp [hse]
        · simp [ht] at h0
      · exfalso
        exact hq0 (tableCellFrags_paths rest (c + 1) (pv_mem_path h0))
    | none => rfl

theorem tableRowsRecon_ident {bp : String} {m : List (String × String)} :
    ∀ (rows : JList) (r : Nat), tableRowsOk rows = true →
    (tableRowPaths rows bp r).Nodup →
    (∀ p v, jsMapGet m p = some v → p ∈ tableRowPaths rows bp r →
      (p, v) ∈ (tableRowFrags rows bp r).map (fun t => (t.path, t.originalText))) →
    tableRowsRecon rows bp m r = rows
  | .nil, r, _, _, _ => rfl
  | .cons row rest, r, hOK, hN, hM => by
    obtain ⟨cells, rfl, hc, hOK'⟩ :
        ∃ cells, row = J.arr cells ∧ tableCellsOk cells = true ∧ tableRowsOk rest = true := by
      cases row <;> simp [tableRowsOk] at hOK
      exact ⟨_, rfl, hOK.1, hOK.2⟩
    simp only [tableRowPaths] at hN hM
    have hNx := hN.of_append_left
    have hNr := hN.of_append_right
    have hDis := List.disjoint_of_nodup_append hN
    have hTail : tableRowsRecon rest bp m (r + 1) = rest := by
      apply tableRowsRecon_ident rest (r + 1) hOK' hNr
      intro p v hg hp
      have h0 := hM p v hg (List.mem_append_right _ hp)
      simp only [tableRowFrags, List.map_append, List.mem_append] at h0
      rcases h0 with h0 | h0
      · exfalso
        exact hDis (tableCellFrags_paths cells 0 (pv_mem_path h0)) hp
      · exact h0
    have hHead : tableCellsRecon cells bp m r 0 = cells := by
      apply tableCellsRecon_ident cells 0 hc hNx
      intro p v hg hp
      have h0 := hM p v hg (List.mem_append_left _ hp)
      simp only [tableRowFrags, List.map_append, List.mem_append] at h0
      rcases h0 with h0 | h0
      · exact h0
      · exfalso
        exact hDis hp (tableRowFrags_paths rest (r + 1) (pv_mem_path h0))
    simp only [tableRowsRecon, hTail, hHead]

end EditorJSParser

namespace EditorJSParser

theorem checklistRecon_ident {bp : String} {m : List (String × String)} :
    ∀ (xs : JList) (i : Nat), checklistItemsOk xs = true →
    (checklistPaths xs bp i).Nodup →
    (∀ p v, jsMapGet m p = some v → p ∈ checklistPaths xs bp i →
      (p, v) ∈ (checklistFrags xs bp i).map (fun t => (t.path, t.originalText))) →
    checklistRecon xs bp m i = xs
  | .nil, i, _, _, _ => rfl
  | .cons item rest, i, hOK, hN, hM => by
    have hOKsplit : fieldOkStripped item "text" = true ∧ checklistItemsOk rest = true := by
      cases item <;> simp [checklistItemsOk] at hOK ⊢ <;> exact hOK
    obtain ⟨hOKi, hOK'⟩ := hOKsplit
    simp only [checklistPaths, List.nodup_cons] at hN
    obtain ⟨hq0, hN'⟩ := hN
    have hTail : checklistRecon rest bp m (i + 1) = rest := by
      apply checklistRecon_ident rest (i + 1) hOK' hN'
      intro p v hg hp
      have h0 := hM p v hg (List.mem_cons_of_mem _ hp)
      simp only [checklistFrags, List.map_append, List.mem_append] at h0
      rcases h0 with h0 | h0
      · exfalso
        cases htf : truthyStrField item "text" with
        | some s =>
          rw [htf] at h0
          simp [mkFrag] at h0
          exact hq0 (h0.1 ▸ hp)
        | none => rw [htf] at h0; simp at h0
      · exact h0
    simp only [checklistRecon, hTail]
    cases hg : jsMapGet m (bp ++ ".data.items[" ++ toString i ++ "].text") with
    | some v =>
      have h0 := hM _ v hg (List.mem_cons_self _ _)
      simp only [checklistFrags, List.map_append, List.mem_append] at h0
      rcases h0 with h0 | h0
      · cases htf : truthyStrField item "text" with
        | some s =>
          rw [htf] at h0
          simp [mkFrag] at h0
          have hget : getF item "text" = some (J.str s) := by
            unfold truthyStrField dStr at htf
            cases hgf : getF item "text" with
            | some w =>
              rw [hgf] at htf
              cases w <;> simp at htf
              rw [htf.2]
            | none => rw [hgf] at htf; simp at htf
          have hsne : s ≠ "" := by
            unfold truthyStrField dStr at htf
            rw [hget] at htf
            simp at htf
            intro he
            simp [he] at htf
          have hinv : stripHtml s = s := by
            unfold fieldOkStripped at hOKi
            rw [hget] at hOKi
            simp [hsne] at hOKi
            exact hOKi
          rw [h0, hinv]
          show JList.cons (setJF item "text" (J.str s)) rest = JList.cons item rest
          rw [setJF_self hget]
        | none => rw [htf] at h0; simp at h0
      · exfalso
        exact hq0 (checklistFrags_paths rest (i + 1) (pv_mem_path h0))
    | none => rfl

theorem genericArrRecon_ident {cp bt k : String} {m : List (String × String)} :
    ∀ (xs : JList) (i : Nat), genericArrItemsOk xs = true →
    (genericArrPaths xs cp i).Nodup →
    (∀ p v, jsMapGet m p = some v → p ∈ genericArrPaths xs cp i →
      (p, v) ∈ (genericArrFrags xs cp bt k i).map (fun t => (t.path, t.originalText))) →
    genericArrRecon xs cp m i = xs
  | .nil, i, _, _, _ => rfl
  | .cons item rest, i, hOK, hN, hM => by
    have hOKsplit : (match item with
        | J.str s => (jsTrim s = "" || stripHtml s = s) = true
        | _ => True) ∧ genericArrItemsOk rest = true := by
      cases item <;> simp [genericArrItemsOk] at hOK ⊢ <;> tauto
    obtain ⟨hOKi, hOK'⟩ := hOKsplit
    simp only [genericArrPaths, List.nodup_cons] at hN
    obtain ⟨hq0, hN'⟩ := hN
    have hTail : genericArrRecon rest cp m (i + 1) = rest := by
      apply genericArrRecon_ident rest (i + 1) hOK' hN'
      intro p v hg hp
      have h0 := hM p v hg (List.mem_cons_of_mem _ hp)
      simp only [genericArrFrags, List.map_append, List.mem_append] at h0
      rcases h0 with h0 | h0
      · exfalso
        cases item with
        | str s =>
          by_cases ht : jsTrim s ≠ ""
          · simp [ht, mkFrag] at h0
            exact hq0 (h0.1 ▸ hp)
          · simp [ht] at h0
        | null => simp at h0
        | boolean b => simp at h0
        | num n => simp at h0
        | arr a => simp at h0
        | obj o => simp at h0
      · exact h0
    simp only [genericArrRecon, hTail]
    cases hg : jsMapGet m (cp ++ "[" ++ toString i ++ "]") with
    | some v =>
      have h0 := hM _ v hg (List.mem_cons_self _ _)
      simp only [genericArrFrags, List.map_append, List.mem_append] at h0
      rcases h0 with h0 | h0
      · cases item with
        | str s =>
          by_cases ht : jsTrim s ≠ ""
          · simp [ht, mkFrag] at h0
            have hinv : stripHtml s = s := by
              simp at hOKi
              rcases hOKi with hOKi | hOKi
              · exact absurd hOKi ht
              · exact hOKi
            rw [h0, hinv]
          · simp [ht] at h0
        | null => simp at h0
        | boolean b => simp at h0
        | num n => simp at h0
        | arr a => simp at h0
        | obj o => simp at h0
      · exfalso
        exact hq0 (genericArrFrags_paths rest (i + 1) (pv_mem_path h0))
    | none => rfl

theorem genericFieldsRecon_ident {bp bt : String} {m : List (String × String)} :
    ∀ (fs : JObj), genericFieldsOk fs = true →
    (genericFieldPaths fs bp).Nodup →
    (∀ p v, jsMapGet m p = some v → p ∈ genericFieldPaths fs bp →
      (p, v) ∈ (genericFieldFrags fs bp bt).map (fun t => (t.path, t.originalText))) →
    genericFieldsRecon fs bp m = fs
  | .nil, _, _, _ => rfl
  | .cons k v rest, hOK, hN, hM => by
    have hOK2 : genericFieldsOk rest = true := by
      cases v <;> simp [genericFieldsOk] at hOK <;> tauto
    simp only [genericFieldPaths] at hN hM
    have hNx := hN.of_append_left
    have hNr := hN.of_append_right
    have hDis := List.disjoint_of_nodup_append hN
    have hTail : genericFieldsRecon rest bp m = rest := by
      apply genericFieldsRecon_ident rest hOK2 hNr
      intro p v2 hg hp
      have h0 := hM p v2 hg (List.mem_append_right _ hp)
      simp only [genericFieldFrags, List.map_append, List.mem_append] at h0
      rcases h0 with h0 | h0
      · exfalso
        have hmem : p ∈ (match v with
            | J.str _ => [bp ++ ".data." ++ k]
            | J.arr xs => genericArrPaths xs (bp ++ ".data." ++ k) 0
            | _ => ([] : List String)) := by
          cases v with
          | str s =>
            simp [mkFrag] at h0
            obtain ⟨a, hA, hB⟩ := h0
            obtain ⟨hc, ha⟩ := hA
            obtain ⟨hq, hv⟩ := hB
            subst ha
            simp [← hq]
          | arr xs => exact genericArrFrags_paths xs 0 (pv_mem_path h0)
          | null => simp at h0
          | boolean b => simp at h0
          | num n => simp at h0
          | obj o => simp at h0
        exact hDis hmem hp
      · exact h0
    simp only [genericFieldsRecon, hTail]
    cases v with
    | str s =>
      have hOKi : (jsTrim s = "" ∨ isTextualContent k s = false) ∨ stripHtml s = s := by
        simp [genericFieldsOk] at hOK
        exact hOK.1
      show JObj.cons k (match jsMapGet m (bp ++ ".data." ++ k) with
          | some w => J.str w
          | none => J.str s) rest = JObj.cons k (J.str s) rest
      cases hg : jsMapGet m (bp ++ ".data." ++ k) with
      | some w =>
        have h0 := hM _ w hg (List.mem_append_left _ (by simp))
        simp only [genericFieldFrags, List.map_append, List.mem_append] at h0
        rcases h0 with h0 | h0
        · simp [mkFrag] at h0
          obtain ⟨a, ⟨⟨hc1, hc2⟩, ha⟩, hq, hv⟩ := h0
          subst ha
          have hv2 : stripHtml s = w := hv
          have hinv : stripHtml s = s := by
            rcases hOKi with (hOKi | hOKi) | hOKi
            · exact absurd hOKi hc1
            · exact absurd hc2 (by simp [hOKi])
            · exact hOKi
          rw [← hv2, hinv]
        · exfalso
          have hpm : bp ++ ".data." ++ k ∈ genericFieldPaths rest bp :=
            genericFieldFrags_paths rest (pv_mem_path h0)
          exact hDis (by simp) hpm
      | none => rfl
    | arr xs =>
      have hOKi : genericArrItemsOk xs = true := by
        simp [genericFieldsOk] at hOK
        exact hOK.1
      have hNx2 : (genericArrPaths xs (bp ++ ".data." ++ k) 0).Nodup := hNx
      have hHead : genericArrRecon xs (bp ++ ".data." ++ k) m 0 = xs := by
        apply @genericArrRecon_ident (bp ++ ".data." ++ k) bt k m xs 0 hOKi hNx2
        intro p v2 hg hp
        have h0 := hM p v2 hg (List.mem_append_left _ hp)
        simp only [genericFieldFrags, List.map_append, List.mem_append] at h0
        rcases h0 with h0 | h0
        · exact h0
        · exfalso
          exact hDis hp (genericFieldFrags_paths rest (pv_mem_path h0))
      show JObj.cons k (J.arr (genericArrRecon xs (bp ++ ".data." ++ k) m 0)) rest =
        JObj.cons k (J.arr xs) rest
      rw [hHead]
    | null => rfl
    | boolean b => rfl
    | num n => rfl
    | obj o => rfl

end EditorJSParser

namespace EditorJSParser

theorem truthy_lookup {d : J} {key s : String} (htf : truthyStrField d key = some s) :
    getF d key = some (J.str s) ∧ s ≠ "" := by
  unfold truthyStrField dStr at htf
  cases hgf : getF d key with
  | some w =>
    rw [hgf] at htf
    cases w <;> simp at htf
    obtain ⟨h1, h2⟩ := htf
    subst h2
    exact ⟨rfl, h1⟩
  | none => rw [hgf] at htf; simp at htf

theorem fieldOkStripped_inv {d : J} {key s : String} (hOK : fieldOkStripped d key = true)
    (hget : getF d key = some (J.str s)) (hs : s ≠ "") : stripHtml s = s := by
  unfold fieldOkStripped at hOK
  rw [hget] at hOK
  simp [hs] at hOK
  exact hOK

theorem updTP_ident {d : J} {key tp : String} {m : List (String × String)}
    (h : ∀ v, jsMapGet m tp = some v → getF d key = some (J.str v)) :
    updTP d key tp m = d := by
  unfold updTP
  cases hg : jsMapGet m tp with
  | some v => exact setJF_self (h v hg)
  | none => rfl

/-- Identity of reconstruction for a single block kind under
well-formedness, collision-freedom and identity-map agreement. -/
theorem reconstructByType_ident (t : String) (d : J) (bp : String)
    (m : List (String × String))
    (hWF : dataWF t d = true)
    (hN : (typeConsultedPaths t d bp).Nodup)
    (hM : ∀ p v, jsMapGet m p = some v → p ∈ typeConsultedPaths t d bp →
      (p, v) ∈ (extractByType t d bp).map (fun t => (t.path, t.originalText))) :
    reconstructByType t d bp m = d := by
  cases hk : kindOf t <;>
    simp only [reconstructByType, typeConsultedPaths, extractByType, dataWF, hk] at hWF hN hM ⊢
  · -- para
    apply updTP_ident
    intro v hg
    have h0 := hM _ v hg (by simp)
    cases htf : truthyStrField d "text" with
    | some s =>
      rw [htf] at h0
      simp [mkFrag] at h0
      obtain ⟨hget, hs⟩ := truthy_lookup htf
      rw [h0, fieldOkStripped_inv hWF hget hs]
      exact hget
    | none => rw [htf] at h0; simp at h0
  · -- list
    cases hit : getF d "items" with
    | some v =>
      cases v with
      | arr xs =>
        have hOK : listItemsOk xs = true := by
          unfold listOk at hWF
          rw [hit] at hWF
          exact hWF
        show setJF d "items" (J.arr (listItemsRecon xs bp m 0)) = d
        rw [@listItemsRecon_ident bp (listStyle d) m xs 0 hOK (by simpa [hit] using hN)
          (by intro p v hg hp; have := hM p v hg (by rw [hit]; exact hp); rwa [hit] at this)]
        exact setJF_self hit
      | null => rfl
      | boolean b => rfl
      | num n => rfl
      | str s => rfl
      | obj o => rfl
    | none => rfl
  · -- quote
    have hne : (bp ++ ".data.text") ≠ (bp ++ ".data.caption") := by
      simp at hN
      exact hN
    have hWFt : fieldOkStripped d "text" = true := by
      simp at hWF
      exact hWF.1
    have hWFc : fieldOkStripped d "caption" = true := by
      simp at hWF
      exact hWF.2
    have hText : updTP d "text" (bp ++ ".data.text") m = d := by
      apply updTP_ident
      intro v hg
      have h0 := hM _ v hg (by simp)
      simp only [List.map_append, List.mem_append] at h0
      rcases h0 with h0 | h0
      · cases htf : truthyStrField d "text" with
        | some s =>
          rw [htf] at h0
          simp [mkFrag] at h0
          obtain ⟨hget, hs⟩ := truthy_lookup htf
          rw [h0, fieldOkStripped_inv hWFt hget hs]
          exact hget
        | none => rw [htf] at h0; simp at h0
      · exfalso
        cases htf : truthyStrField d "caption" with
        | some s =>
          rw [htf] at h0
          simp [mkFrag] at h0
          exact hne h0.1
        | none => rw [htf] at h0; simp at h0
    rw [hText]
    apply updTP_ident
    intro v hg
    have h0 := hM _ v hg (by simp)
    simp only [List.map_append, List.mem_append] at h0
    rcases h0 with h0 | h0
    · exfalso
      cases htf : truthyStrField d "text" with
      | some s =>
        rw [htf] at h0
        simp [mkFrag] at h0
        exact hne h0.1.symm
      | none => rw [htf] at h0; simp at h0
    · cases htf : truthyStrField d "caption" with
      | some s =>
        rw [htf] at h0
        simp [mkFrag] at h0
        obtain ⟨hget, hs⟩ := truthy_lookup htf
        rw [h0, fieldOkStripped_inv hWFc hget hs]
        exact hget
      | none => rw [htf] at h0; simp at h0
  · -- media
    apply updTP_ident
    intro v hg
    have h0 := hM _ v hg (by simp)
    cases htf : truthyStrField d "caption" with
    | some s =>
      rw [htf] at h0
      simp [mkFrag] at h0
      obtain ⟨hget, hs⟩ := truthy_lookup htf
      rw [h0]
      exact hget
    | none => rw [htf] at h0; simp at h0
  · -- table
    cases hit : getF d "content" with
    | some v =>
      cases v with
      | arr rows =>
        have hOK : tableRowsOk rows = true := by
          unfold tableOk at hWF
          rw [hit] at hWF
          exact hWF
        show setJF d "content" (J.arr (tableRowsRecon rows bp m 0)) = d
        rw [tableRowsRecon_ident rows 0 hOK (by simpa [hit] using hN)
          (by intro p v hg hp; have := hM p v hg (by rw [hit]; exact hp); rwa [hit] at this)]
        exact setJF_self hit
      | null => rfl
      | boolean b => rfl
      | num n => rfl
      | str s => rfl
      | obj o => rfl
    | none => rfl
  · -- checklist
    cases hit : getF d "items" with
    | some v =>
      cases v with
      | arr xs =>
        have hOK : checklistItemsOk xs = true := by
          unfold checklistOk at hWF
          rw [hit] at hWF
          exact hWF
        show setJF d "items" (J.arr (checklistRecon xs bp m 0)) = d
        rw [checklistRecon_ident xs 0 hOK (by simpa [hit] using hN)
          (by intro p v hg hp; have := hM p v hg (by rw [hit]; exact hp); rwa [hit] at this)]
        exact setJF_self hit
      | null => rfl
      | boolean b => rfl
      | num n => rfl
      | str s => rfl
      | obj o => rfl
    | none => rfl
  · -- warn
    have hne : (bp ++ ".data.title") ≠ (bp ++ ".data.message") := by
      simp at hN
      exact hN
    have hTitle : updTP d "title" (bp ++ ".data.title") m = d := by
      apply updTP_ident
      intro v hg
      have h0 := hM _ v hg (by simp)
      simp only [List.map_append, List.mem_append] at h0
      rcases h0 with h0 | h0
      · cases htf : truthyStrField d "title" with
        | some s =>
          rw [htf] at h0
          simp [mkFrag] at h0
          obtain ⟨hget, hs⟩ := truthy_lookup htf
          rw [h0]
          exact hget
        | none => rw [htf] at h0; simp at h0
      · exfalso
        cases htf : truthyStrField d "message" with
        | some s =>
          rw [htf] at h0
          simp [mkFrag] at h0
          exact hne h0.1
        | none => rw [htf] at h0; simp at h0
    rw [hTitle]
    apply updTP_ident
    intro v hg
    have h0 := hM _ v hg (by simp)
    simp only [List.map_append, List.mem_append] at h0
    rcases h0 with h0 | h0
    · exfalso
      cases htf : truthyStrField d "title" with
      | some s =>
        rw [htf] at h0
        simp [mkFrag] at h0
        exact hne h0.1.symm
      | none => rw [htf] at h0; simp at h0
    · cases htf : truthyStrField d "message" with
      | some s =>
        rw [htf] at h0
        simp [mkFrag] at h0
        obtain ⟨hget, hs⟩ := truthy_lookup htf
        rw [h0]
        exact hget
      | none => rw [htf] at h0; simp at h0
  · -- generic
    cases d with
    | obj fs =>
      have hOK : genericFieldsOk fs = true := by
        unfold genericOk at hWF
        exact hWF
      show J.obj (genericFieldsRecon fs bp m) = J.obj fs
      rw [@genericFieldsRecon_ident bp t m fs hOK hN hM]
    | null => rfl
    | boolean b => rfl
    | num n => rfl
    | str s => rfl
    | arr a => rfl

end EditorJSParser

namespace EditorJSParser

theorem reconstructBlockJ_ident (b : J) (i : Nat) (m : List (String × String))
    (hWF : blockWF b = true)
    (hN : (blockConsultedPaths b i).Nodup)
    (hM : ∀ p v, jsMapGet m p = some v → p ∈ blockConsultedPaths b i →
      (p, v) ∈ (extractFromBlockJ b i).map (fun t => (t.path, t.originalText))) :
    reconstructBlockJ b i m = b := by
  unfold reconstructBlockJ
  cases hd : getF b "data" with
  | none => rfl
  | some d =>
    have hWF2 : dataWF (blockType b) d = true := by
      obtain ⟨fs, rfl, hf⟩ := getF_obj hd
      unfold blockWF at hWF
      rw [hd] at hWF
      simp at hWF
      exact hWF.2
    unfold blockConsultedPaths at hN hM
    rw [hd] at hN hM
    unfold extractFromBlockJ at hM
    rw [hd] at hM
    have hN2 : (typeConsultedPaths (blockType b) d (blockPath i)).Nodup := hN
    have hM2 : ∀ p v, jsMapGet m p = some v →
        p ∈ typeConsultedPaths (blockType b) d (blockPath i) →
        (p, v) ∈ (extractByType (blockType b) d (blockPath i)).map
          (fun t => (t.path, t.originalText)) := hM
    show setJF b "data" (reconstructByType (blockType b) d (blockPath i) m) = b
    rw [reconstructByType_ident _ _ _ _ hWF2 hN2 hM2]
    exact setJF_self hd

theorem blocksRecon_ident {m : List (String × String)} : ∀ (bs : JList) (i : Nat),
    blocksWF bs = true →
    (blocksConsulted bs i).Nodup →
    (∀ p v, jsMapGet m p = some v → p ∈ blocksConsulted bs i →
      (p, v) ∈ (blocksExtract bs i).map (fun t => (t.path, t.originalText))) →
    blocksRecon bs m i = bs
  | .nil, _, _, _, _ => rfl
  | .cons b rest, i, hWF, hN, hM => by
    have hWFb : blockWF b = true ∧ blocksWF rest = true := by
      simp [blocksWF] at hWF
      exact hWF
    simp only [blocksConsulted] at hN hM
    have hNx := hN.of_append_left
    have hNr := hN.of_append_right
    have hDis := List.disjoint_of_nodup_append hN
    have hHead : reconstructBlockJ b i m = b := by
      apply reconstructBlockJ_ident b i m hWFb.1 hNx
      intro p v hg hp
      have h0 := hM p v hg (List.mem_append_left _ hp)
      simp only [blocksExtract, List.map_append, List.mem_append] at h0
      rcases h0 with h0 | h0
      · exact h0
      · exfalso
        exact hDis hp (blocksExtract_paths rest (i + 1) (pv_mem_path h0))
    have hTail : blocksRecon rest m (i + 1) = rest := by
      apply blocksRecon_ident rest (i + 1) hWFb.2 hNr
      intro p v hg hp
      have h0 := hM p v hg (List.mem_append_right _ hp)
      simp only [blocksExtract, List.map_append, List.mem_append] at h0
      rcases h0 with h0 | h0
      · exfalso
        exact hDis (extractFromBlockJ_paths b i (pv_mem_path h0)) hp
      · exact h0
    simp only [blocksRecon, hHead, hTail]

/-- Round-trip engine for the Editor.js parser: on a well-formed document
with collision-free consulted paths, rebuilding from the identity
translation of its own extraction reproduces the document tree. -/
theorem treeRoundtrip (j : J) (hWF : docWF j = true) (hN : (docPaths j).Nodup) :
    reconstructTree j (translationEntries (withIdentity (parseTree j))) = some j := by
  unfold docWF at hWF
  cases hb : getF j "blocks" with
  | none => rw [hb] at hWF; simp at hWF
  | some v =>
    rw [hb] at hWF
    cases v with
    | arr bs =>
      have hWFb : blocksWF bs = true := by
        simp at hWF
        exact hWF.2
      unfold reconstructTree
      rw [hb]
      unfold docPaths at hN
      rw [hb] at hN
      have hN2 : (blocksConsulted bs 0).Nodup := hN
      have hfrag : translationEntries (withIdentity (parseTree j)) =
          (blocksExtract bs 0).map (fun t => (t.path, t.originalText)) := by
        rw [translationEntries_withIdentity]
        unfold parseTree
        rw [hb]
      have hRec : blocksRecon bs (translationEntries (withIdentity (parseTree j))) 0 = bs := by
        apply blocksRecon_ident bs 0 hWFb hN2
        intro p v hg hp
        rw [hfrag] at hg
        exact jsMapGet_mem hg
      show some (setJF j "blocks"
        (J.arr (blocksRecon bs (translationEntries (withIdentity (parseTree j))) 0))) = some j
      rw [hRec, setJF_self hb]
    | null => simp at hWF
    | boolean b => simp at hWF
    | num n => simp at hWF
    | str s => simp at hWF
    | obj o => simp at hWF

end EditorJSParser

/-! # The Markdown parser (src, unnamed/part_002)

Line-oriented regex extraction; each JavaScript regex is implemented as
an explicit scanner with the exec/replace left-to-right, non-overlapping,
advance-on-failure semantics of the `g` flag. -/

namespace MarkdownParser

/-- Header match `^(#{1,6})\s+(.+)$`: 1–6 leading hashes followed by at
least one whitespace character and at least one further character (which
greedy backtracking allows to be whitespace); the captured text is
trimmed.  Returns the header level and the trimmed text. -/
def headerInfo (line : String) : Option (Nat × String) :=
  let cs := line.toList
  let k := (cs.takeWhile (fun c => c = '#')).length
  let rem := cs.drop k
  if 1 ≤ k ∧ k ≤ 6 then
    match rem with
    | c :: _ =>
      if jsWs c ∧ rem.length ≥ 2 then
        some (k, (trimChars (rem.dropWhile jsWs)).asString)
      else none
    | [] => none
  else none

/-- Link-text scanner for `/\[([^\]]+)\]\([^)]+\)/g`: leftmost
non-overlapping matches, advancing one position on failure. -/
def linksScan : Nat → List Char → List String
  | 0, _ => []
  | _ + 1, [] => []
  | fuel + 1, c :: rest =>
    if c = '[' then
      let txt := rest.takeWhile (fun x => x ≠ ']')
      let r2 := rest.drop txt.length
      match r2 with
      | ']' :: '(' :: r3 =>
        let url := r3.takeWhile (fun x => x ≠ ')')
        let r4 := r3.drop url.length
        match r4 with
        | ')' :: r5 =>
          if txt ≠ [] ∧ url ≠ [] then txt.asString :: linksScan fuel r5
          else linksScan fuel rest
        | _ => linksScan fuel rest
      | _ => linksScan fuel rest
    else linksScan fuel rest

/-- Image-alt scanner for `/!\[([^\]]*)\]\([^)]+\)/g` (alt may be empty;
every match is reported because the source numbers fragments by match
index, filtering empty alts afterwards). -/
def imagesScan : Nat → List Char → List String
  | 0, _ => []
  | _ + 1, [] => []
  | fuel + 1, c :: rest =>
    match c, rest with
    | '!', '[' :: r1 =>
      let alt := r1.takeWhile (fun x => x ≠ ']')
      let r2 := r1.drop alt.length
      (match r2 with
       | ']' :: '(' :: r3 =>
         let url := r3.takeWhile (fun x => x ≠ ')')
         let r4 := r3.drop url.length
         (match r4 with
          | ')' :: r5 =>
            if url ≠ [] then alt.asString :: imagesScan fuel r5
            else imagesScan fuel ('[' :: r1)
          | _ => imagesScan fuel ('[' :: r1))
       | _ => imagesScan fuel ('[' :: r1))
    | _, _ => imagesScan fuel rest

/-- Blockquote match `^>\s*(.+)$`. -/
def blockquoteText (line : String) : Option String :=
  match line.toList with
  | '>' :: rem =>
    if rem.length ≥ 1 then some (trimChars (rem.dropWhile jsWs)).asString else none
  | _ => none

/-- List-item match `^(\s*)([-*+]|\d+\.)\s+(.+)$`; the Bool reports an
ordered (`\d+\.`) marker. -/
def listItemInfo (line : String) : Option (Bool × String) :=
  let cs := line.toList
  let rest := cs.dropWhile jsWs
  let checkTail := fun (ord : Bool) (rem : List Char) =>
    match rem with
    | c :: _ =>
      if jsWs c ∧ rem.length ≥ 2 then
        some (ord, (trimChars (rem.dropWhile jsWs)).asString)
      else none
    | [] => none
  match rest with
  | '-' :: rem => checkTail false rem
  | '*' :: rem => checkTail false rem
  | '+' :: rem => checkTail false rem
  | _ =>
    let ds := rest.takeWhile Char.isDigit
    if ds ≠ [] then
      match rest.drop ds.length with
      | '.' :: rem => checkTail true rem
      | _ => none
    else none

/-- Plain-text skip test: the line already matched as a header
(`^#{1,6}\s+`), blockquote (`^>\s+`) or list item
(`^(\s*)([-*+]|\d+\.)\s+`). -/
def skipPlain (line : String) : Bool :=
  let cs := line.toList
  let k := (cs.takeWhile (fun c => c = '#')).length
  let headerSkip := decide (1 ≤ k ∧ k ≤ 6) && (match cs.drop k with
    | c :: _ => jsWs c
    | [] => false)
  let bqSkip := match cs with
    | '>' :: c :: _ => jsWs c
    | _ => false
  let rest := cs.dropWhile jsWs
  let markerTail : Option (List Char) :=
    match rest with
    | '-' :: rem => some rem
    | '*' :: rem => some rem
    | '+' :: rem => some rem
    | _ =>
      let ds := rest.takeWhile Char.isDigit
      if ds ≠ [] then
        match rest.drop ds.length with
        | '.' :: rem => some rem
        | _ => none
      else none
  let listSkip := match markerTail with
    | some (c :: _) => jsWs c
    | _ => false
  headerSkip || bqSkip || listSkip

/-- Bold replacement `/\*\*([^*]+)\*\*/g → $1`. -/
def boldRepl : Nat → List Char → List Char
  | 0, cs => cs
  | _ + 1, [] => []
  | fuel + 1, c :: rest =>
    match c, rest with
    | '*', '*' :: r1 =>
      let inner := r1.takeWhile (fun x => x ≠ '*')
      let r2 := r1.drop inner.length
      (match r2 with
       | '*' :: '*' :: r3 =>
         if inner ≠ [] then inner ++ boldRepl fuel r3
         else '*' :: boldRepl fuel ('*' :: r1)
       | _ => '*' :: boldRepl fuel ('*' :: r1))
    | _, _ => c :: boldRepl fuel rest

/-- Italic replacement `/\*([^*]+)\*/g → $1`. -/
def italicRepl : Nat → List Char → List Char
  | 0, cs => cs
  | _ + 1, [] => []
  | fuel + 1, c :: rest =>
    if c = '*' then
      let inner := rest.takeWhile (fun x => x ≠ '*')
      let r2 := rest.drop inner.length
      match r2 with
      | '*' :: r3 =>
        if inner ≠ [] then inner ++ italicRepl fuel r3
        else '*' :: italicRepl fuel rest
      | _ => '*' :: italicRepl fuel rest
    else c :: italicRepl fuel rest

/-- Inline-code replacement `` /`([^`]+)`/g → $1 ``. -/
def codeRepl : Nat → List Char → List Char
  | 0, cs => cs
  | _ + 1, [] => []
  | fuel + 1, c :: rest =>
    if c = '`' then
      let inner := rest.takeWhile (fun x => x ≠ '`')
      let r2 := rest.drop inner.length
      match r2 with
      | '`' :: r3 =>
        if inner ≠ [] then inner ++ codeRepl fuel r3
        else '`' :: codeRepl fuel rest
      | _ => '`' :: codeRepl fuel rest
    else c :: codeRepl fuel rest

/-- Link replacement `/\[([^\]]+)\]\([^)]+\)/g → $1`. -/
def linksRepl : Nat → List Char → List Char
  | 0, cs => cs
  | _ + 1, [] => []
  | fuel + 1, c :: rest =>
    if c = '[' then
      let txt := rest.takeWhile (fun x => x ≠ ']')
      let r2 := rest.drop txt.length
      match r2 with
      | ']' :: '(' :: r3 =>
        let url := r3.takeWhile (fun x => x ≠ ')')
        let r4 := r3.drop url.length
        (match r4 with
         | ')' :: r5 =>
           if txt ≠ [] ∧ url ≠ [] then txt ++ linksRepl fuel r5
           else '[' :: linksRepl fuel rest
         | _ => '[' :: linksRepl fuel rest)
      | _ => '[' :: linksRepl fuel rest
    else c :: linksRepl fuel rest

/-- Image deletion `/!\[([^\]]*)\]\([^)]+\)/g → empty`. -/
def imagesRepl : Nat → List Char → List Char
  | 0, cs => cs
  | _ + 1, [] => []
  | fuel + 1, c :: rest =>
    match c, rest with
    | '!', '[' :: r1 =>
      let alt := r1.takeWhile (fun x => x ≠ ']')
      let r2 := r1.drop alt.length
      (match r2 with
       | ']' :: '(' :: r3 =>
         let url := r3.takeWhile (fun x => x ≠ ')')
         let r4 := r3.drop url.length
         (match r4 with
          | ')' :: r5 =>
            if url ≠ [] then imagesRepl fuel r5
            else '!' :: imagesRepl fuel ('[' :: r1)
          | _ => '!' :: imagesRepl fuel ('[' :: r1))
       | _ => '!' :: imagesRepl fuel ('[' :: r1))
    | _, _ => c :: imagesRepl fuel rest

/-- MarkdownParser.extractPlainText clean-up chain and length filter. -/
def cleanText (line : String) : String :=
  let a := boldRepl (line.length + 1) line.toList
  let b := italicRepl (a.length + 1) a
  let c := codeRepl (b.length + 1) b
  let d := linksRepl (c.length + 1) c
  let e := imagesRepl (d.length + 1) d
  (trimChars e).asString

def lineId (i : Nat) (suffix : String) : String :=
  "line_" ++ toString i ++ "_" ++ suffix

def mkFragT (p ot ctx : String) (ty : FragType) : ExtractedText :=
  { id := p, originalText := ot, translatedText := none, path := p, context := ctx, type := ty }

/-- Fragments emitted for one line outside a code fence, in source push
order (headers, links, images, blockquotes, list items, plain text). -/
def lineFrags (line : String) (i : Nat) : List ExtractedText :=
  (match headerInfo line with
   | some (level, text) =>
     [mkFragT (lineId i "header") text ("H" ++ toString level ++ " header") .text]
   | none => []) ++
  ((linksScan (line.length + 1) line.toList).enum.map fun (j, txt) =>
    mkFragT (lineId i ("link_" ++ toString j)) txt "link text" .text) ++
  ((imagesScan (line.length + 1) line.toList).enum.filterMap fun (j, alt) =>
    if jsTrim alt ≠ "" then
      some (mkFragT (lineId i ("image_" ++ toString j)) alt "image alt text" .alt)
    else none) ++
  (match blockquoteText line with
   | some text => [mkFragT (lineId i "blockquote") text "blockquote" .text]
   | none => []) ++
  (match listItemInfo line with
   | some (ordered, text) =>
     [mkFragT (lineId i "list_item") text
       ((if ordered then "ordered" else "unordered") ++ " list item") .text]
   | none => []) ++
  (if skipPlain line then []
   else
     let ct := cleanText line
     if ct.length > 2 then [mkFragT (lineId i "text") ct "paragraph text" .text]
     else [])

/-- Line loop with the fenced-code-block state machine. -/
def parseLines : List String → Bool → String → Nat → List ExtractedText
  | [], _, _, _ => []
  | line :: rest, inCode, fence, i =>
    let t := jsTrim line
    if jsStartsWith t "```" then
      if !inCode then parseLines rest true t (i + 1)
      else if t = fence ∨ t = "```" then parseLines rest false "" (i + 1)
      else parseLines rest true fence (i + 1)
    else if inCode then parseLines rest inCode fence (i + 1)
    else lineFrags line i ++ parseLines rest inCode fence (i + 1)

/-- MarkdownParser.parse. -/
def parse (content : String) : List ExtractedText :=
  parseLines ((splitOnChar '\n' content.toList).map List.asString) false "" 0

/-- Multiline test of `/^#{1,6}\s+/m` (`\s` may be the line-terminating
newline itself, so a hashes-only non-final line matches). -/
def hasHeaderPat : List (List Char) → Bool
  | [] => false
  | line :: rest =>
    let k := (line.takeWhile (fun c => c = '#')).length
    let hit := decide (1 ≤ k ∧ k ≤ 6) && (match line.drop k with
      | c :: _ => jsWs c
      | [] => !rest.isEmpty)
    hit || hasHeaderPat rest

/-- Multiline test of `^X\s+/m` for a single marker character class. -/
def hasMarkerPat (marks : List Char) : List (List Char) → Bool
  | [] => false
  | line :: rest =>
    let hit := match line with
      | c :: tail =>
        marks.contains c && (match tail with
          | c2 :: _ => jsWs c2
          | [] => !rest.isEmpty)
      | [] => false
    hit || hasMarkerPat marks rest

/-- Per-line test for `/\*\*.*\*\*/` (two disjoint `**`). -/
def hasBoldPat (lines : List (List Char)) : Bool :=
  lines.any fun line =>
    match dropAfterSub ['*', '*'] line with
    | some rest => containsSub ['*', '*'] rest
    | none => false

/-- Per-line test for `/\*.*\*/` (two stars). -/
def hasItalicPat (lines : List (List Char)) : Bool :=
  lines.any fun line => decide ((line.filter (fun c => c = '*')).length ≥ 2)

/-- Per-line test for `/\[.*\]\(.*\)/`. -/
def hasLinkPat (lines : List (List Char)) : Bool :=
  lines.any fun line =>
    match dropAfterSub ['['] line with
    | some r1 =>
      (match dropAfterSub [']', '('] r1 with
       | some r2 => containsSub [')'] r2
       | none => false)
    | none => false

/-- MarkdownParser.validate: any of the seven syntactic patterns. -/
def validate (content : String) : Bool :=
  let cs := content.toList
  let lines := splitOnChar '\n' cs
  hasHeaderPat lines ||
  hasBoldPat lines ||
  hasItalicPat lines ||
  hasLinkPat lines ||
  hasMarkerPat ['-', '*', '+'] lines ||
  hasMarkerPat ['>'] lines ||
  (match dropAfterSub ['`', '`', '`'] cs with
   | some rest => containsSub ['`', '`', '`'] rest
   | none => false)

/-- JavaScript word character (`\w`). -/
def wordChar (c : Char) : Bool :=
  ('a' ≤ c && c ≤ 'z') || ('A' ≤ c && c ≤ 'Z') || ('0' ≤ c && c ≤ '9') || c = '_'

/-- Word-boundary assertion `\b` between an optional previous character
and the next character. -/
def boundaryAt (prev : Option Char) (next : Option Char) : Bool :=
  (match prev with | some c => wordChar c | none => false) ≠
    (match next with | some c => wordChar c | none => false)

/-- Global replacement of `` `\b${pat}\b` `` by `rep` (`prev` carries the
character before the current position).  A nonempty pattern is assumed;
the reconstruction guard makes the empty case unreachable in every use
modelled here. -/
def wbRepl (pat rep : List Char) (prev : Option Char) : Nat → List Char → List Char
  | 0, cs => cs
  | _ + 1, [] => []
  | fuel + 1, c :: rest =>
    if headMatches pat (c :: rest) ∧ boundaryAt prev pat.head? ∧
        boundaryAt pat.getLast? ((c :: rest).drop pat.length).head? then
      rep ++ wbRepl pat rep pat.getLast? fuel ((c :: rest).drop pat.length)
    else c :: wbRepl pat rep (some c) fuel rest

/-- Image-alt-scoped replacement `(!\[)(pat)(\]\([^)]+\))` → `$1 rep $3`. -/
def altRepl (pat rep : List Char) : Nat → List Char → List Char
  | 0, cs => cs
  | _ + 1, [] => []
  | fuel + 1, c :: rest =>
    match c, rest with
    | '!', '[' :: r1 =>
      if headMatches pat r1 then
        (match r1.drop pat.length with
         | ']' :: '(' :: r3 =>
           let url := r3.takeWhile (fun x => x ≠ ')')
           (match r3.drop url.length with
            | ')' :: r5 =>
              if url ≠ [] then
                '!' :: '[' :: rep ++ ']' :: '(' :: url ++ ')' :: altRepl pat rep fuel r5
              else '!' :: altRepl pat rep fuel ('[' :: r1)
            | _ => '!' :: altRepl pat rep fuel ('[' :: r1))
         | _ => '!' :: altRepl pat rep fuel ('[' :: r1))
      else '!' :: altRepl pat rep fuel ('[' :: r1)
    | _, _ => c :: altRepl pat rep fuel rest

/-- MarkdownParser.reconstruct: per-fragment text substitution, applied
only when the fragment carries a truthy translation different from its
original text. -/
def applyOne (acc : String) (t : ExtractedText) : String :=
  match t.translatedText with
  | some tt =>
    if tt ≠ "" ∧ tt ≠ t.originalText then
      match t.type with
      | .alt => (altRepl t.originalText.toList tt.toList (acc.length + 1) acc.toList).asString
      | _ => (wbRepl t.originalText.toList tt.toList none (acc.length + 1) acc.toList).asString
    else acc
  | none => acc

def reconstruct (originalContent : String) (translations : List ExtractedText) : String :=
  translations.foldl applyOne originalContent

end MarkdownParser

/-! # The HTML parser (src, unnamed/part_003)

Extraction walks the ambient browser DOM and is not part of any claim
checked here; its `validate` (registry detection) and `reconstruct`
(text-substitution rebuild) are modelled. -/

namespace HtmlParser

/-- HtmlParser.validate: regex `/<[^>]+>/.test(content)`. -/
def hasTag : List Char → Bool
  | [] => false
  | '<' :: rest =>
    let inner := rest.takeWhile (fun c => c ≠ '>')
    (match rest.drop inner.length with
     | '>' :: _ => !inner.isEmpty
     | _ => false) || hasTag rest
  | _ :: rest => hasTag rest

def validate (content : String) : Bool := hasTag content.toList

/-- Body-text replacement `(>\s*)(pat)(\s*<)` → `$1 rep $3` (greedy
whitespace runs; extraction always trims `pat`, which keeps greediness
faithful for every input produced by the pipeline). -/
def textRepl (pat rep : List Char) : Nat → List Char → List Char
  | 0, cs => cs
  | _ + 1, [] => []
  | fuel + 1, c :: rest =>
    if c = '>' then
      let ws1 := rest.takeWhile jsWs
      let r1 := rest.drop ws1.length
      if headMatches pat r1 then
        let r2 := r1.drop pat.length
        let ws2 := r2.takeWhile jsWs
        match r2.drop ws2.length with
        | '<' :: r3 => '>' :: ws1 ++ rep ++ ws2 ++ '<' :: textRepl pat rep fuel r3
        | _ => c :: textRepl pat rep fuel rest
      else c :: textRepl pat rep fuel rest
    else c :: textRepl pat rep fuel rest

def textualAttrNames : List (List Char) :=
  [("alt").toList, ("title").toList, ("placeholder").toList,
   ("aria-label").toList, ("data-text").toList]

/-- Attribute replacement
`((?:alt|title|placeholder|aria-label|data-text)=["'])(pat)(["'])`. -/
def attrRepl (pat rep : List Char) : Nat → List Char → List Char
  | 0, cs => cs
  | _ + 1, [] => []
  | fuel + 1, c :: rest =>
    let tryName : Option (List Char × List Char) :=
      textualAttrNames.foldl
        (fun acc name =>
          match acc with
          | some r => some r
          | none =>
            if headMatches name (c :: rest) then
              match (c :: rest).drop name.length with
              | '=' :: q1 :: r1 =>
                if (q1 = '"' ∨ q1 = '\x27') ∧ headMatches pat r1 then
                  match r1.drop pat.length with
                  | q2 :: r2 =>
                    if q2 = '"' ∨ q2 = '\x27' then
                      some (name ++ '=' :: q1 :: rep ++ [q2], r2)
                    else none
                  | [] => none
                else none
              | _ => none
            else none)
        none
    match tryName with
    | some (pre, r2) => pre ++ attrRepl pat rep fuel r2
    | none => c :: attrRepl pat rep fuel rest

def applyOne (acc : String) (t : ExtractedText) : String :=
  match t.translatedText with
  | some tt =>
    if tt ≠ "" ∧ tt ≠ t.originalText then
      let afterText := (textRepl t.originalText.toList tt.toList (acc.length + 1) acc.toList)
      (attrRepl t.originalText.toList tt.toList (afterText.length + 1) afterText).asString
    else acc
  | none => acc

/-- HtmlParser.reconstruct. -/
def reconstruct (originalContent : String) (translations : List ExtractedText) : String :=
  translations.foldl applyOne originalContent

end HtmlParser

mutual
/-- Structural size of a JSON value, used as recursion fuel for the
GrapeJS component walk (which recurses through a field lookup and is
therefore not structurally recursive). -/
def jSize : J → Nat
  | .null | .boolean _ | .num _ | .str _ => 1
  | .arr xs => 1 + jlSize xs
  | .obj fs => 1 + joSize fs

def jlSize : JList → Nat
  | .nil => 0
  | .cons x xs => jSize x + jlSize xs

def joSize : JObj → Nat
  | .nil => 0
  | .cons _ v fs => jSize v + joSize fs
end

/-! # The GrapeJS parser (src, unnamed/part_004) -/

namespace GrapeJSParser

/-- GrapeJSParser.validate:
`parsed && (Array.isArray(parsed) || (parsed.components && Array.isArray(parsed.components)))`. -/
def validate (content : String) : Bool :=
  match jsParse content with
  | some j =>
    jTruthy j &&
      (match j with
       | .arr _ => true
       | _ =>
         match getF j "components" with
         | some (.arr _) => true
         | _ => false)
  | none => false

/-- Component list of a parsed document:
`Array.isArray(grapeData) ? grapeData : grapeData.components || []`.
`none` models the walk throwing (a `null` document or a truthy non-array
`components`), which the enclosing try/catch turns into no fragments /
the original content. -/
def componentsOf (j : J) : Option JList :=
  match j with
  | .arr xs => some xs
  | .null => none
  | _ =>
    match getF j "components" with
    | some c =>
      if jTruthy c then
        match c with
        | .arr xs => some xs
        | _ => none
      else some .nil
    | none => some .nil

def nonTextualKeys : List String :=
  ["id", "class", "src", "href", "url", "link", "style", "width", "height"]

/-- Regex `^#[0-9a-f]{3,6}$/i`. -/
def colorTest (value : String) : Bool :=
  match value.toList with
  | '#' :: rest =>
    decide (3 ≤ rest.length ∧ rest.length ≤ 6) &&
      rest.all (fun c =>
        let l := c.toLower
        ('0' ≤ l && l ≤ '9') || ('a' ≤ l && l ≤ 'f'))
  | _ => false

/-- Regex `^\d+(\.\d+)?(px|em|rem|%)?$/i`. -/
def numberTest (value : String) : Bool :=
  let cs := value.toList
  let ds := cs.takeWhile Char.isDigit
  if ds.isEmpty then false
  else
    let r1 := cs.drop ds.length
    let r2 :=
      match r1 with
      | '.' :: rest =>
        let fs := rest.takeWhile Char.isDigit
        if fs.isEmpty then none else some (rest.drop fs.length)
      | _ => some r1
    match r2 with
    | none => false
    | some tail =>
      let low := (tail.map Char.toLower).asString
      low = "" || low = "px" || low = "em" || low = "rem" || low = "%"

/-- GrapeJSParser.isTextualContent. -/
def isTextualContent (key value : String) : Bool :=
  !(nonTextualKeys.contains (jsToLower key)) && !JsonParser.urlTest value &&
    !colorTest value && !numberTest value && decide (value.length > 1)

def textualAttributes : List String :=
  ["alt", "title", "placeholder", "aria-label", "data-text", "value"]

/-- GrapeJSParser.getAttributeType. -/
def getAttributeType (attributeName : String) : FragType :=
  match jsToLower attributeName with
  | "alt" => .alt
  | "title" => .title
  | "placeholder" => .placeholder
  | "aria-label" => .meta
  | "data-text" => .meta
  | _ => .text

/-- GrapeJSParser.getComponentContext. -/
def componentContext (c : J) : String :=
  match getF c "type" with
  | some (.str t) =>
    if t ≠ "" then t ++ " component"
    else
      match getF c "tagName" with
      | some (.str g) => if g ≠ "" then g ++ " element" else "component"
      | _ => "component"
  | _ =>
    match getF c "tagName" with
    | some (.str g) => if g ≠ "" then g ++ " element" else "component"
    | _ => "component"

def mkFragG (p ot ctx : String) (ty : FragType) : ExtractedText :=
  { id := p, originalText := ot, translatedText := none, path := p, context := ctx, type := ty }

/-- Attribute fragments (values are pushed verbatim, never stripped). -/
def attrFrags (fs : JObj) (basePath ctx : String) : List ExtractedText :=
  match fs with
  | .nil => []
  | .cons k v rest =>
    (match v with
     | .str s =>
       if jsTrim s ≠ "" ∧ (textualAttributes.contains k ∨ isTextualContent k s = true) then
         [mkFragG (basePath ++ "." ++ k) s (ctx ++ " " ++ k) (getAttributeType k)]
       else []
     | _ => []) ++ attrFrags rest basePath ctx

/-- Fragments of a single trait (`trait.value` truthy string with a textual
name, pushed verbatim). -/
def traitHeadFrags (t : J) (path ctx : String) (i : Nat) : List ExtractedText :=
  match getF t "value" with
  | some (.str s) =>
    if s ≠ "" then
      match getF t "name" with
      | some (.str n) =>
        if isTextualContent n s then
          [mkFragG (path ++ ".traits[" ++ toString i ++ "].value") s (ctx ++ " " ++ n)
            (getAttributeType n)]
        else []
      | _ => []
    else []
  | _ => []

def traitFrags (ts : JList) (path ctx : String) (i : Nat) : List ExtractedText :=
  match ts with
  | .nil => []
  | .cons t rest => traitHeadFrags t path ctx i ++ traitFrags rest path ctx (i + 1)

/-- Content fragment of a single component (`component.content` truthy
string, stripped, pushed when the stripped text is nonempty). -/
def contentFrags (c : J) (path : String) : List ExtractedText :=
  match getF c "content" with
  | some (.str s) =>
    if s ≠ "" then
      let tc := EditorJSParser.stripHtml s
      if tc ≠ "" then [mkFragG (path ++ ".content") tc (componentContext c) .text] else []
    else []
  | _ => []

/-- Attribute fragments of a component (`extractFromAttributes` call site). -/
def attrBlockFrags (c : J) (path : String) : List ExtractedText :=
  match getF c "attributes" with
  | some (.obj fs) => attrFrags fs (path ++ ".attributes") (componentContext c)
  | _ => []

/-- Trait fragments of a component. -/
def traitBlockFrags (c : J) (path : String) : List ExtractedText :=
  match getF c "traits" with
  | some (.arr ts) => traitFrags ts path (componentContext c) 0
  | _ => []

mutual
/-- GrapeJSParser.extractFromComponent.  The walk recurses through the
`components` field lookup, so it is indexed by fuel; every recursive call
decrements the fuel (the wrappers pass `4 * jSize + 4`, ample for the
walk's depth). -/
def extractComp : Nat → J → String → List ExtractedText
  | 0, _, _ => []
  | fuel + 1, c, path =>
    contentFrags c path ++ attrBlockFrags c path ++ traitBlockFrags c path ++
    (match getF c "components" with
     | some (.arr xs) => extractChildren fuel xs (path ++ ".components[") 0
     | _ => [])

def extractChildren : Nat → JList → String → Nat → List ExtractedText
  | 0, _, _, _ => []
  | _ + 1, .nil, _, _ => []
  | fuel + 1, .cons x xs, prefixPath, i =>
    extractComp fuel x (prefixPath ++ toString i ++ "]") ++
      extractChildren fuel xs prefixPath (i + 1)
end

/-- Child-component fragments of a component. -/
def childBlockFrags (fuel : Nat) (c : J) (path : String) : List ExtractedText :=
  match getF c "components" with
  | some (.arr xs) => extractChildren fuel xs (path ++ ".components[") 0
  | _ => []


/-- Fuel used by the string-level wrappers: comfortably larger than the
depth of the parsed tree's component walk. -/
def grapeFuel (j : J) : Nat := 4 * jSize j + 4

/-- GrapeJSParser.parse (tree level). -/
def parseTree (j : J) : List ExtractedText :=
  match componentsOf j with
  | some xs => extractChildren (grapeFuel j) xs "[" 0
  | none => []

/-- GrapeJSParser.parse. -/
def parse (content : String) : List ExtractedText :=
  match jsParse content with
  | some j => parseTree j
  | none => []

def attrsRecon (fs : JObj) (basePath : String) (m : List (String × String)) : JObj :=
  match fs with
  | .nil => .nil
  | .cons k v rest =>
    let v2 :=
      match jsMapGet m (basePath ++ "." ++ k) with
      | some w => J.str w
      | none => v
    .cons k v2 (attrsRecon rest basePath m)

def traitsRecon (ts : JList) (path : String) (m : List (String × String)) (i : Nat) : JList :=
  match ts with
  | .nil => .nil
  | .cons t rest =>
    let t2 :=
      match jsMapGet m (path ++ ".traits[" ++ toString i ++ "].value") with
      | some w => EditorJSParser.setJF t "value" (.str w)
      | none => t
    .cons t2 (traitsRecon rest path m (i + 1))

/-- Content update step of `reconstructComponent`. -/
def contentRecon (c : J) (path : String) (m : List (String × String)) : J :=
  match jsMapGet m (path ++ ".content") with
  | some v => EditorJSParser.setJF c "content" (.str v)
  | none => c

/-- Attribute update step of `reconstructComponent`. -/
def attrBlockRecon (c : J) (path : String) (m : List (String × String)) : J :=
  match getF c "attributes" with
  | some (.obj fs) =>
    EditorJSParser.setJF c "attributes" (.obj (attrsRecon fs (path ++ ".attributes") m))
  | _ => c

/-- Trait update step of `reconstructComponent`. -/
def traitBlockRecon (c : J) (path : String) (m : List (String × String)) : J :=
  match getF c "traits" with
  | some (.arr ts) => EditorJSParser.setJF c "traits" (.arr (traitsRecon ts path m 0))
  | _ => c

mutual
/-- GrapeJSParser.reconstructComponent: content, attributes, traits, then
child components, mutating the component in place. -/
def reconComp : Nat → J → String → List (String × String) → J
  | 0, c, _, _ => c
  | fuel + 1, c, path, m =>
    let c3 := traitBlockRecon (attrBlockRecon (contentRecon c path m) path m) path m
    match getF c3 "components" with
    | some (.arr xs) =>
      EditorJSParser.setJF c3 "components" (.arr (reconChildren fuel xs (path ++ ".components[") 0 m))
    | _ => c3

def reconChildren : Nat → JList → String → Nat → List (String × String) → JList
  | 0, xs, _, _, _ => xs
  | _ + 1, .nil, _, _, _ => .nil
  | fuel + 1, .cons x xs, prefixPath, i, m =>
    .cons (reconComp fuel x (prefixPath ++ toString i ++ "]") m)
      (reconChildren fuel xs prefixPath (i + 1) m)
end

/-- Tree-level reconstruction result (`none` models the walk throwing,
with the catch returning the original content). -/
def reconstructTreeJ (j : J) (m : List (String × String)) : Option J :=
  match componentsOf j with
  | none => none
  | some xs =>
    let xs2 := reconChildren (grapeFuel j) xs "[" 0 m
    match j with
    | .arr _ => some (.arr xs2)
    | .obj fs => some (.obj (setF fs "components" (.arr xs2)))
    | _ => some (.obj (.cons "components" (.arr xs2) .nil))

/-- GrapeJSParser.reconstruct. -/
def reconstruct (originalContent : String) (translations : List ExtractedText) : String :=
  match jsParse originalContent with
  | none => originalContent
  | some j =>
    match reconstructTreeJ j (translationEntries translations) with
    | some j2 => jsStringify j2 ""
    | none => originalContent

/-! Consulted-path inventory and well-formedness, with the same fuel
discipline as the walk itself. -/

def attrPaths (fs : JObj) (basePath : String) : List String :=
  match fs with
  | .nil => []
  | .cons k _ rest => (basePath ++ "." ++ k) :: attrPaths rest basePath

def traitPaths (ts : JList) (path : String) (i : Nat) : List String :=
  match ts with
  | .nil => []
  | .cons _ rest => (path ++ ".traits[" ++ toString i ++ "].value") :: traitPaths rest path (i + 1)

def attrBlockPaths (c : J) (path : String) : List String :=
  match getF c "attributes" with
  | some (.obj fs) => attrPaths fs (path ++ ".attributes")
  | _ => []

def traitBlockPaths (c : J) (path : String) : List String :=
  match getF c "traits" with
  | some (.arr ts) => traitPaths ts path 0
  | _ => []

mutual
def compPaths : Nat → J → String → List String
  | 0, _, _ => []
  | fuel + 1, c, path =>
    (path ++ ".content") ::
    attrBlockPaths c path ++ traitBlockPaths c path ++
    (match getF c "components" with
     | some (.arr xs) => childPaths fuel xs (path ++ ".components[") 0
     | _ => [])

def childPaths : Nat → JList → String → Nat → List String
  | 0, _, _, _ => []
  | _ + 1, .nil, _, _ => []
  | fuel + 1, .cons x xs, prefixPath, i =>
    compPaths fuel x (prefixPath ++ toString i ++ "]") ++ childPaths fuel xs prefixPath (i + 1)
end

/-- Consulted paths of the child components of a component. -/
def childBlockPaths (fuel : Nat) (c : J) (path : String) : List String :=
  match getF c "components" with
  | some (.arr xs) => childPaths fuel xs (path ++ ".components[") 0
  | _ => []

/-- Trait elements on which the JavaScript walk neither throws nor
diverges from this model: non-null, and a truthy string `value` comes
with a string `name`. -/
def traitOk (t : J) : Bool :=
  match t with
  | .null => false
  | _ =>
    match getF t "value" with
    | some (.str s) =>
      if s ≠ "" then
        match getF t "name" with
        | some (.str _) => true
        | _ => false
      else true
    | some v => !jTruthy v || true
    | none => true

def traitsOk (ts : JList) : Bool :=
  match ts with
  | .nil => true
  | .cons t rest => traitOk t && traitsOk rest

/-- Attributes field shapes on which the model agrees with `Object.keys`:
anything except strings and arrays (whose keys would be indices). -/
def attrsFieldOk (c : J) : Bool :=
  match getF c "attributes" with
  | some (.str _) => false
  | some (.arr _) => false
  | _ => true

/-- Content strip-invariance: an extracted content string is unchanged by
HTML-stripping. -/
def contentOk (c : J) : Bool :=
  match getF c "content" with
  | some (.str s) => EditorJSParser.stripHtml s = "" || EditorJSParser.stripHtml s = s
  | _ => true

/-- Traits field shapes on which the walk neither throws nor diverges:
an array of well-formed traits, or a falsy value. -/
def traitsFieldOk (c : J) : Bool :=
  match getF c "traits" with
  | some (.arr ts) => traitsOk ts
  | some v => !jTruthy v
  | none => true

mutual
def compWF : Nat → J → Bool
  | 0, _ => false
  | fuel + 1, c =>
    match c with
    | .null => false
    | _ =>
      contentOk c && attrsFieldOk c && traitsFieldOk c &&
      (match getF c "components" with
       | some (.arr xs) => childrenWF fuel xs
       | _ => true)

def childrenWF : Nat → JList → Bool
  | 0, _ => false
  | _ + 1, .nil => true
  | fuel + 1, .cons x xs => compWF fuel x && childrenWF fuel xs
end

/-- Well-formedness of the child components of a component. -/
def childBlockWF (fuel : Nat) (c : J) : Bool :=
  match getF c "components" with
  | some (.arr xs) => childrenWF fuel xs
  | _ => true

/-- Consulted paths of a whole document. -/
def docPaths (j : J) : List String :=
  match componentsOf j with
  | some xs => childPaths (grapeFuel j) xs "[" 0
  | none => []

/-- Document well-formedness: an array of components, or an object whose
`components` field is an array; all components well-formed under the
canonical fuel. -/
def docWF (j : J) : Bool :=
  match j with
  | .arr xs => childrenWF (grapeFuel j) xs
  | .obj _ =>
    (match getF j "components" with
     | some (.arr xs) => childrenWF (grapeFuel j) xs
     | _ => false)
  | _ => false


theorem attrFrags_paths {q bp ctx : String} : ∀ (fs : JObj),
    q ∈ (attrFrags fs bp ctx).map ExtractedText.path → q ∈ attrPaths fs bp
  | .nil, h => by simp [attrFrags] at h
  | .cons k v rest, h => by
    simp only [attrFrags, List.map_append, List.mem_append] at h
    rcases h with h | h
    · cases v with
      | str s =>
        simp [mkFragG] at h
        obtain ⟨a, ⟨hcond, ha⟩, hq⟩ := h
        subst ha
        simp only [attrPaths, List.mem_cons]
        exact Or.inl hq.symm
      | null => simp at h
      | boolean b => simp at h
      | num n => simp at h
      | arr a => simp at h
      | obj o => simp at h
    · exact List.mem_cons_of_mem _ (attrFrags_paths rest h)

theorem traitHeadFrags_pv {p w path ctx : String} {t : J} {i : Nat}
    (h : (p, w) ∈ (traitHeadFrags t path ctx i).map (fun t => (t.path, t.originalText))) :
    p = path ++ ".traits[" ++ toString i ++ "].value" ∧ getF t "value" = some (J.str w) := by
  unfold traitHeadFrags at h
  cases hv : getF t "value" with
  | none => rw [hv] at h; simp at h
  | some v =>
    rw [hv] at h
    cases v with
    | str s =>
      by_cases hs : s ≠ ""
      · simp only [hs, if_true] at h
        cases hn : getF t "name" with
        | none => rw [hn] at h; simp at h
        | some n =>
          rw [hn] at h
          cases n with
          | str nm =>
            simp [mkFragG] at h
            obtain ⟨a, ⟨hs2, htx, ha⟩, hp2, hw⟩ := h
            subst ha
            refine ⟨hp2.symm, ?_⟩
            have hw2 : s = w := hw
            rw [hw2]
          | null => simp at h
          | boolean b => simp at h
          | num x => simp at h
          | arr a => simp at h
          | obj o => simp at h
      · simp [hs] at h
    | null => simp at h
    | boolean b => simp at h
    | num x => simp at h
    | arr a => simp at h
    | obj o => simp at h

theorem traitFrags_paths {q path ctx : String} : ∀ (ts : JList) (i : Nat),
    q ∈ (traitFrags ts path ctx i).map ExtractedText.path → q ∈ traitPaths ts path i
  | .nil, i, h => by simp [traitFrags] at h
  | .cons t rest, i, h => by
    simp only [traitFrags, List.map_append, List.mem_append] at h
    rcases h with h | h
    · have h2 : ∃ w, (q, w) ∈ (traitHeadFrags t path ctx i).map (fun t => (t.path, t.originalText)) := by
        simp only [List.mem_map] at h ⊢
        obtain ⟨a, ha, he⟩ := h
        exact ⟨a.originalText, a, ha, by rw [he]⟩
      obtain ⟨w, hw⟩ := h2
      simp only [traitPaths, List.mem_cons]
      exact Or.inl (traitHeadFrags_pv hw).1
    · exact List.mem_cons_of_mem _ (traitFrags_paths rest (i + 1) h)

end GrapeJSParser

namespace GrapeJSParser

theorem contentFrags_path {q : String} {c : J} {path : String}
    (h : q ∈ (contentFrags c path).map ExtractedText.path) : q = path ++ ".content" := by
  unfold contentFrags at h
  cases hv : getF c "content" with
  | none => rw [hv] at h; simp at h
  | some v =>
    rw [hv] at h
    cases v with
    | str s =>
      simp [mkFragG] at h
      obtain ⟨a, ⟨hcond, hc2, ha⟩, hq⟩ := h
      subst ha
      exact hq.symm
    | null => simp at h
    | boolean b => simp at h
    | num x => simp at h
    | arr a => simp at h
    | obj o => simp at h

theorem attrBlockFrags_paths {q : String} {c : J} {path : String}
    (h : q ∈ (attrBlockFrags c path).map ExtractedText.path) : q ∈ attrBlockPaths c path := by
  unfold attrBlockFrags at h
  unfold attrBlockPaths
  cases ha : getF c "attributes" with
  | none => rw [ha] at h; simp at h
  | some v =>
    rw [ha] at h
    cases v with
    | obj fs => exact attrFrags_paths fs h
    | null => simp at h
    | boolean b => simp at h
    | num x => simp at h
    | arr a => simp at h
    | str s => simp at h

theorem traitBlockFrags_paths {q : String} {c : J} {path : String}
    (h : q ∈ (traitBlockFrags c path).map ExtractedText.path) : q ∈ traitBlockPaths c path := by
  unfold traitBlockFrags at h
  unfold traitBlockPaths
  cases ht : getF c "traits" with
  | none => rw [ht] at h; simp at h
  | some v =>
    rw [ht] at h
    cases v with
    | arr ts => exact traitFrags_paths ts 0 h
    | null => simp at h
    | boolean b => simp at h
    | num x => simp at h
    | str s => simp at h
    | obj o => simp at h

mutual
theorem extractComp_paths {q : String} : ∀ (fuel : Nat) (c : J) (path : String),
    q ∈ (extractComp fuel c path).map ExtractedText.path → q ∈ compPaths fuel c path
  | 0, c, path, h => by simp [extractComp] at h
  | fuel + 1, c, path, h => by
    simp only [extractComp, List.map_append, List.mem_append] at h
    simp only [compPaths, List.mem_cons, List.mem_append]
    rcases h with ((h | h) | h) | h
    · exact Or.inl (Or.inl (Or.inl (contentFrags_path h)))
    · exact Or.inl (Or.inl (Or.inr (attrBlockFrags_paths h)))
    · exact Or.inl (Or.inr (traitBlockFrags_paths h))
    · refine Or.inr ?_
      cases hc : getF c "components" with
      | none => rw [hc] at h; simp at h
      | some v =>
        rw [hc] at h
        cases v with
        | arr xs => exact extractChildren_paths fuel xs (path ++ ".components[") 0 h
        | null => simp at h
        | boolean b => simp at h
        | num x => simp at h
        | str s => simp at h
        | obj o => simp at h

theorem extractChildren_paths {q : String} :
    ∀ (fuel : Nat) (xs : JList) (pp : String) (i : Nat),
    q ∈ (extractChildren fuel xs pp i).map ExtractedText.path → q ∈ childPaths fuel xs pp i
  | 0, xs, pp, i, h => by simp [extractChildren] at h
  | fuel + 1, .nil, pp, i, h => by simp [extractChildren] at h
  | fuel + 1, .cons x xs, pp, i, h => by
    simp only [extractChildren, childPaths, List.map_append, List.mem_append] at h ⊢
    rcases h with h | h
    · exact Or.inl (extractComp_paths fuel x (pp ++ toString i ++ "]") h)
    · exact Or.inr (extractChildren_paths fuel xs pp (i + 1) h)
end

end GrapeJSParser

namespace GrapeJSParser

theorem attrsRecon_ident {bp ctx : String} {m : List (String × String)} :
    ∀ (fs : JObj),
    (attrPaths fs bp).Nodup →
    (∀ p v, jsMapGet m p = some v → p ∈ attrPaths fs bp →
      (p, v) ∈ (attrFrags fs bp ctx).map (fun t => (t.path, t.originalText))) →
    attrsRecon fs bp m = fs
  | .nil, _, _ => rfl
  | .cons k v rest, hN, hM => by
    simp only [attrPaths, List.nodup_cons] at hN
    obtain ⟨hq0, hN'⟩ := hN
    have hTail : attrsRecon rest bp m = rest := by
      apply attrsRecon_ident rest hN'
      intro p w hg hp
      have h0 := hM p w hg (List.mem_cons_of_mem _ hp)
      simp only [attrFrags, List.map_append, List.mem_append] at h0
      rcases h0 with h0 | h0
      · exfalso
        cases v with
        | str s =>
          simp [mkFragG] at h0
          obtain ⟨a, ⟨hc, ha⟩, hp2, hw⟩ := h0
          subst ha
          have hp3 : (bp ++ "." ++ k) = p := hp2
          exact hq0 (hp3 ▸ hp)
        | null => simp at h0
        | boolean b => simp at h0
        | num x => simp at h0
        | arr a => simp at h0
        | obj o => simp at h0
      · exact h0
    simp only [attrsRecon, hTail]
    cases hg : jsMapGet m (bp ++ "." ++ k) with
    | some w =>
      have h0 := hM _ w hg (List.mem_cons_self _ _)
      simp only [attrFrags, List.map_append, List.mem_append] at h0
      rcases h0 with h0 | h0
      · cases v with
        | str s =>
          simp [mkFragG] at h0
          obtain ⟨a, ⟨hc, ha⟩, hp2, hw⟩ := h0
          subst ha
          have hw2 : s = w := hw
          rw [← hw2]
        | null => simp at h0
        | boolean b => simp at h0
        | num x => simp at h0
        | arr a => simp at h0
        | obj o => simp at h0
      · exfalso
        exact hq0 (attrFrags_paths rest (pv_mem_path h0))
    | none => rfl

theorem traitsRecon_ident {path ctx : String} {m : List (String × String)} :
    ∀ (ts : JList) (i : Nat),
    (traitPaths ts path i).Nodup →
    (∀ p v, jsMapGet m p = some v → p ∈ traitPaths ts path i →
      (p, v) ∈ (traitFrags ts path ctx i).map (fun t => (t.path, t.originalText))) →
    traitsRecon ts path m i = ts
  | .nil, _, _, _ => rfl
  | .cons t rest, i, hN, hM => by
    simp only [traitPaths, List.nodup_cons] at hN
    obtain ⟨hq0, hN'⟩ := hN
    have hTail : traitsRecon rest path m (i + 1) = rest := by
      apply traitsRecon_ident rest (i + 1) hN'
      intro p w hg hp
      have h0 := hM p w hg (List.mem_cons_of_mem _ hp)
      simp only [traitFrags, List.map_append, List.mem_append] at h0
      rcases h0 with h0 | h0
      · exfalso
        exact hq0 ((traitHeadFrags_pv h0).1 ▸ hp)
      · exact h0
    simp only [traitsRecon, hTail]
    cases hg : jsMapGet m (path ++ ".traits[" ++ toString i ++ "].value") with
    | some w =>
      have h0 := hM _ w hg (List.mem_cons_self _ _)
      simp only [traitFrags, List.map_append, List.mem_append] at h0
      rcases h0 with h0 | h0
      · show JList.cons (EditorJSParser.setJF t "value" (J.str w)) rest = JList.cons t rest
        rw [EditorJSParser.setJF_self (traitHeadFrags_pv h0).2]
      · exfalso
        exact hq0 (traitFrags_paths rest (i + 1) (pv_mem_path h0))
    | none => rfl

end GrapeJSParser

namespace GrapeJSParser

theorem extractComp_succ (fuel : Nat) (c : J) (path : String) :
    extractComp (fuel + 1) c path =
      contentFrags c path ++ attrBlockFrags c path ++ traitBlockFrags c path ++
        childBlockFrags fuel c path := by
  simp only [extractComp, childBlockFrags]

theorem compPaths_succ (fuel : Nat) (c : J) (path : String) :
    compPaths (fuel + 1) c path =
      (path ++ ".content") :: attrBlockPaths c path ++ traitBlockPaths c path ++
        childBlockPaths fuel c path := by
  simp only [compPaths, childBlockPaths]

theorem compWF_parts {fuel : Nat} {c : J} (h : compWF (fuel + 1) c = true) :
    contentOk c = true ∧ attrsFieldOk c = true ∧ traitsFieldOk c = true ∧
      childBlockWF fuel c = true := by
  cases c <;> simp [compWF, childBlockWF] at h ⊢ <;> tauto

theorem contentFrags_pv {p w : String} {c : J} {path : String}
    (h : (p, w) ∈ (contentFrags c path).map (fun t => (t.path, t.originalText))) :
    ∃ s, getF c "content" = some (J.str s) ∧ w = EditorJSParser.stripHtml s ∧
      EditorJSParser.stripHtml s ≠ "" := by
  unfold contentFrags at h
  cases hv : getF c "content" with
  | none => rw [hv] at h; simp at h
  | some v =>
    rw [hv] at h
    cases v with
    | str s =>
      simp [mkFragG] at h
      obtain ⟨a, ⟨hs2, hst, ha⟩, hp2, hw⟩ := h
      subst ha
      have hw2 : EditorJSParser.stripHtml s = w := hw
      exact ⟨s, rfl, hw2.symm, hst⟩
    | null => simp at h
    | boolean b => simp at h
    | num x => simp at h
    | arr a => simp at h
    | obj o => simp at h

theorem contentRecon_ident {c : J} {path : String} {m : List (String × String)}
    (hOK : contentOk c = true)
    (hM : ∀ v, jsMapGet m (path ++ ".content") = some v →
      (path ++ ".content", v) ∈ (contentFrags c path).map (fun t => (t.path, t.originalText))) :
    contentRecon c path m = c := by
  unfold contentRecon
  cases hg : jsMapGet m (path ++ ".content") with
  | none => rfl
  | some w =>
    obtain ⟨s, hv, hw, hne⟩ := contentFrags_pv (hM w hg)
    unfold contentOk at hOK
    rw [hv] at hOK
    have hOK2 : (decide (EditorJSParser.stripHtml s = "") ||
        decide (EditorJSParser.stripHtml s = s)) = true := hOK
    simp only [Bool.or_eq_true, decide_eq_true_eq] at hOK2
    have hss : EditorJSParser.stripHtml s = s := by
      rcases hOK2 with h2 | h2
      · exact absurd h2 hne
      · exact h2
    rw [hw, hss]
    exact EditorJSParser.setJF_self hv

theorem attrBlockRecon_ident {c : J} {path : String} {m : List (String × String)}
    (hN : (attrBlockPaths c path).Nodup)
    (hM : ∀ p v, jsMapGet m p = some v → p ∈ attrBlockPaths c path →
      (p, v) ∈ (attrBlockFrags c path).map (fun t => (t.path, t.originalText))) :
    attrBlockRecon c path m = c := by
  unfold attrBlockRecon
  cases ha : getF c "attributes" with
  | none => rfl
  | some v =>
    cases v with
    | obj fs =>
      have hPathsEq : attrBlockPaths c path = attrPaths fs (path ++ ".attributes") := by
        unfold attrBlockPaths
        rw [ha]
      have hFragsEq : attrBlockFrags c path =
          attrFrags fs (path ++ ".attributes") (componentContext c) := by
        unfold attrBlockFrags
        rw [ha]
      rw [hPathsEq] at hN
      rw [hPathsEq, hFragsEq] at hM
      show EditorJSParser.setJF c "attributes" (J.obj (attrsRecon fs (path ++ ".attributes") m)) = c
      rw [attrsRecon_ident fs hN hM]
      exact EditorJSParser.setJF_self ha
    | null => rfl
    | boolean b => rfl
    | num x => rfl
    | arr a => rfl
    | str s => rfl

theorem traitBlockRecon_ident {c : J} {path : String} {m : List (String × String)}
    (hN : (traitBlockPaths c path).Nodup)
    (hM : ∀ p v, jsMapGet m p = some v → p ∈ traitBlockPaths c path →
      (p, v) ∈ (traitBlockFrags c path).map (fun t => (t.path, t.originalText))) :
    traitBlockRecon c path m = c := by
  unfold traitBlockRecon
  cases ht : getF c "traits" with
  | none => rfl
  | some v =>
    cases v with
    | arr ts =>
      have hPathsEq : traitBlockPaths c path = traitPaths ts path 0 := by
        unfold traitBlockPaths
        rw [ht]
      have hFragsEq : traitBlockFrags c path = traitFrags ts path (componentContext c) 0 := by
        unfold traitBlockFrags
        rw [ht]
      rw [hPathsEq] at hN
      rw [hPathsEq, hFragsEq] at hM
      show EditorJSParser.setJF c "traits" (J.arr (traitsRecon ts path m 0)) = c
      rw [traitsRecon_ident ts 0 hN hM]
      exact EditorJSParser.setJF_self ht
    | null => rfl
    | boolean b => rfl
    | num x => rfl
    | str s => rfl
    | obj o => rfl

end GrapeJSParser

namespace GrapeJSParser

theorem childBlockFrags_paths {q : String} {fuel : Nat} {c : J} {path : String}
    (h : q ∈ (childBlockFrags fuel c path).map ExtractedText.path) :
    q ∈ childBlockPaths fuel c path := by
  unfold childBlockFrags at h
  unfold childBlockPaths
  cases hc : getF c "components" with
  | none => rw [hc] at h; simp at h
  | some v =>
    rw [hc] at h
    cases v with
    | arr xs => exact extractChildren_paths fuel xs (path ++ ".components[") 0 h
    | null => simp at h
    | boolean b => simp at h
    | num x => simp at h
    | str s => simp at h
    | obj o => simp at h

end GrapeJSParser

namespace GrapeJSParser

mutual
theorem reconComp_ident :
    ∀ (fuel : Nat) (c : J) (path : String) (m : List (String × String)),
    compWF fuel c = true →
    (compPaths fuel c path).Nodup →
    (∀ p v, jsMapGet m p = some v → p ∈ compPaths fuel c path →
      (p, v) ∈ (extractComp fuel c path).map (fun t => (t.path, t.originalText))) →
    reconComp fuel c path m = c
  | 0, c, path, m => fun hWF _ _ => by simp [compWF] at hWF
  | fuel + 1, c, path, m => fun hWF hN hM => by
    obtain ⟨hcOK, haOK, htOK, hchOK⟩ := compWF_parts hWF
    rw [compPaths_succ] at hN hM
    simp only [extractComp_succ] at hM
    have hN1 : ((path ++ ".content") :: attrBlockPaths c path ++
        traitBlockPaths c path).Nodup := hN.of_append_left
    have hNCh : (childBlockPaths fuel c path).Nodup := hN.of_append_right
    have hDis2 := List.disjoint_of_nodup_append hN
    have hNA1 : ((path ++ ".content") :: attrBlockPaths c path).Nodup := hN1.of_append_left
    have hNT : (traitBlockPaths c path).Nodup := hN1.of_append_right
    have hDis1 := List.disjoint_of_nodup_append hN1
    have hcp0 : (path ++ ".content") ∉ attrBlockPaths c path := (List.nodup_cons.mp hNA1).1
    have hNA : (attrBlockPaths c path).Nodup := (List.nodup_cons.mp hNA1).2
    have hc1 : contentRecon c path m = c := by
      apply contentRecon_ident hcOK
      intro v hg
      have h0 := hM _ v hg (List.mem_append_left _ (List.mem_append_left _
        (List.mem_cons_self _ _)))
      simp only [List.map_append, List.mem_append] at h0
      rcases h0 with ((h0 | h0) | h0) | h0
      · exact h0
      · exact absurd (attrBlockFrags_paths (pv_mem_path h0)) hcp0
      · exact absurd (traitBlockFrags_paths (pv_mem_path h0))
          (fun hmem => hDis1 (List.mem_cons_self _ _) hmem)
      · exact absurd (childBlockFrags_paths (pv_mem_path h0))
          (fun hmem => hDis2 (List.mem_append_left _ (List.mem_cons_self _ _)) hmem)
    have ha1 : attrBlockRecon c path m = c := by
      apply attrBlockRecon_ident hNA
      intro p v hg hp
      have h0 := hM p v hg (List.mem_append_left _ (List.mem_append_left _
        (List.mem_cons_of_mem _ hp)))
      simp only [List.map_append, List.mem_append] at h0
      rcases h0 with ((h0 | h0) | h0) | h0
      · exact absurd ((contentFrags_path (pv_mem_path h0)) ▸ hp) hcp0
      · exact h0
      · exact absurd (traitBlockFrags_paths (pv_mem_path h0))
          (fun hmem => hDis1 (List.mem_cons_of_mem _ hp) hmem)
      · exact absurd (childBlockFrags_paths (pv_mem_path h0))
          (fun hmem => hDis2 (List.mem_append_left _ (List.mem_cons_of_mem _ hp)) hmem)
    have ht1 : traitBlockRecon c path m = c := by
      apply traitBlockRecon_ident hNT
      intro p v hg hp
      have h0 := hM p v hg (List.mem_append_left _ (List.mem_append_right _ hp))
      simp only [List.map_append, List.mem_append] at h0
      rcases h0 with ((h0 | h0) | h0) | h0
      · exact absurd ((contentFrags_path (pv_mem_path h0)) ▸ hp)
          (fun hmem => hDis1 (List.mem_cons_self _ _) hmem)
      · exact absurd (attrBlockFrags_paths (pv_mem_path h0))
          (fun hmem => hDis1 (List.mem_cons_of_mem _ hmem) hp)
      · exact h0
      · exact absurd (childBlockFrags_paths (pv_mem_path h0))
          (fun hmem => hDis2 (List.mem_append_right _ hp) hmem)
    show (match getF (traitBlockRecon (attrBlockRecon (contentRecon c path m) path m) path m)
        "components" with
      | some (.arr xs) =>
        EditorJSParser.setJF
          (traitBlockRecon (attrBlockRecon (contentRecon c path m) path m) path m) "components"
          (.arr (reconChildren fuel xs (path ++ ".components[") 0 m))
      | _ => traitBlockRecon (attrBlockRecon (contentRecon c path m) path m) path m) = c
    rw [hc1, ha1, ht1]
    cases hcc : getF c "components" with
    | none => rfl
    | some v =>
      cases v with
      | arr xs =>
        have hPathsEq : childBlockPaths fuel c path =
            childPaths fuel xs (path ++ ".components[") 0 := by
          unfold childBlockPaths
          rw [hcc]
        have hFragsEq : childBlockFrags fuel c path =
            extractChildren fuel xs (path ++ ".components[") 0 := by
          unfold childBlockFrags
          rw [hcc]
        have hWFch : childrenWF fuel xs = true := by
          unfold childBlockWF at hchOK
          rw [hcc] at hchOK
          exact hchOK
        rw [hPathsEq] at hNCh
        have hMch : ∀ p v, jsMapGet m p = some v →
            p ∈ childPaths fuel xs (path ++ ".components[") 0 →
            (p, v) ∈ (extractChildren fuel xs (path ++ ".components[") 0).map
              (fun t => (t.path, t.originalText)) := by
          intro p v hg hp
          have hp2 : p ∈ childBlockPaths fuel c path := by
            rw [hPathsEq]
            exact hp
          have h0 := hM p v hg (List.mem_append_right _ hp2)
          simp only [List.map_append, List.mem_append] at h0
          rcases h0 with ((h0 | h0) | h0) | h0
          · exact absurd ((contentFrags_path (pv_mem_path h0)) ▸ hp2)
              (fun hmem => hDis2 (List.mem_append_left _ (List.mem_cons_self _ _)) hmem)
          · exact absurd (attrBlockFrags_paths (pv_mem_path h0))
              (fun hmem =>
                hDis2 (List.mem_append_left _ (List.mem_cons_of_mem _ hmem)) hp2)
          · exact absurd (traitBlockFrags_paths (pv_mem_path h0))
              (fun hmem => hDis2 (List.mem_append_right _ hmem) hp2)
          · rw [hFragsEq] at h0
            exact h0
        show EditorJSParser.setJF c "components"
          (J.arr (reconChildren fuel xs (path ++ ".components[") 0 m)) = c
        rw [reconChildren_ident fuel xs (path ++ ".components[") 0 m hWFch hNCh hMch]
        exact EditorJSParser.setJF_self hcc
      | null => rfl
      | boolean b => rfl
      | num x => rfl
      | str s => rfl
      | obj o => rfl

theorem reconChildren_ident :
    ∀ (fuel : Nat) (xs : JList) (pp : String) (i : Nat) (m : List (String × String)),
    childrenWF fuel xs = true →
    (childPaths fuel xs pp i).Nodup →
    (∀ p v, jsMapGet m p = some v → p ∈ childPaths fuel xs pp i →
      (p, v) ∈ (extractChildren fuel xs pp i).map (fun t => (t.path, t.originalText))) →
    reconChildren fuel xs pp i m = xs
  | 0, xs, pp, i, m => fun hWF _ _ => by simp [childrenWF] at hWF
  | fuel + 1, .nil, pp, i, m => fun _ _ _ => rfl
  | fuel + 1, .cons x xs, pp, i, m => fun hWF hN hM => by
    have hWF2 : compWF fuel x = true ∧ childrenWF fuel xs = true := by
      simp [childrenWF] at hWF
      exact hWF
    simp only [childPaths] at hN hM
    simp only [extractChildren] at hM
    have hNx := hN.of_append_left
    have hNr := hN.of_append_right
    have hDis := List.disjoint_of_nodup_append hN
    have hHead : reconComp fuel x (pp ++ toString i ++ "]") m = x := by
      apply reconComp_ident fuel x (pp ++ toString i ++ "]") m hWF2.1 hNx
      intro p v hg hp
      have h0 := hM p v hg (List.mem_append_left _ hp)
      simp only [List.map_append, List.mem_append] at h0
      rcases h0 with h0 | h0
      · exact h0
      · exact absurd (extractChildren_paths fuel xs pp (i + 1) (pv_mem_path h0))
          (fun hmem => hDis hp hmem)
    have hTail : reconChildren fuel xs pp (i + 1) m = xs := by
      apply reconChildren_ident fuel xs pp (i + 1) m hWF2.2 hNr
      intro p v hg hp
      have h0 := hM p v hg (List.mem_append_right _ hp)
      simp only [List.map_append, List.mem_append] at h0
      rcases h0 with h0 | h0
      · exact absurd (extractComp_paths fuel x (pp ++ toString i ++ "]") (pv_mem_path h0))
          (fun hmem => hDis hmem hp)
      · exact h0
    simp only [reconChildren, hHead, hTail]
end

end GrapeJSParser

namespace GrapeJSParser

/-- Round-trip engine for the GrapeJS parser: on a well-formed document
with collision-free consulted paths, rebuilding from the identity
translation of its own extraction reproduces the document tree. -/
theorem grapeTreeRoundtrip (j : J) (hWF : docWF j = true) (hN : (docPaths j).Nodup) :
    reconstructTreeJ j (translationEntries (withIdentity (parseTree j))) = some j := by
  cases j with
  | arr xs =>
    have hWF2 : childrenWF (grapeFuel (J.arr xs)) xs = true := hWF
    have hN2 : (childPaths (grapeFuel (J.arr xs)) xs "[" 0).Nodup := hN
    have hfrag : translationEntries (withIdentity (parseTree (J.arr xs))) =
        (extractChildren (grapeFuel (J.arr xs)) xs "[" 0).map
          (fun t => (t.path, t.originalText)) := by
      rw [translationEntries_withIdentity]
      rfl
    have hRec : reconChildren (grapeFuel (J.arr xs)) xs "[" 0
        (translationEntries (withIdentity (parseTree (J.arr xs)))) = xs := by
      apply reconChildren_ident _ _ _ _ _ hWF2 hN2
      intro p v hg hp
      rw [hfrag] at hg
      exact jsMapGet_mem hg
    show some (J.arr (reconChildren (grapeFuel (J.arr xs)) xs "[" 0
      (translationEntries (withIdentity (parseTree (J.arr xs)))))) = some (J.arr xs)
    rw [hRec]
  | obj fs =>
    unfold docWF at hWF
    cases hcc : getF (J.obj fs) "components" with
    | none => rw [hcc] at hWF; simp at hWF
    | some v =>
      rw [hcc] at hWF
      cases v with
      | arr xs =>
        have hWF2 : childrenWF (grapeFuel (J.obj fs)) xs = true := hWF
        have hco : componentsOf (J.obj fs) = some xs := by
          simp [componentsOf, hcc, jTruthy]
        have hN2 : (childPaths (grapeFuel (J.obj fs)) xs "[" 0).Nodup := by
          unfold docPaths at hN
          rw [hco] at hN
          exact hN
        have hfrag : translationEntries (withIdentity (parseTree (J.obj fs))) =
            (extractChildren (grapeFuel (J.obj fs)) xs "[" 0).map
              (fun t => (t.path, t.originalText)) := by
          rw [translationEntries_withIdentity]
          unfold parseTree
          rw [hco]
        have hRec : reconChildren (grapeFuel (J.obj fs)) xs "[" 0
            (translationEntries (withIdentity (parseTree (J.obj fs)))) = xs := by
          apply reconChildren_ident _ _ _ _ _ hWF2 hN2
          intro p v hg hp
          rw [hfrag] at hg
          exact jsMapGet_mem hg
        unfold reconstructTreeJ
        rw [hco]
        show some (J.obj (setF fs "components" (J.arr (reconChildren (grapeFuel (J.obj fs)) xs
          "[" 0 (translationEntries (withIdentity (parseTree (J.obj fs)))))))) =
          some (J.obj fs)
        rw [hRec]
        have hfo : getF.getFObj fs "components" = some (J.arr xs) := hcc
        rw [setF_self hfo]
      | null => simp at hWF
      | boolean b => simp at hWF
      | num x => simp at hWF
      | str s => simp at hWF
      | obj o => simp at hWF
  | null => simp [docWF] at hWF
  | boolean b => simp [docWF] at hWF
  | num n => simp [docWF] at hWF
  | str s => simp [docWF] at hWF

end GrapeJSParser

/-! # The parser registry (src/services/contentParsers/index.ts) -/

/-- src/types ContentType enum. -/
inductive ContentType where
  | PLAIN_TEXT
  | HTML
  | MARKDOWN
  | EDITOR_JS
  | GRAPE_JS
  | JSON
  | RICH_TEXT
  | STRUCTURED_DATA
deriving DecidableEq, Repr

namespace ContentParserFactory

/-- ContentParserFactory.getParser: the first registered parser whose
`validate` accepts the content, in registration order (EditorJS, GrapeJS,
Html, Json, Markdown); `null` becomes `none`. -/
def getParser (content : String) : Option ContentType :=
  if EditorJSParser.validate content then some .EDITOR_JS
  else if GrapeJSParser.validate content then some .GRAPE_JS
  else if HtmlParser.validate content then some .HTML
  else if JsonParser.validate content then some .JSON
  else if MarkdownParser.validate content then some .MARKDOWN
  else none

end ContentParserFactory

/-! # The orchestrator (src/services/enhancedTranslationService.ts) -/

namespace EnhancedTranslationService

def batchSize : Nat := 10

/-- One wrapped per-fragment call of `translateExtractedTexts`: a
successful service call installs the backend translation, a thrown one is
caught and falls back to the fragment's original text. -/
def translateOne (svc : ExtractedText → Except String String) (t : ExtractedText) :
    ExtractedText :=
  match svc t with
  | .ok tr => { t with translatedText := some tr }
  | .error _ => { t with translatedText := some t.originalText }

/-- The `for (let i = 0; ...; i += batchSize)` loop: each batch is mapped
concurrently by `Promise.all`, whose result order is the batch's positional
order; batches are concatenated in order.  Fuel bounds the loop. -/
def processBatches (svc : ExtractedText → Except String String) :
    Nat → List ExtractedText → List ExtractedText
  | 0, _ => []
  | _ + 1, [] => []
  | fuel + 1, ts =>
    (ts.take batchSize).map (translateOne svc) ++ processBatches svc fuel (ts.drop batchSize)

/-- EnhancedTranslationService.translateExtractedTexts. -/
def translateExtractedTexts (svc : ExtractedText → Except String String)
    (ts : List ExtractedText) : List ExtractedText :=
  processBatches svc (ts.length + 1) ts

end EnhancedTranslationService

/-! # The DeepL backend adapter (src/services/deeplService.ts) -/

namespace DeepLService

/-- The response/request fields of an AxiosError that `handleApiError`
inspects. -/
structure AxiosErrorView where
  responseStatus : Option Nat
  dataMessage : Option String
  code : Option String
  message : String
deriving DecidableEq, Repr

/-- DeepLService.handleApiError: the status → message map. -/
def handleApiError (e : AxiosErrorView) : String :=
  match e.responseStatus with
  | some st =>
    if st = 400 then "Bad Request: " ++ jsOrElse e.dataMessage "Invalid parameters"
    else if st = 401 then "Authentication failed: Invalid API key"
    else if st = 403 then "Authorization failed: API key lacks permissions"
    else if st = 413 then "Request too large: Text exceeds maximum length"
    else if st = 429 then "Rate limit exceeded: Too many requests"
    else if st = 456 then "Quota exceeded: Character limit reached"
    else if st = 503 then "Service unavailable: DeepL API is temporarily down"
    else "API Error " ++ toString st ++ ": " ++ jsOrElse e.dataMessage "Unknown error"
  | none =>
    if e.code = some "ECONNABORTED" then "Request timeout: DeepL API did not respond in time"
    else "Network error: " ++ e.message

/-- Error taxonomy used by the spec's retry policy. -/
inductive ErrorKind where
  | badRequest
  | authFailed
  | forbidden
  | payloadTooLarge
  | rateLimited
  | quotaExceeded
  | serviceUnavailable
  | timeout
  | network
  | other
deriving DecidableEq, Repr

/-- Classification of an error by the spec's taxonomy. -/
def errorKind (e : AxiosErrorView) : ErrorKind :=
  match e.responseStatus with
  | some st =>
    if st = 400 then .badRequest
    else if st = 401 then .authFailed
    else if st = 403 then .forbidden
    else if st = 413 then .payloadTooLarge
    else if st = 429 then .rateLimited
    else if st = 456 then .quotaExceeded
    else if st = 503 then .serviceUnavailable
    else .other
  | none => if e.code = some "ECONNABORTED" then .timeout else .network

/-- The spec's transient kinds. -/
def isTransient : ErrorKind → Bool
  | .rateLimited => true
  | .serviceUnavailable => true
  | .timeout => true
  | .network => true
  | _ => false

/-- The retry loop of DeepLService.executeWithRetry, indexed by the
current attempt number and the attempts remaining.  Returns the final
result, the number of attempts made, and the backoff delays slept
(`retryDelay * 2 ^ attempt` before each retry). -/
def ewrGo (op : Nat → Except String String) (retryDelay : Nat) :
    Nat → Nat → Except String String × Nat × List Nat
  | _, 0 => (.error "", 0, [])
  | attempt, 1 =>
    match op attempt with
    | .ok x => (.ok x, 1, [])
    | .error e => (.error e, 1, [])
  | attempt, r + 2 =>
    match op attempt with
    | .ok x => (.ok x, 1, [])
    | .error _ =>
      let rec2 := ewrGo op retryDelay (attempt + 1) (r + 1)
      (rec2.1, rec2.2.1 + 1, (retryDelay * 2 ^ attempt) :: rec2.2.2)

/-- DeepLService.executeWithRetry: `for (attempt = 0; attempt <= maxRetries;
attempt++) try return op() catch { if (attempt < maxRetries) delay(...) }`,
then the last error is thrown. -/
def executeWithRetry (op : Nat → Except String String) (maxRetries retryDelay : Nat) :
    Except String String × Nat × List Nat :=
  ewrGo op retryDelay 0 (maxRetries + 1)

/-- TranslationMemoryEntry (src/types/deepl).  The float `confidence`
field (always 1.0 at creation) is omitted. -/
structure TranslationMemoryEntry where
  id : String
  sourceText : String
  translatedText : String
  sourceLanguage : String
  targetLanguage : String
  contentType : String
  createdAt : String
  usageCount : Nat
  lastUsed : String
deriving DecidableEq, Repr

/-- The translation-memory Map keyed by memory key. -/
def Mem := List (String × TranslationMemoryEntry)

def mget : Mem → String → Option TranslationMemoryEntry
  | [], _ => none
  | (k0, e) :: rest, k => if k0 = k then some e else mget rest k

def mset : Mem → String → TranslationMemoryEntry → Mem
  | [], k, e => [(k, e)]
  | (k0, e0) :: rest, k, e =>
    if k0 = k then (k0, e) :: rest else (k0, e0) :: mset rest k e

/-- ToInt32 (the `hash & hash` coercion). -/
def toInt32 (x : Int) : Int := (x + 2 ^ 31) % 2 ^ 32 - 2 ^ 31

/-- One step of DeepLService.simpleHash:
`hash = ((hash << 5) - hash) + char; hash = hash & hash`.  (`<< 5` is
itself a 32-bit shift.) -/
def hashStep (h : Int) (c : Nat) : Int := toInt32 (toInt32 (h * 32) - h + c)

def simpleHashInt (s : String) : Int :=
  s.toList.foldl (fun h c => hashStep h c.toNat) 0

def base36digit (n : Nat) : Char :=
  if n < 10 then Char.ofNat (48 + n) else Char.ofNat (87 + n)

def toBase36 : Nat → Nat → List Char
  | 0, _ => []
  | _ + 1, 0 => []
  | fuel + 1, n => toBase36 fuel (n / 36) ++ [base36digit (n % 36)]

def natToBase36 (n : Nat) : String :=
  if n = 0 then "0" else (toBase36 64 n).asString

/-- DeepLService.simpleHash: `Math.abs(hash).toString(36)`. -/
def simpleHash (s : String) : String := natToBase36 (simpleHashInt s).natAbs

/-- DeepLService.getMemoryKey. -/
def getMemoryKey (text sourceLanguage targetLanguage : String) : String :=
  sourceLanguage ++ "-" ++ targetLanguage ++ "-" ++ simpleHash (jsToLower (jsTrim text))

/-- DeepLService.checkTranslationMemory: per text, a hit returns the
stored translation and bumps `usageCount`/`lastUsed` in place. -/
def checkTranslationMemory :
    List String → String → String → String → Mem → List (Option String) × Mem
  | [], _, _, _, mem => ([], mem)
  | t :: ts, src, tgt, now, mem =>
    let key := getMemoryKey t src tgt
    match mget mem key with
    | some e =>
      let mem2 := mset mem key { e with usageCount := e.usageCount + 1, lastUsed := now }
      let r := checkTranslationMemory ts src tgt now mem2
      (some e.translatedText :: r.1, r.2)
    | none =>
      let r := checkTranslationMemory ts src tgt now mem
      (none :: r.1, r.2)

/-- DeepLService.storeInTranslationMemory (fresh entries get
`usageCount 1`; out-of-range translation indices would be `undefined` in
JavaScript and are modelled by `""`, unreachable when the backend returns
one translation per text). -/
def storeInTranslationMemory :
    List String → List String → String → String → String → Mem → Mem
  | [], _, _, _, _, mem => mem
  | t :: ts, trs, src, tgt, now, mem =>
    let key := getMemoryKey t src tgt
    let e : TranslationMemoryEntry :=
      { id := key, sourceText := t, translatedText := trs.headD "",
        sourceLanguage := src, targetLanguage := tgt, contentType := "text",
        createdAt := now, usageCount := 1, lastUsed := now }
    storeInTranslationMemory ts trs.tail src tgt now (mset mem key e)

/-- Truthiness of a cached lookup result (`!cachedResults[index]`): an
absent entry and an empty cached string both count as uncached. -/
def truthyCached (o : Option String) : Bool :=
  match o with
  | some s => s ≠ ""
  | none => false

/-- The positional merge loop of translateText (`cachedResults[i]` truthy
keeps the cached value, otherwise the next uncached translation is
consumed). -/
def mergeResults : List (Option String) → List String → List String
  | [], _ => []
  | c :: rest, trs =>
    if truthyCached c then
      (match c with | some s => s | none => "") :: mergeResults rest trs
    else trs.headD "" :: mergeResults rest trs.tail

/-- DeepLService.translateText, modelled on the memory/backend seam: the
backend argument stands for the retried `/v2/translate` POST and returns
the translations plus the detected source language of the first one.
Returns the result, the final memory, and the number of backend calls. -/
def translateText
    (backend : List String → Except String (List String × Option String))
    (texts : List String) (targetLanguage : String) (sourceLanguage : Option String)
    (now : String) (mem : Mem) :
    Except String (List String) × Mem × Nat :=
  let chk := checkTranslationMemory texts (jsOrElse sourceLanguage "auto") targetLanguage now mem
  let cached := chk.1
  let mem1 := chk.2
  let uncachedTexts := ((texts.zip cached).filter (fun p => !truthyCached p.2)).map Prod.fst
  if uncachedTexts.isEmpty then
    (.ok (cached.map (fun c => match c with | some s => s | none => "")), mem1, 0)
  else
    match backend uncachedTexts with
    | .error err => (.error err, mem1, 1)
    | .ok (translations, detected) =>
      let srcStore := jsOrElse sourceLanguage (jsOrElse detected "auto")
      let mem2 := storeInTranslationMemory uncachedTexts translations srcStore
        targetLanguage now mem1
      (.ok (mergeResults cached translations), mem2, 1)

end DeepLService

namespace EnhancedTranslationService

/-- The chunked batch loop is the positional map of the wrapped
per-fragment call: batching never reorders, drops, or duplicates. -/
theorem processBatches_eq_map (svc : ExtractedText → Except String String) :
    ∀ (fuel : Nat) (ts : List ExtractedText), ts.length ≤ fuel →
    processBatches svc fuel ts = ts.map (translateOne svc)
  | 0, [], _ => rfl
  | 0, t :: ts, h => by simp at h
  | fuel + 1, [], _ => rfl
  | fuel + 1, t :: ts, h => by
    have hdrop : ((t :: ts).drop batchSize).length ≤ fuel := by
      have hb : batchSize = 10 := rfl
      simp only [List.length_drop, hb, List.length_cons]
      simp only [List.length_cons] at h
      omega
    have hrec := processBatches_eq_map svc fuel ((t :: ts).drop batchSize) hdrop
    show ((t :: ts).take batchSize).map (translateOne svc) ++
      processBatches svc fuel ((t :: ts).drop batchSize) = (t :: ts).map (translateOne svc)
    rw [hrec, ← List.map_append, List.take_append_drop]

theorem translateExtractedTexts_eq_map (svc : ExtractedText → Except String String)
    (ts : List ExtractedText) :
    translateExtractedTexts svc ts = ts.map (translateOne svc) :=
  processBatches_eq_map svc (ts.length + 1) ts (by omega)

end EnhancedTranslationService

namespace DeepLService

theorem mget_mset_self : ∀ (mem : Mem) (k : String) (e : TranslationMemoryEntry),
    mget (mset mem k e) k = some e
  | [], k, e => by simp [mset, mget]
  | (k0, e0) :: rest, k, e => by
    by_cases hk : k0 = k
    · simp [mset, mget, hk]
    · simp [mset, mget, hk, mget_mset_self rest k e]

theorem mset_mset : ∀ (mem : Mem) (k : String) (e e2 : TranslationMemoryEntry),
    mset (mset mem k e) k e2 = mset mem k e2
  | [], k, e, e2 => by simp [mset]
  | (k0, e0) :: rest, k, e, e2 => by
    by_cases hk : k0 = k
    · simp [mset, hk]
    · simp [mset, hk, mset_mset rest k e e2]

/-- Failing attempts all the way: the loop makes `remaining` attempts
starting at `attempt`, sleeps the exponential backoff before each retry,
and ends with the last attempt's error. -/
theorem ewrGo_allFail (op : Nat → Except String String) (retryDelay : Nat)
    (hfail : ∀ a, ∃ e, op a = .error e) :
    ∀ (r attempt : Nat), ∃ e, op (attempt + r) = .error e ∧
      ewrGo op retryDelay attempt (r + 1) =
        (.error e, r + 1, (List.range r).map (fun i => retryDelay * 2 ^ (attempt + i)))
  | 0, attempt => by
    obtain ⟨e, he⟩ := hfail attempt
    refine ⟨e, by simpa using he, ?_⟩
    simp [ewrGo, he]
  | r + 1, attempt => by
    obtain ⟨e0, he0⟩ := hfail attempt
    obtain ⟨e, he, hrec⟩ := ewrGo_allFail op retryDelay hfail r (attempt + 1)
    refine ⟨e, by rw [← he]; congr 1; omega, ?_⟩
    have h3 : retryDelay * 2 ^ attempt ::
        (List.range r).map (fun i => retryDelay * 2 ^ (attempt + 1 + i)) =
        (List.range (r + 1)).map (fun i => retryDelay * 2 ^ (attempt + i)) := by
      rw [List.range_succ_eq_map, List.map_cons, List.map_map]
      refine congrArg₂ List.cons (by rw [Nat.add_zero]) ?_
      refine List.map_congr_left ?_
      intro i _
      simp only [Function.comp]
      have hi : attempt + 1 + i = attempt + (i + 1) := by omega
      rw [hi]
    show ewrGo op retryDelay attempt (r + 2) = _
    simp only [ewrGo, he0]
    rw [hrec]
    show (Except.error e, r + 1 + 1,
      retryDelay * 2 ^ attempt ::
        (List.range r).map (fun i => retryDelay * 2 ^ (attempt + 1 + i))) =
      (Except.error e, r + 1 + 1,
        (List.range (r + 1)).map (fun i => retryDelay * 2 ^ (attempt + i)))
    rw [h3]

end DeepLService

/-- With the identity translation installed, a substitution step of the
Markdown reconstructor is skipped (`translatedText !== originalText`
fails), so the accumulator passes through unchanged. -/
theorem MarkdownParser.applyOne_md_identity (acc : String) (t : ExtractedText) :
    MarkdownParser.applyOne acc { t with translatedText := some t.originalText } = acc := by
  simp [MarkdownParser.applyOne]

/-- Same skip for the HTML reconstructor. -/
theorem HtmlParser.applyOne_html_identity (acc : String) (t : ExtractedText) :
    HtmlParser.applyOne acc { t with translatedText := some t.originalText } = acc := by
  simp [HtmlParser.applyOne]

theorem MarkdownParser.reconstruct_md_identity (content : String) :
    ∀ (ts : List ExtractedText) (acc : String),
    (withIdentity ts).foldl MarkdownParser.applyOne acc = acc
  | [], _ => rfl
  | t :: ts, acc => by
    show (withIdentity ts).foldl MarkdownParser.applyOne
      (MarkdownParser.applyOne acc { t with translatedText := some t.originalText }) = acc
    rw [MarkdownParser.applyOne_md_identity]
    exact MarkdownParser.reconstruct_md_identity content ts acc

theorem HtmlParser.reconstruct_html_identity (content : String) :
    ∀ (ts : List ExtractedText) (acc : String),
    (withIdentity ts).foldl HtmlParser.applyOne acc = acc
  | [], _ => rfl
  | t :: ts, acc => by
    show (withIdentity ts).foldl HtmlParser.applyOne
      (HtmlParser.applyOne acc { t with translatedText := some t.originalText }) = acc
    rw [HtmlParser.applyOne_html_identity]
    exact HtmlParser.reconstruct_html_identity content ts acc

/-! # Claim verification

Concrete documents used by the counterexamples and witnesses. -/

/-- An Editor.js document whose paragraph text carries HTML markup:
extraction strips the tags before storing `originalText`, so the identity
round-trip rebuilds the stripped text. -/
def exDocHtml : J := jO [("blocks", jA [jO [("type", J.str "paragraph"),
  ("data", jO [("text", J.str "<b>Hi</b> there")])]])]

def exDocHtmlStr : String := jsStringify exDocHtml ""

def exJsonDoc : J := jO [("name", J.str "Premium Wireless Headphones"),
  ("sku", J.str "3f9a1c2d")]

def exJsonDocStr : String := jsStringify exJsonDoc ""

def exEditorDoc : J := jO [("blocks", jA [jO [("type", J.str "paragraph"),
  ("data", jO [("text", J.str "Hello world")])]])]

def exEditorDocStr : String := jsStringify exEditorDoc ""

def exGrapeDoc : J := jO [("components", jA [jO [("type", J.str "text"),
  ("content", J.str "Hello there")]])]

def exGrapeDocStr : String := jsStringify exGrapeDoc ""

/-- The root-string fragment of the C3 counterexample, carrying a
non-empty translation for the matched root path. -/
def exRootFrag : ExtractedText :=
  { id := "", originalText := "hello world", translatedText := some "hola mundo",
    path := "", context := "JSON", type := .text }

/-- C1 (counterexample): the claimed byte-level round-trip identity fails
for the Editor.js parser on a document whose paragraph text contains HTML
markup — `exDocHtmlStr` is already in canonical serialization (it is
`jsStringify` of its own parse), yet rebuilding from the identity
translation of its own extraction strips the `<b>` tags. -/
theorem C1_counterexample :
    jsParse exDocHtmlStr = some exDocHtml ∧
    EditorJSParser.reconstruct exDocHtmlStr
      (withIdentity (EditorJSParser.parse exDocHtmlStr)) ≠ exDocHtmlStr :=
  ⟨by decide, by decide⟩

/-- C1 (amended): the identity round-trip holds for the structural
parsers on documents whose consulted paths are collision-free and — for
the Editor.js and GrapeJS parsers, whose extraction strips HTML — whose
well-formedness predicate holds (in particular every extracted text is
unchanged by HTML-stripping); byte-for-byte after canonical JSON
re-serialization.  For the text-substitution parsers (HTML, Markdown) the
original string is returned unchanged, for every fragment list. -/
theorem C1_amended :
    (∀ content j, jsParse content = some j → (JsonParser.nodePaths j "").Nodup →
      JsonParser.reconstruct content (withIdentity (JsonParser.parse content)) =
        jsStringify j "") ∧
    (∀ content j, jsParse content = some j → EditorJSParser.docWF j = true →
      (EditorJSParser.docPaths j).Nodup →
      EditorJSParser.reconstruct content (withIdentity (EditorJSParser.parse content)) =
        jsStringify j "") ∧
    (∀ content j, jsParse content = some j → GrapeJSParser.docWF j = true →
      (GrapeJSParser.docPaths j).Nodup →
      GrapeJSParser.reconstruct content (withIdentity (GrapeJSParser.parse content)) =
        jsStringify j "") ∧
    (∀ content ts, HtmlParser.reconstruct content (withIdentity ts) = content) ∧
    (∀ content ts, MarkdownParser.reconstruct content (withIdentity ts) = content) := by
  refine ⟨?_, ?_, ?_, ?_, ?_⟩
  · intro content j hp hN
    have hparse : JsonParser.parse content = JsonParser.extractFromObject j "" "JSON" := by
      unfold JsonParser.parse
      rw [hp]
    have hR : JsonParser.reconstructObject j ""
        (translationEntries (withIdentity (JsonParser.parse content))) = j := by
      apply JsonParser.reconIdent j "" _ hN
      intro p v hg hpn
      rw [translationEntries_withIdentity, hparse, JsonParser.extractFromObject_pv] at hg
      exact jsMapGet_mem hg
    unfold JsonParser.reconstruct
    rw [hp]
    show jsStringify (JsonParser.reconstructObject j ""
      (translationEntries (withIdentity (JsonParser.parse content)))) "" = jsStringify j ""
    rw [hR]
  · intro content j hp hWF hN
    have hparse : EditorJSParser.parse content = EditorJSParser.parseTree j := by
      unfold EditorJSParser.parse
      rw [hp]
    have h2 := EditorJSParser.treeRoundtrip j hWF hN
    unfold EditorJSParser.reconstruct
    rw [hp]
    show (match EditorJSParser.reconstructTree j
        (translationEntries (withIdentity (EditorJSParser.parse content))) with
      | some j2 => jsStringify j2 ""
      | none => content) = jsStringify j ""
    rw [hparse, h2]
  · intro content j hp hWF hN
    have hparse : GrapeJSParser.parse content = GrapeJSParser.parseTree j := by
      unfold GrapeJSParser.parse
      rw [hp]
    have h2 := GrapeJSParser.grapeTreeRoundtrip j hWF hN
    unfold GrapeJSParser.reconstruct
    rw [hp]
    show (match GrapeJSParser.reconstructTreeJ j
        (translationEntries (withIdentity (GrapeJSParser.parse content))) with
      | some j2 => jsStringify j2 ""
      | none => content) = jsStringify j ""
    rw [hparse, h2]
  · intro content ts
    exact HtmlParser.reconstruct_html_identity content ts content
  · intro content ts
    exact MarkdownParser.reconstruct_md_identity content ts content

/-- C1 (witness): the amended round-trip at concrete documents of each
format. -/
theorem C1_amended_witness :
    JsonParser.reconstruct exJsonDocStr (withIdentity (JsonParser.parse exJsonDocStr)) =
      jsStringify exJsonDoc "" ∧
    EditorJSParser.reconstruct exEditorDocStr
      (withIdentity (EditorJSParser.parse exEditorDocStr)) = jsStringify exEditorDoc "" ∧
    GrapeJSParser.reconstruct exGrapeDocStr
      (withIdentity (GrapeJSParser.parse exGrapeDocStr)) = jsStringify exGrapeDoc "" ∧
    HtmlParser.reconstruct "<p>Hello</p>" (withIdentity []) = "<p>Hello</p>" ∧
    MarkdownParser.reconstruct "# Title" (withIdentity []) = "# Title" :=
  ⟨C1_amended.1 exJsonDocStr exJsonDoc (by decide) (by decide),
   C1_amended.2.1 exEditorDocStr exEditorDoc (by decide) (by decide) (by decide),
   C1_amended.2.2.1 exGrapeDocStr exGrapeDoc (by decide) (by decide) (by decide),
   C1_amended.2.2.2.1 "<p>Hello</p>" [],
   C1_amended.2.2.2.2 "# Title" []⟩

/-- C2: the registry probes the structurally-specific parsers before the
generic JSON parser: an Editor.js-valid content is detected as EDITOR_JS;
a GrapeJS-valid content is detected as GRAPE_JS unless it is also
Editor.js-valid (and then as EDITOR_JS); in either case auto-detection
never falls through to the generic JSON parser. -/
theorem C2_registry_order (content : String) :
    (EditorJSParser.validate content = true →
      ContentParserFactory.getParser content = some ContentType.EDITOR_JS) ∧
    (GrapeJSParser.validate content = true → EditorJSParser.validate content = false →
      ContentParserFactory.getParser content = some ContentType.GRAPE_JS) ∧
    ((EditorJSParser.validate content = true ∨ GrapeJSParser.validate content = true) →
      (ContentParserFactory.getParser content = some ContentType.EDITOR_JS ∨
        ContentParserFactory.getParser content = some ContentType.GRAPE_JS) ∧
      ContentParserFactory.getParser content ≠ some ContentType.JSON) := by
  refine ⟨?_, ?_, ?_⟩
  · intro h1
    simp [ContentParserFactory.getParser, h1]
  · intro h2 h1
    simp [ContentParserFactory.getParser, h1, h2]
  · intro h
    by_cases h1 : EditorJSParser.validate content = true
    · simp [ContentParserFactory.getParser, h1]
    · have h2 : GrapeJSParser.validate content = true := by
        rcases h with h | h
        · exact absurd h h1
        · exact h
      simp [ContentParserFactory.getParser, h1, h2]

/-- C2 (witness): an Editor.js document and a bare GrapeJS component
array, both valid JSON, are routed to their structural parsers. -/
theorem C2_registry_order_witness :
    ContentParserFactory.getParser "\x7b\"blocks\":[]\x7d" = some ContentType.EDITOR_JS ∧
    ContentParserFactory.getParser "[]" = some ContentType.GRAPE_JS := by
  refine ⟨?_, ?_⟩
  · exact (C2_registry_order _).1 (by decide)
  · exact (C2_registry_order "[]").2.1 (by decide) (by decide)

/-- C3 (counterexample): a top-level JSON string document.  Its root is a
matched position — extraction produced a fragment with path `""` and the
translation map carries a non-empty translation for it — yet
reconstruction returns the document unchanged: `reconstructObject`'s
string case returns immediately (the code comment defers to "the parent
object", but the root has no parent), so the matched root never receives
its translation. -/
theorem C3_counterexample :
    JsonParser.parse "\"hello world\"" =
      [{ exRootFrag with translatedText := none }] ∧
    jsMapGet (translationEntries [exRootFrag]) "" = some "hola mundo" ∧
    JsonParser.reconstruct "\"hello world\"" [exRootFrag] = "\"hello world\"" :=
  ⟨by decide, by decide, by decide⟩

/-- C3 (amended): under collision-free node paths, and fragments whose
paths address only string nodes of the document, reconstruction equals
the specification-side substitution `specSubst`: the document structure
is reproduced exactly, each matched non-root string leaf receives
`translatedText || originalText`, every unmatched node — and the root
itself, which the implementation never substitutes — passes through
unchanged. -/
theorem C3_amended (content : String) (j : J) (ts : List ExtractedText)
    (hp : jsParse content = some j)
    (hN : (JsonParser.nodePaths j "").Nodup)
    (hstr : ∀ t ∈ ts, t.path ∈ JsonParser.nodePaths j "" →
      t.path ∈ JsonParser.strPaths j "") :
    JsonParser.reconstruct content ts =
      jsStringify (JsonParser.specSubst j "" (translationEntries ts)) "" := by
  unfold JsonParser.reconstruct
  rw [hp]
  show jsStringify (JsonParser.reconstructObject j "" (translationEntries ts)) "" = _
  rw [JsonParser.reconRefines j "" (translationEntries ts) hN]
  intro p hd hpn
  simp only [translationEntries, List.map_map, List.mem_map] at hd
  obtain ⟨t, ht, hpt⟩ := hd
  have hpt2 : t.path = p := hpt
  exact hpt2 ▸ hstr t ht (hpt2 ▸ hpn)

/-- C3 (witness): the amended substitution equality at a concrete
product document with one translated field. -/
theorem C3_amended_witness :
    JsonParser.reconstruct exJsonDocStr
      [{ id := "name", originalText := "Premium Wireless Headphones",
         translatedText := some "Auriculares Premium", path := "name",
         context := "JSON name", type := .text }] =
      jsStringify (JsonParser.specSubst exJsonDoc ""
        (translationEntries
          [{ id := "name", originalText := "Premium Wireless Headphones",
             translatedText := some "Auriculares Premium", path := "name",
             context := "JSON name", type := .text }])) "" :=
  C3_amended exJsonDocStr exJsonDoc _ (by decide) (by decide) (by decide)

/-- C4: batch fault isolation in the orchestrator — the output list keeps
every position; a fragment whose wrapped backend call throws falls back
to its original text, and every fragment whose call succeeds carries its
backend translation; no exception escapes (the model is a total
function). -/
theorem C4_fault_isolation (svc : ExtractedText → Except String String)
    (ts : List ExtractedText) (k : Nat) (e : String) (hk : k < ts.length)
    (hfail : svc (ts.get ⟨k, hk⟩) = .error e) :
    (EnhancedTranslationService.translateExtractedTexts svc ts).length = ts.length ∧
    (∀ hk2 : k < (EnhancedTranslationService.translateExtractedTexts svc ts).length,
      (EnhancedTranslationService.translateExtractedTexts svc ts).get ⟨k, hk2⟩ =
        { ts.get ⟨k, hk⟩ with
            translatedText := some (ts.get ⟨k, hk⟩).originalText }) ∧
    (∀ (i : Nat) (hi : i < ts.length)
        (hi2 : i < (EnhancedTranslationService.translateExtractedTexts svc ts).length)
        (tr : String), svc (ts.get ⟨i, hi⟩) = .ok tr →
      (EnhancedTranslationService.translateExtractedTexts svc ts).get ⟨i, hi2⟩ =
        { ts.get ⟨i, hi⟩ with translatedText := some tr }) := by
  have hmap := EnhancedTranslationService.translateExtractedTexts_eq_map svc ts
  refine ⟨by rw [hmap]; exact List.length_map ts _, ?_, ?_⟩
  · intro hk2
    simp only [hmap, List.get_eq_getElem, List.getElem_map]
    unfold EnhancedTranslationService.translateOne
    rw [show svc ts[k] = Except.error e from hfail]
  · intro i hi hi2 tr hok
    simp only [hmap, List.get_eq_getElem, List.getElem_map]
    unfold EnhancedTranslationService.translateOne
    rw [show svc ts[i] = Except.ok tr from hok]

/-- C4 (witness): a two-fragment batch where the second call throws. -/
theorem C4_fault_isolation_witness :
    (EnhancedTranslationService.translateExtractedTexts
        (fun t => if t.id = "b" then .error "boom" else .ok (t.originalText ++ "!"))
        [{ id := "a", originalText := "x", translatedText := none, path := "a",
           context := "", type := .text },
         { id := "b", originalText := "y", translatedText := none, path := "b",
           context := "", type := .text }]).length = 2 ∧
    (EnhancedTranslationService.translateExtractedTexts
        (fun t => if t.id = "b" then .error "boom" else .ok (t.originalText ++ "!"))
        [{ id := "a", originalText := "x", translatedText := none, path := "a",
           context := "", type := .text },
         { id := "b", originalText := "y", translatedText := none, path := "b",
           context := "", type := .text }]).get ⟨1, by decide⟩ =
      { id := "b", originalText := "y", translatedText := some "y", path := "b",
        context := "", type := .text } := by
  have h := C4_fault_isolation
    (fun t => if t.id = "b" then .error "boom" else .ok (t.originalText ++ "!"))
    [{ id := "a", originalText := "x", translatedText := none, path := "a",
       context := "", type := .text },
     { id := "b", originalText := "y", translatedText := none, path := "b",
       context := "", type := .text }] 1 "boom" (by decide) (by rfl)
  exact ⟨h.1, h.2.1 (by rw [h.1]; decide)⟩

/-- C5 (counterexample): the retry loop never inspects the error: a 400
Bad Request — a non-transient kind by the spec's taxonomy — is still
retried, making 3 attempts at `maxRetries = 2` with backoff sleeps of
100 and 200 ms, instead of propagating immediately. -/
theorem C5_counterexample :
    DeepLService.isTransient (DeepLService.errorKind
      { responseStatus := some 400, dataMessage := none, code := none, message := "m" }) =
        false ∧
    DeepLService.executeWithRetry
      (fun _ => .error (DeepLService.handleApiError
        { responseStatus := some 400, dataMessage := none, code := none, message := "m" }))
      2 100 =
      (.error "Bad Request: Invalid parameters", 3, [100, 200]) :=
  ⟨by decide, by rfl⟩

/-- C5 (amended): the adapter retries every failed request, regardless of
the error's kind, with exponential backoff `retryDelay * 2 ^ attempt` up
to `maxRetries` retries; the last attempt's error propagates only after
all `maxRetries + 1` attempts fail, and a success returns immediately. -/
theorem C5_amended :
    (∀ (op : Nat → Except String String) (maxRetries retryDelay : Nat),
      (∀ a, ∃ e, op a = .error e) →
      ∃ e, op maxRetries = .error e ∧
        DeepLService.executeWithRetry op maxRetries retryDelay =
          (.error e, maxRetries + 1,
            (List.range maxRetries).map (fun i => retryDelay * 2 ^ i))) ∧
    (∀ (op : Nat → Except String String) (maxRetries retryDelay : Nat) (x : String),
      op 0 = .ok x →
      DeepLService.executeWithRetry op maxRetries retryDelay = (.ok x, 1, [])) := by
  constructor
  · intro op maxRetries retryDelay hfail
    obtain ⟨e, he, hgo⟩ := DeepLService.ewrGo_allFail op retryDelay hfail maxRetries 0
    refine ⟨e, by simpa using he, ?_⟩
    unfold DeepLService.executeWithRetry
    rw [hgo]
    refine congrArg (fun l => ((Except.error e : Except String String), maxRetries + 1, l)) ?_
    refine List.map_congr_left ?_
    intro i _
    rw [Nat.zero_add]
  · intro op maxRetries retryDelay x h
    unfold DeepLService.executeWithRetry
    cases maxRetries with
    | zero => simp [DeepLService.ewrGo, h]
    | succ m =>
      show DeepLService.ewrGo op retryDelay 0 (m + 2) = (.ok x, 1, [])
      simp [DeepLService.ewrGo, h]

/-- C5 (witness): the amended retry behavior at a concrete always-failing
operation and a concrete immediately-succeeding one. -/
theorem C5_amended_witness :
    (∃ e, (fun (_ : Nat) => (Except.error "x" : Except String String)) 2 = .error e ∧
      DeepLService.executeWithRetry (fun _ => .error "x") 2 100 =
        (.error e, 2 + 1, (List.range 2).map (fun i => 100 * 2 ^ i))) ∧
    DeepLService.executeWithRetry (fun _ => .ok "done") 5 100 = (.ok "done", 1, []) :=
  ⟨C5_amended.1 (fun _ => .error "x") 2 100 (fun _ => ⟨"x", rfl⟩),
   C5_amended.2 (fun _ => .ok "done") 5 100 "done" rfl⟩

/-- C6: cache convergence of the DeepL adapter — for a truthy source
language, a fresh memory key, and a non-empty backend translation, the
first translateText call issues one backend request and stores the entry
with `usageCount 1`; a second call with the same arguments issues zero
backend requests (whatever its backend would do), returns the same
translation, and bumps the entry to `usageCount 2` with `lastUsed`
refreshed. -/
theorem C6_cache_convergence
    (backend1 backend2 : List String → Except String (List String × Option String))
    (text targetLang srcLang tr now1 now2 : String) (detected : Option String)
    (mem0 : DeepLService.Mem)
    (hsrc : srcLang ≠ "") (htr : tr ≠ "")
    (hmiss : DeepLService.mget mem0 (DeepLService.getMemoryKey text srcLang targetLang) = none)
    (hbk : backend1 [text] = .ok ([tr], detected)) :
    DeepLService.translateText backend1 [text] targetLang (some srcLang) now1 mem0 =
      (.ok [tr],
       DeepLService.mset mem0 (DeepLService.getMemoryKey text srcLang targetLang)
         { id := DeepLService.getMemoryKey text srcLang targetLang, sourceText := text,
           translatedText := tr, sourceLanguage := srcLang, targetLanguage := targetLang,
           contentType := "text", createdAt := now1, usageCount := 1, lastUsed := now1 },
       1) ∧
    DeepLService.translateText backend2 [text] targetLang (some srcLang) now2
        (DeepLService.mset mem0 (DeepLService.getMemoryKey text srcLang targetLang)
          { id := DeepLService.getMemoryKey text srcLang targetLang, sourceText := text,
            translatedText := tr, sourceLanguage := srcLang, targetLanguage := targetLang,
            contentType := "text", createdAt := now1, usageCount := 1, lastUsed := now1 }) =
      (.ok [tr],
       DeepLService.mset mem0 (DeepLService.getMemoryKey text srcLang targetLang)
         { id := DeepLService.getMemoryKey text srcLang targetLang, sourceText := text,
           translatedText := tr, sourceLanguage := srcLang, targetLanguage := targetLang,
           contentType := "text", createdAt := now1, usageCount := 2, lastUsed := now2 },
       0) := by
  have hauto : jsOrElse (some srcLang) "auto" = srcLang := by
    simp [jsOrElse, hsrc]
  have hauto2 : ∀ d, jsOrElse (some srcLang) d = srcLang := by
    intro d
    simp [jsOrElse, hsrc]
  constructor
  · unfold DeepLService.translateText
    rw [hauto]
    simp only [DeepLService.checkTranslationMemory, hmiss]
    simp only [DeepLService.truthyCached, List.zip, List.zipWith, List.filter, List.map,
      Bool.not_false, List.isEmpty]
    rw [hbk]
    simp only [DeepLService.storeInTranslationMemory, DeepLService.mergeResults,
      DeepLService.truthyCached, List.headD, List.tail, hauto2]
    simp
  · unfold DeepLService.translateText
    rw [hauto]
    simp only [DeepLService.checkTranslationMemory, DeepLService.mget_mset_self]
    have hdec : (!decide (tr ≠ "")) = false := by simp [htr]
    simp only [DeepLService.truthyCached, List.zip, List.zipWith, List.filter, List.map,
      List.isEmpty, hdec]
    simp [DeepLService.mset_mset]

/-- C6 (witness): cache convergence at a concrete call pair; the second
call's backend always throws, so a second backend request would be
visible. -/
theorem C6_cache_convergence_witness :
    DeepLService.translateText (fun _ => .ok (["Hallo Welt"], some "en")) ["Hello World"]
        "de" (some "en") "t1" [] =
      (.ok ["Hallo Welt"],
       DeepLService.mset [] (DeepLService.getMemoryKey "Hello World" "en" "de")
         { id := DeepLService.getMemoryKey "Hello World" "en" "de",
           sourceText := "Hello World", translatedText := "Hallo Welt",
           sourceLanguage := "en", targetLanguage := "de", contentType := "text",
           createdAt := "t1", usageCount := 1, lastUsed := "t1" },
       1) ∧
    DeepLService.translateText (fun _ => .error "unused") ["Hello World"] "de" (some "en") "t2"
        (DeepLService.mset [] (DeepLService.getMemoryKey "Hello World" "en" "de")
          { id := DeepLService.getMemoryKey "Hello World" "en" "de",
            sourceText := "Hello World", translatedText := "Hallo Welt",
            sourceLanguage := "en", targetLanguage := "de", contentType := "text",
            createdAt := "t1", usageCount := 1, lastUsed := "t1" }) =
      (.ok ["Hallo Welt"],
       DeepLService.mset [] (DeepLService.getMemoryKey "Hello World" "en" "de")
         { id := DeepLService.getMemoryKey "Hello World" "en" "de",
           sourceText := "Hello World", translatedText := "Hallo Welt",
           sourceLanguage := "en", targetLanguage := "de", contentType := "text",
           createdAt := "t1", usageCount := 2, lastUsed := "t2" },
       0) :=
  C6_cache_convergence (fun _ => .ok (["Hallo Welt"], some "en")) (fun _ => .error "unused")
    "Hello World" "de" "en" "Hallo Welt" "t1" "t2" (some "en") []
    (by decide) (by decide) (by decide) rfl

/-- C7: the orchestrator's batched translation is the positional map of
the wrapped per-fragment call: output length and order equal the input's,
and each output fragment is its input fragment with only `translatedText`
filled in (the backend translation on success, the original text on
failure) — independent of completion order, which the model's
`Promise.all` positional semantics fixes. -/
theorem C7_order_preservation (svc : ExtractedText → Except String String)
    (ts : List ExtractedText) :
    EnhancedTranslationService.translateExtractedTexts svc ts =
      ts.map (EnhancedTranslationService.translateOne svc) ∧
    (EnhancedTranslationService.translateExtractedTexts svc ts).length = ts.length ∧
    (∀ t : ExtractedText,
      (EnhancedTranslationService.translateOne svc t).id = t.id ∧
      (EnhancedTranslationService.translateOne svc t).originalText = t.originalText ∧
      (EnhancedTranslationService.translateOne svc t).path = t.path ∧
      (EnhancedTranslationService.translateOne svc t).context = t.context ∧
      (EnhancedTranslationService.translateOne svc t).type = t.type ∧
      (EnhancedTranslationService.translateOne svc t).translatedText =
        some (match svc t with | .ok tr => tr | .error _ => t.originalText)) := by
  refine ⟨EnhancedTranslationService.translateExtractedTexts_eq_map svc ts, ?_, ?_⟩
  · rw [EnhancedTranslationService.translateExtractedTexts_eq_map svc ts]
    exact List.length_map ts _
  · intro t
    unfold EnhancedTranslationService.translateOne
    cases svc t <;> simp

/-- C8: when the original content fails to re-parse as JSON, every
structural parser's reconstruct returns it unchanged for every fragment
list (the catch path). -/
theorem C8_parse_failure_passthrough (content : String) (ts : List ExtractedText)
    (h : jsParse content = none) :
    JsonParser.reconstruct content ts = content ∧
    EditorJSParser.reconstruct content ts = content ∧
    GrapeJSParser.reconstruct content ts = content := by
  refine ⟨?_, ?_, ?_⟩
  · unfold JsonParser.reconstruct
    rw [h]
  · unfold EditorJSParser.reconstruct
    rw [h]
  · unfold GrapeJSParser.reconstruct
    rw [h]

/-- C8 (witness): the passthrough at a concrete non-JSON string. -/
theorem C8_parse_failure_passthrough_witness :
    JsonParser.reconstruct "not valid json" [] = "not valid json" ∧
    EditorJSParser.reconstruct "not valid json" [] = "not valid json" ∧
    GrapeJSParser.reconstruct "not valid json" [] = "not valid json" :=
  C8_parse_failure_passthrough "not valid json" [] (by decide)

/-- C9: the Markdown document with a real header and a fenced pseudo
header yields exactly one fragment, the real header's text; the fenced
line is skipped by the code-block state machine. -/
theorem C9_code_fence_exclusion :
    MarkdownParser.parse "# Title\n```\n# not a header\n```\n" =
      [{ id := "line_0_header", originalText := "Title", translatedText := none,
         path := "line_0_header", context := "H1 header", type := .text }] := by
  decide

/-- C10: the generic JSON parser's textual filter rejects the URL, the
email, the hex-like id, the empty string and the two-character string,
and accepts the product name; accordingly extraction at a string leaf
emits no fragment for the former and exactly one fragment for the
latter, at every path and context. -/
theorem C10_textual_filter :
    JsonParser.isTextualContent "https://example.com" = false ∧
    JsonParser.isTextualContent "a@b.com" = false ∧
    JsonParser.isTextualContent "3f9a1c2d" = false ∧
    JsonParser.isTextualContent "" = false ∧
    JsonParser.isTextualContent "Hi" = false ∧
    JsonParser.isTextualContent "Premium Wireless Headphones" = true ∧
    (∀ path ctx : String,
      JsonParser.extractFromObject (J.str "https://example.com") path ctx = [] ∧
      JsonParser.extractFromObject (J.str "a@b.com") path ctx = [] ∧
      JsonParser.extractFromObject (J.str "3f9a1c2d") path ctx = [] ∧
      JsonParser.extractFromObject (J.str "") path ctx = [] ∧
      JsonParser.extractFromObject (J.str "Hi") path ctx = [] ∧
      JsonParser.extractFromObject (J.str "Premium Wireless Headphones") path ctx =
        [{ id := path, originalText := "Premium Wireless Headphones",
           translatedText := none, path := path, context := ctx, type := .text }]) := by
  refine ⟨by decide, by decide, by decide, by decide, by decide, by decide, ?_⟩
  intro path ctx
  refine ⟨?_, ?_, ?_, ?_, ?_, ?_⟩ <;>
    simp [JsonParser.extractFromObject] <;> decide
